import Mathlib

/-!
Verification of the core of the `rust_radix_trie` repository: a generic
radix trie mapping keys (encoded as sequences of 4-bit nibbles) to values.

The repository's `src/` holds the `Trie` facade (`trie.rs`), the iterators
(`iter.rs`) and the quickcheck tests (`qc_test.rs`).  The node-level core
(`TrieNode` with `get`, `insert`, `remove`, `get_ancestor`,
`check_integrity_recursive`) and the `NibbleVec` type are not under `src/`;
those definitions are modelled from the specification (sections 3, 4.2-4.9),
and are marked `Modelled from the spec:` in their doc comments.  Everything
on the `Trie` facade and the iterator is translated from the source.
-/

set_option maxHeartbeats 1000000

namespace RadixTrie

/-- Modelled from the spec: a nibble is a 4-bit symbol (0..15). -/
abbrev Nibble := Fin 16

/-- Modelled from the spec: a `NibbleVec` is a sequence of nibbles.  The
byte-to-nibble lifting of the key encoding is left implicit: keys encode
directly to nibble sequences here. -/
abbrev NibbleVec := List Nibble

/-- Modelled from the spec: `match_count a b` returns the largest
`i ≤ min |a| |b|` with `a[..i] = b[..i]` (length of the common prefix). -/
def matchCount : NibbleVec → NibbleVec → Nat
  | a :: as, b :: bs => if a = b then matchCount as bs + 1 else 0
  | _, _ => 0

theorem matchCount_le_left (a b : NibbleVec) : matchCount a b ≤ a.length := by
  induction a generalizing b with
  | nil => simp [matchCount]
  | cons x xs ih =>
    cases b with
    | nil => simp [matchCount]
    | cons y ys =>
      rw [matchCount]
      split
      · simpa using ih ys
      · simp

theorem matchCount_le_right (a b : NibbleVec) : matchCount a b ≤ b.length := by
  induction a generalizing b with
  | nil => simp [matchCount]
  | cons x xs ih =>
    cases b with
    | nil => simp [matchCount]
    | cons y ys =>
      rw [matchCount]
      split
      · simpa using ih ys
      · simp

theorem matchCount_self (a : NibbleVec) : matchCount a a = a.length := by
  induction a with
  | nil => simp [matchCount]
  | cons x xs ih => simp [matchCount, ih]

theorem matchCount_take_eq (a b : NibbleVec) :
    a.take (matchCount a b) = b.take (matchCount a b) := by
  induction a generalizing b with
  | nil => simp [matchCount]
  | cons x xs ih =>
    cases b with
    | nil => simp [matchCount]
    | cons y ys =>
      rw [matchCount]
      split
      · rename_i hxy
        simp [List.take_succ_cons, hxy, ih ys]
      · simp

theorem matchCount_getD_ne {a b : NibbleVec} (ha : matchCount a b < a.length)
    (hb : matchCount a b < b.length) : a.getD (matchCount a b) 0 ≠ b.getD (matchCount a b) 0 := by
  induction a generalizing b with
  | nil => simp at ha
  | cons x xs ih =>
    cases b with
    | nil => simp at hb
    | cons y ys =>
      by_cases hxy : x = y
      · rw [matchCount, if_pos hxy] at ha hb ⊢
        simp only [List.length_cons, Nat.add_lt_add_iff_right] at ha hb
        simpa [List.getD_cons_succ] using ih ha hb
      · rw [matchCount, if_neg hxy] at ha hb ⊢
        simpa [List.getD_cons_zero] using hxy

theorem le_matchCount_of_take_eq {a b : NibbleVec} {i : Nat}
    (hi : i ≤ a.length) (h : a.take i = b.take i) : i ≤ matchCount a b := by
  induction a generalizing b i with
  | nil => simp at hi; omega
  | cons x xs ih =>
    cases i with
    | zero => omega
    | succ j =>
      cases b with
      | nil => simp at h
      | cons y ys =>
        simp only [List.take_succ_cons, List.cons.injEq] at h
        rw [matchCount]
        simp only [List.length_cons, Nat.succ_le_succ_iff] at hi
        rw [if_pos h.1]
        have := ih hi h.2
        omega

theorem matchCount_of_isPrefix {a b : NibbleVec} (h : a.IsPrefix b) :
    matchCount a b = a.length := by
  have h1 := matchCount_le_left a b
  have h2 : a.length ≤ matchCount a b := by
    apply le_matchCount_of_take_eq (le_refl _)
    rw [List.take_length]
    exact List.prefix_iff_eq_take.1 h
  omega

theorem matchCount_append_both (a x y : NibbleVec) :
    matchCount (a ++ x) (a ++ y) = a.length + matchCount x y := by
  induction a with
  | nil => simp
  | cons c cs ih => simp [matchCount, ih]; omega

theorem matchCount_comm (a b : NibbleVec) : matchCount a b = matchCount b a := by
  induction a generalizing b with
  | nil => cases b <;> simp [matchCount]
  | cons x xs ih =>
    cases b with
    | nil => simp [matchCount]
    | cons y ys =>
      rw [matchCount, matchCount]
      by_cases hxy : x = y
      · rw [if_pos hxy, if_pos hxy.symm, ih]
      · rw [if_neg hxy, if_neg (Ne.symm hxy)]

theorem matchCount_append_left_of_lt {x z : NibbleVec} (y : NibbleVec)
    (h : matchCount x z < x.length) : matchCount (x ++ y) z = matchCount x z := by
  induction x generalizing z with
  | nil => simp at h
  | cons a as ih =>
    cases z with
    | nil => simp [matchCount] at h ⊢
    | cons b bs =>
      by_cases hab : a = b
      · rw [matchCount, if_pos hab] at h ⊢
        rw [List.cons_append, matchCount, if_pos hab]
        simp only [List.length_cons, Nat.add_lt_add_iff_right] at h
        rw [ih h]
      · rw [List.cons_append, matchCount, if_neg hab, matchCount, if_neg hab]

theorem matchCount_zero_of_head_ne {x z : NibbleVec}
    (h : x.getD 0 0 ≠ z.getD 0 0) : matchCount x z = 0 := by
  cases x with
  | nil => cases z <;> rfl
  | cons a as =>
    cases z with
    | nil => rfl
    | cons b bs =>
      simp only [List.getD_cons_zero] at h
      rw [matchCount, if_neg h]

theorem matchCount_take_self {x : NibbleVec} {m : Nat} (h : m ≤ x.length) :
    matchCount x (x.take m) = m := by
  rw [matchCount_comm]
  have := matchCount_of_isPrefix (List.take_prefix m x)
  rw [this, List.length_take]
  omega

/-- Read slot `i` of a children array; empty (or out-of-range) slots read
as `none`. -/
def getSlot {α : Type _} : List (Option α) → Nat → Option α
  | [], _ => none
  | c :: _, 0 => c
  | _ :: cs, n + 1 => getSlot cs n

/-- Write slot `i` of a children array.  Real children arrays always have
16 slots and indices are below 16; for totality an out-of-range write pads
with empty slots. -/
def setSlot {α : Type _} : List (Option α) → Nat → Option α → List (Option α)
  | [], 0, v => [v]
  | [], n + 1, v => none :: setSlot [] n v
  | _ :: cs, 0, v => v :: cs
  | c :: cs, n + 1, v => c :: setSlot cs n v

section SlotLemmas

variable {α : Type _}

@[simp] theorem getSlot_setSlot_self (cs : List (Option α)) (i : Nat) (v : Option α) :
    getSlot (setSlot cs i v) i = v := by
  induction cs generalizing i with
  | nil =>
    induction i with
    | zero => rfl
    | succ j ih => simpa [setSlot, getSlot] using ih
  | cons c t ih =>
    cases i with
    | zero => rfl
    | succ j => simpa [setSlot, getSlot] using ih j

theorem getSlot_setSlot_ne (cs : List (Option α)) {i j : Nat} (h : i ≠ j) (v : Option α) :
    getSlot (setSlot cs i v) j = getSlot cs j := by
  induction cs generalizing i j with
  | nil =>
    induction i generalizing j with
    | zero => cases j with
      | zero => omega
      | succ j' => simp [setSlot, getSlot]
    | succ i' ih =>
      cases j with
      | zero => simp [setSlot, getSlot]
      | succ j' => simpa [setSlot, getSlot] using ih (by omega)
  | cons c t ih =>
    cases i with
    | zero =>
      cases j with
      | zero => omega
      | succ j' => simp [setSlot, getSlot]
    | succ i' =>
      cases j with
      | zero => simp [setSlot, getSlot]
      | succ j' => simpa [setSlot, getSlot] using ih (by omega)

theorem setSlot_length (cs : List (Option α)) {i : Nat} (hi : i < cs.length) (v : Option α) :
    (setSlot cs i v).length = cs.length := by
  induction cs generalizing i with
  | nil => simp at hi
  | cons c t ih =>
    cases i with
    | zero => simp [setSlot]
    | succ j =>
      simp only [List.length_cons] at hi
      simpa [setSlot] using ih (by omega)

theorem setSlot_eq_self {cs : List (Option α)} {i : Nat} {v : Option α}
    (hi : i < cs.length) (h : getSlot cs i = v) : setSlot cs i v = cs := by
  induction cs generalizing i with
  | nil => simp at hi
  | cons c t ih =>
    cases i with
    | zero => simp [getSlot] at h; simp [setSlot, h]
    | succ j =>
      simp only [List.length_cons] at hi
      simp only [getSlot] at h
      simpa [setSlot] using ih (by omega) h

theorem setSlot_setSlot_same (cs : List (Option α)) (i : Nat) (v w : Option α) :
    setSlot (setSlot cs i v) i w = setSlot cs i w := by
  induction cs generalizing i with
  | nil =>
    induction i with
    | zero => rfl
    | succ j ih => simpa [setSlot] using ih
  | cons c t ih =>
    cases i with
    | zero => rfl
    | succ j => simpa [setSlot] using ih j

theorem eq_take_getSlot_drop {cs : List (Option α)} {i : Nat} (hi : i < cs.length) :
    cs = cs.take i ++ getSlot cs i :: cs.drop (i + 1) := by
  induction cs generalizing i with
  | nil => simp at hi
  | cons c t ih =>
    cases i with
    | zero => simp [getSlot]
    | succ j =>
      simp only [List.length_cons] at hi
      simpa [getSlot, List.take_succ_cons, List.drop_succ_cons] using ih (by omega)

theorem setSlot_eq_take_drop {cs : List (Option α)} {i : Nat} (hi : i < cs.length)
    (v : Option α) : setSlot cs i v = cs.take i ++ v :: cs.drop (i + 1) := by
  induction cs generalizing i with
  | nil => simp at hi
  | cons c t ih =>
    cases i with
    | zero => simp [setSlot]
    | succ j =>
      simp only [List.length_cons] at hi
      simpa [setSlot, List.take_succ_cons, List.drop_succ_cons] using ih (by omega)

end SlotLemmas

/-- Modelled from the spec: a trie node carries its own key fragment (a
`NibbleVec`), optionally the owning key/value pair, a fixed 16-slot
children array indexed by the first nibble of each child's fragment, and a
cached count of the non-empty slots.  (The spec's `KeyValue` record is a
plain pair here.) -/
inductive TrieNode (K V : Type _) : Type _ where
  | mk (key : NibbleVec) (key_value : Option (K × V))
       (children : List (Option (TrieNode K V))) (child_count : Nat)

namespace TrieNode

variable {K V : Type _}

/-- The node's own key fragment. -/
def key : TrieNode K V → NibbleVec
  | mk k _ _ _ => k

/-- The node's optional owning key/value pair. -/
def key_value : TrieNode K V → Option (K × V)
  | mk _ kv _ _ => kv

/-- The node's 16-slot children array. -/
def children : TrieNode K V → List (Option (TrieNode K V))
  | mk _ _ cs _ => cs

/-- The node's cached count of non-empty child slots. -/
def child_count : TrieNode K V → Nat
  | mk _ _ _ cc => cc

@[simp] theorem key_mk (k : NibbleVec) (kv : Option (K × V))
    (cs : List (Option (TrieNode K V))) (cc : Nat) : (mk k kv cs cc).key = k := rfl

@[simp] theorem key_value_mk (k : NibbleVec) (kv : Option (K × V))
    (cs : List (Option (TrieNode K V))) (cc : Nat) : (mk k kv cs cc).key_value = kv := rfl

@[simp] theorem children_mk (k : NibbleVec) (kv : Option (K × V))
    (cs : List (Option (TrieNode K V))) (cc : Nat) : (mk k kv cs cc).children = cs := rfl

@[simp] theorem child_count_mk (k : NibbleVec) (kv : Option (K × V))
    (cs : List (Option (TrieNode K V))) (cc : Nat) : (mk k kv cs cc).child_count = cc := rfl

/-- The all-empty 16-slot children array. -/
def emptyChildren : List (Option (TrieNode K V)) := List.replicate 16 none

/-- Modelled from the spec: a fresh empty root node (empty fragment, no
value, no children). -/
def new : TrieNode K V := mk [] none emptyChildren 0

/-- A fresh leaf node holding fragment `q` and the owning pair `(k, v)`. -/
def leaf (q : NibbleVec) (k : K) (v : V) : TrieNode K V :=
  mk q (some (k, v)) emptyChildren 0

/-- Number of non-empty slots of a children array. -/
def countSome : List (Option (TrieNode K V)) → Nat
  | [] => 0
  | none :: cs => countSome cs
  | some _ :: cs => countSome cs + 1

/-- The non-empty children of a children array, in slot order. -/
def nonEmptyChildren (cs : List (Option (TrieNode K V))) : List (TrieNode K V) :=
  cs.filterMap id

theorem sizeOf_lt_of_mem_slots {cs : List (Option (TrieNode K V))} {c : TrieNode K V}
    (h : some c ∈ cs) : sizeOf c < sizeOf cs := by
  induction cs with
  | nil => cases h
  | cons a t ih =>
    rcases List.mem_cons.1 h with h' | h'
    · subst h'
      simp only [List.cons.sizeOf_spec, Option.some.sizeOf_spec]
      omega
    · have := ih h'
      simp only [List.cons.sizeOf_spec]
      omega

theorem sizeOf_lt_of_getSlot {cs : List (Option (TrieNode K V))} {c : TrieNode K V} {i : Nat}
    (h : getSlot cs i = some c) : sizeOf c < sizeOf cs := by
  apply sizeOf_lt_of_mem_slots
  induction cs generalizing i with
  | nil => simp [getSlot] at h
  | cons a t ih =>
    cases i with
    | zero => simp [getSlot] at h; simp [h]
    | succ n => simp [getSlot] at h; exact List.mem_cons_of_mem _ (ih h)

theorem sizeOf_children_lt (n : TrieNode K V) : sizeOf n.children < sizeOf n := by
  cases n with
  | mk k kv cs cc => simp only [children_mk, TrieNode.mk.sizeOf_spec]; omega

theorem sizeOf_lt_of_mem_nonEmpty {cs : List (Option (TrieNode K V))} {c : TrieNode K V}
    (h : c ∈ nonEmptyChildren cs) : sizeOf c < sizeOf cs := by
  apply sizeOf_lt_of_mem_slots
  rcases List.mem_filterMap.1 h with ⟨o, ho, hid⟩
  cases o with
  | none => simp [id] at hid
  | some x => simp [id] at hid; subst hid; exact ho

/-- The nibble of `q` at index `i` (as a `Nat`); real uses always have
`i < q.length`. -/
def nib (q : NibbleVec) (i : Nat) : Nat := (q.getD i 0).val

/-- Modelled from the spec: node lookup.  With remaining query `q`, let
`m = match_count self.key q`.  If `m < |self.key|` there is no match; if
`m = |q|` the node itself is the result; otherwise consult the child slot
indexed by `q[m]` and recurse with `q` reduced by `m` nibbles. -/
def get : TrieNode K V → NibbleVec → Option (TrieNode K V)
  | n, q =>
    let m := matchCount n.key q
    if m < n.key.length then none
    else if m = q.length then some n
    else
      match h : getSlot n.children (nib q m) with
      | none => none
      | some c => get c (q.drop m)
termination_by n => sizeOf n
decreasing_by
  have h1 := sizeOf_lt_of_getSlot h
  have h2 := sizeOf_children_lt n
  show sizeOf c < sizeOf n
  omega

/-- Modelled from the spec: `value_checked k` yields the stored value iff
`self.key_value` is present and its owning key equals `k`. -/
def value_checked [DecidableEq K] (n : TrieNode K V) (k : K) : Option V :=
  match n.key_value with
  | some (k', v) => if k' = k then some v else none
  | none => none

/-- Modelled from the spec: node insertion of the owning pair `(k, v)` with
encoded remainder `q`.  Returns the updated node and any previous value.
With `m = match_count self.key q`, the four disjoint cases are: exact hit
(install `(k, v)` at `self`, yielding any previous value); descend (recurse
into the occupied child slot, or install a fresh leaf); split with new
branch (value-less intermediate with the shortened `self` and a fresh leaf
as its two children); split promoting the new key (intermediate owning
`(k, v)` with the shortened `self` as sole child). -/
def insert : TrieNode K V → K → V → NibbleVec → TrieNode K V × Option V
  | n, k, v, q =>
    let m := matchCount n.key q
    if hm : m = n.key.length then
      if m = q.length then
        (mk n.key (some (k, v)) n.children n.child_count, n.key_value.map Prod.snd)
      else
        let rest := q.drop m
        let i := nib rest 0
        match h : getSlot n.children i with
        | some c =>
          let r := insert c k v rest
          (mk n.key n.key_value (setSlot n.children i (some r.1)) n.child_count, r.2)
        | none =>
          (mk n.key n.key_value (setSlot n.children i (some (leaf rest k v)))
            (n.child_count + 1), none)
    else
      let common := n.key.take m
      let old_tail := n.key.drop m
      let shortened := mk old_tail n.key_value n.children n.child_count
      if m = q.length then
        (mk common (some (k, v))
          (setSlot emptyChildren (nib old_tail 0) (some shortened)) 1, none)
      else
        (mk common none
          (setSlot (setSlot emptyChildren (nib old_tail 0) (some shortened))
            (nib (q.drop m) 0) (some (leaf (q.drop m) k v))) 2, none)
termination_by n => sizeOf n
decreasing_by
  have h1 := sizeOf_lt_of_getSlot h
  have h2 := sizeOf_children_lt n
  show sizeOf c < sizeOf n
  omega

/-- Modelled from the spec: post-removal compaction of a node, as applied by
its parent.  A node with a value stays; a value-less node with no children
is vacated (`none`); a value-less node with exactly one child merges into
that child, the child's fragment becoming `join(self.key, child.key)`. -/
def compact (n : TrieNode K V) : Option (TrieNode K V) :=
  if n.key_value.isSome then some n
  else
    match nonEmptyChildren n.children with
    | [] => none
    | [c] => some (mk (n.key ++ c.key) c.key_value c.children c.child_count)
    | _ => some n

/-- Modelled from the spec: node removal.  Walks with `q = encode k` exactly
like `get`; at the matching node clears `key_value` (capturing its prior
value) only when the stored owning key equals `k`; on the way back up the
parent vacates a child that became empty and compacts a value-less
single-child node.  The mismatch and absent paths perform no mutation. -/
def removeRec [DecidableEq K] : TrieNode K V → K → NibbleVec → TrieNode K V × Option V
  | n, k, q =>
    let m := matchCount n.key q
    if m < n.key.length then (n, none)
    else if m = q.length then
      match n.key_value with
      | some (k', v) =>
        if k' = k then (mk n.key none n.children n.child_count, some v) else (n, none)
      | none => (n, none)
    else
      let rest := q.drop m
      let i := nib rest 0
      match h : getSlot n.children i with
      | none => (n, none)
      | some c =>
        let r := removeRec c k rest
        match r.2 with
        | none => (n, none)
        | some v =>
          match compact r.1 with
          | none =>
            (mk n.key n.key_value (setSlot n.children i none) (n.child_count - 1), some v)
          | some c' =>
            (mk n.key n.key_value (setSlot n.children i (some c')) n.child_count, some v)
termination_by n => sizeOf n
decreasing_by
  have h1 := sizeOf_lt_of_getSlot h
  have h2 := sizeOf_children_lt n
  show sizeOf c < sizeOf n
  omega

/-- Modelled from the spec: ancestor lookup.  Descends as in `get`, carrying
the deepest value-bearing node seen; descent stops when the fragment fails
to fully match or the child slot is empty. -/
def get_ancestor : TrieNode K V → NibbleVec → Option (TrieNode K V)
  | n, q =>
    let m := matchCount n.key q
    if m < n.key.length then none
    else
      let deeper :=
        if hq : m = q.length then none
        else
          match h : getSlot n.children (nib q m) with
          | none => none
          | some c => get_ancestor c (q.drop m)
      match deeper with
      | some d => some d
      | none => if n.key_value.isSome then some n else none
termination_by n => sizeOf n
decreasing_by
  have h1 := sizeOf_lt_of_getSlot h
  have h2 := sizeOf_children_lt n
  show sizeOf c < sizeOf n
  omega

/-- Ancestor lookup instrumented with the path from the root to the
returned node (`acc` accumulates the fragments consumed above `n`).  Its
node component agrees with `get_ancestor`; the path component is the
concatenation of fragments from the root to the returned node. -/
def getAncestorPath : TrieNode K V → NibbleVec → NibbleVec → Option (NibbleVec × TrieNode K V)
  | n, q, acc =>
    let m := matchCount n.key q
    if m < n.key.length then none
    else
      let deeper :=
        if hq : m = q.length then none
        else
          match h : getSlot n.children (nib q m) with
          | none => none
          | some c => getAncestorPath c (q.drop m) (acc ++ n.key)
      match deeper with
      | some d => some d
      | none => if n.key_value.isSome then some (acc ++ n.key, n) else none
termination_by n => sizeOf n
decreasing_by
  have h1 := sizeOf_lt_of_getSlot h
  have h2 := sizeOf_children_lt n
  show sizeOf c < sizeOf n
  omega

/-- Slot/fragment agreement check for a children array, starting at slot
index `i`: every non-empty slot's index must equal the first nibble of the
child's fragment (invariant I1; it also forces child fragments to be
non-empty). -/
def slotsMatch : Nat → List (Option (TrieNode K V)) → Bool
  | _, [] => true
  | i, none :: rest => slotsMatch (i + 1) rest
  | i, some c :: rest =>
    (match c.key.head? with
     | some x => x.val == i
     | none => false) && slotsMatch (i + 1) rest

/-- Modelled from the spec: the recursive integrity pass.  Returns
`(ok, counted)` where `counted` is the number of value-bearing descendants
including `self`.  At each node it asserts I4 (`child_count` matches the
number of non-empty slots), I3 (the node is the root — empty path — or has
a value or at least two children), I1 (`slotsMatch`), and combines `ok`
from the children; `pfx` is the path from the root down to and including
this node's fragment. -/
def check_integrity_recursive : TrieNode K V → NibbleVec → Bool × Nat
  | n, pfx =>
    let childRes := (nonEmptyChildren n.children).attach.map
      (fun c => check_integrity_recursive c.1 (pfx ++ c.1.key))
    let ok := (n.child_count == countSome n.children)
      && (pfx.isEmpty || n.key_value.isSome || 2 ≤ countSome n.children)
      && slotsMatch 0 n.children
      && childRes.all (·.1)
    (ok, (if n.key_value.isSome then 1 else 0) + (childRes.map (·.2)).sum)
termination_by n => sizeOf n
decreasing_by
  have h1 := sizeOf_lt_of_mem_nonEmpty c.2
  have h2 := sizeOf_children_lt n
  show sizeOf c.1 < sizeOf n
  omega

/-- Number of value-bearing nodes in the subtree rooted at `n`. -/
def countValues : TrieNode K V → Nat
  | n =>
    (if n.key_value.isSome then 1 else 0)
      + ((nonEmptyChildren n.children).attach.map (fun c => countValues c.1)).sum
termination_by n => sizeOf n
decreasing_by
  have h1 := sizeOf_lt_of_mem_nonEmpty c.2
  have h2 := sizeOf_children_lt n
  show sizeOf c.1 < sizeOf n
  omega

/-- The entries stored in the subtree rooted at `n`, in pre-order: the
node's own pair first, then the children in slot order. -/
def toList : TrieNode K V → List (K × V)
  | n =>
    (match n.key_value with | some p => [p] | none => [])
      ++ ((nonEmptyChildren n.children).attach.map (fun c => toList c.1)).flatten
termination_by n => sizeOf n
decreasing_by
  have h1 := sizeOf_lt_of_mem_nonEmpty c.2
  have h2 := sizeOf_children_lt n
  show sizeOf c.1 < sizeOf n
  omega

/-- The entries stored in the subtree rooted at `n` together with their
absolute paths (`acc` is the path from the root down to but excluding
`n.key`): the path of an entry is the concatenation of the fragments from
the root to its node. -/
def toListP : TrieNode K V → NibbleVec → List (NibbleVec × K × V)
  | n, acc =>
    (match n.key_value with | some p => [(acc ++ n.key, p)] | none => [])
      ++ ((nonEmptyChildren n.children).attach.map
            (fun c => toListP c.1 (acc ++ n.key))).flatten
termination_by n => sizeOf n
decreasing_by
  have h1 := sizeOf_lt_of_mem_nonEmpty c.2
  have h2 := sizeOf_children_lt n
  show sizeOf c.1 < sizeOf n
  omega

end TrieNode

/-- The key-encoding capability (`TrieKey` trait): a deterministic, not
necessarily injective map from a typed key to its nibble sequence. -/
class TrieKey (K : Type _) where
  encode : K → NibbleVec

export TrieKey (encode)

namespace TrieNode

variable {K V : Type _}

/-- Modelled from the spec: node-level removal entry point, walking with
`q = encode k` (the facade's `self.node.remove(key)`). -/
def remove [TrieKey K] [DecidableEq K] (n : TrieNode K V) (k : K) : TrieNode K V × Option V :=
  removeRec n k (encode k)

/-- Modelled from the spec: functional rendering of `get_mut` followed by an
in-place update of the value through the returned mutable reference: apply
`f` to the value stored at `q` provided the owning key is `k`. -/
def modifyValue [DecidableEq K] : TrieNode K V → K → NibbleVec → (V → V) → TrieNode K V
  | n, k, q, f =>
    let m := matchCount n.key q
    if m < n.key.length then n
    else if m = q.length then
      match n.key_value with
      | some (k', v) =>
        if k' = k then mk n.key (some (k', f v)) n.children n.child_count else n
      | none => n
    else
      match h : getSlot n.children (nib q m) with
      | none => n
      | some c =>
        mk n.key n.key_value
          (setSlot n.children (nib q m) (some (modifyValue c k (q.drop m) f)))
          n.child_count
termination_by n => sizeOf n
decreasing_by
  have h1 := sizeOf_lt_of_getSlot h
  have h2 := sizeOf_children_lt n
  show sizeOf c < sizeOf n
  omega

end TrieNode

section Semantics

variable {K V : Type _}

namespace TrieNode

/-- The entry stored at path `q` below `n`: the `key_value` of the node that
`get` finds at `q`, if any. -/
def valueAt (n : TrieNode K V) (q : NibbleVec) : Option (K × V) :=
  (n.get q).bind key_value

theorem nib_drop (q : NibbleVec) (m : Nat) : nib (q.drop m) 0 = nib q m := by
  simp only [nib, List.getD_eq_getElem?_getD, List.getElem?_drop, Nat.add_zero]

theorem nib_append_right (x r : NibbleVec) (m : Nat) :
    nib (x ++ r) (x.length + m) = nib r m := by
  simp only [nib, List.getD_eq_getElem?_getD]
  rw [List.getElem?_append_right (by omega)]
  simp

theorem drop_append_right (x r : NibbleVec) (m : Nat) :
    (x ++ r).drop (x.length + m) = r.drop m := by
  rw [List.drop_append_eq_append_drop]
  simp

theorem get_mismatch {n : TrieNode K V} {q : NibbleVec}
    (h : matchCount n.key q < n.key.length) : n.get q = none := by
  rw [get]
  simp only [h, if_pos]

theorem get_term {n : TrieNode K V} {q : NibbleVec}
    (h1 : ¬ matchCount n.key q < n.key.length) (h2 : matchCount n.key q = q.length) :
    n.get q = some n := by
  rw [get, if_neg h1, if_pos h2]

theorem get_descend {n : TrieNode K V} {q : NibbleVec}
    (h1 : ¬ matchCount n.key q < n.key.length) (h2 : matchCount n.key q ≠ q.length) :
    n.get q = match getSlot n.children (nib q (matchCount n.key q)) with
      | none => none
      | some c => c.get (q.drop (matchCount n.key q)) := by
  rw [get, if_neg h1, if_neg h2]
  cases hx : getSlot n.children (nib q (matchCount n.key q)) <;> simp [hx]

theorem valueAt_mismatch {n : TrieNode K V} {q : NibbleVec}
    (h : matchCount n.key q < n.key.length) : n.valueAt q = none := by
  simp [valueAt, get_mismatch h]

theorem valueAt_term {n : TrieNode K V} {q : NibbleVec}
    (h1 : ¬ matchCount n.key q < n.key.length) (h2 : matchCount n.key q = q.length) :
    n.valueAt q = n.key_value := by
  simp [valueAt, get_term h1 h2]

theorem valueAt_descend {n : TrieNode K V} {q : NibbleVec}
    (h1 : ¬ matchCount n.key q < n.key.length) (h2 : matchCount n.key q ≠ q.length) :
    n.valueAt q = match getSlot n.children (nib q (matchCount n.key q)) with
      | none => none
      | some c => c.valueAt (q.drop (matchCount n.key q)) := by
  rw [valueAt, get_descend h1 h2]
  cases getSlot n.children (nib q (matchCount n.key q)) <;> simp [valueAt]

/-- Shifting a common leading fragment from a node's key into the query
leaves the stored-entry view unchanged. -/
theorem valueAt_append_key (x y r : NibbleVec) (kv : Option (K × V))
    (cs : List (Option (TrieNode K V))) (cc : Nat) :
    valueAt (mk (x ++ y) kv cs cc) (x ++ r) = valueAt (mk y kv cs cc) r := by
  have hmc : matchCount (x ++ y) (x ++ r) = x.length + matchCount y r :=
    matchCount_append_both x y r
  by_cases h1 : matchCount y r < y.length
  · rw [valueAt_mismatch, valueAt_mismatch]
    · simpa using h1
    · simp only [key_mk, hmc, List.length_append]
      omega
  · by_cases h2 : matchCount y r = r.length
    · have e1 : valueAt (mk (x ++ y) kv cs cc) (x ++ r) = kv := by
        rw [valueAt_term]
        · simp
        · simp only [key_mk, hmc, List.length_append]
          omega
        · simp only [key_mk, hmc, List.length_append]
          omega
      have e2 : valueAt (mk y kv cs cc) r = kv := by
        rw [valueAt_term]
        · simp
        · simpa using h1
        · simpa using h2
      rw [e1, e2]
    · have e1 : valueAt (mk (x ++ y) kv cs cc) (x ++ r) =
          match getSlot cs (nib r (matchCount y r)) with
          | none => none
          | some c => c.valueAt (r.drop (matchCount y r)) := by
        rw [valueAt_descend]
        · simp only [key_mk, children_mk, hmc]
          rw [nib_append_right, drop_append_right]
          rfl
        · simp only [key_mk, hmc, List.length_append]
          omega
        · simp only [key_mk, hmc, List.length_append]
          have := matchCount_le_right y r
          omega
      have e2 : valueAt (mk y kv cs cc) r =
          match getSlot cs (nib r (matchCount y r)) with
          | none => none
          | some c => c.valueAt (r.drop (matchCount y r)) := by
        rw [valueAt_descend]
        · simp only [key_mk, children_mk]
          rfl
        · simpa using h1
        · simpa using h2
      rw [e1, e2]

theorem eq_key_of_full {x q : NibbleVec} (h1 : ¬ matchCount x q < x.length)
    (h2 : matchCount x q = q.length) : q = x := by
  have hle := matchCount_le_left x q
  have hm : matchCount x q = x.length := by omega
  have ht := matchCount_take_eq x q
  rw [hm, List.take_length] at ht
  rw [ht, ← hm, h2, List.take_length]

theorem key_append_drop {x q : NibbleVec} (h : matchCount x q = x.length) :
    x ++ q.drop x.length = q := by
  have ht := matchCount_take_eq x q
  rw [h, List.take_length] at ht
  conv_rhs => rw [← List.take_append_drop x.length q]
  rw [← ht]

theorem getSlot_replicate_none {α : Type _} (n i : Nat) :
    getSlot (List.replicate n (none : Option α)) i = none := by
  induction n generalizing i with
  | zero => cases i <;> rfl
  | succ j ih =>
    cases i with
    | zero => rfl
    | succ i' => simpa [List.replicate, getSlot] using ih i'

theorem getSlot_emptyChildren (i : Nat) :
    getSlot (emptyChildren : List (Option (TrieNode K V))) i = none :=
  getSlot_replicate_none 16 i

/-- A leaf stores exactly its own pair, at exactly its own fragment. -/
theorem valueAt_leaf (qk : NibbleVec) (k : K) (v : V) (x : NibbleVec) :
    valueAt (leaf qk k v) x = if x = qk then some (k, v) else none := by
  by_cases h1 : matchCount (leaf qk k v).key x < (leaf qk k v).key.length
  · rw [valueAt_mismatch h1]
    rw [if_neg]
    intro hx
    subst hx
    simp only [leaf, key_mk, matchCount_self] at h1
    omega
  · by_cases h2 : matchCount (leaf qk k v).key x = x.length
    · have hx : x = qk := eq_key_of_full h1 h2
      rw [valueAt_term h1 h2, if_pos hx]
      rfl
    · rw [valueAt_descend h1 h2]
      simp only [leaf, children_mk, getSlot_emptyChildren]
      rw [if_neg]
      intro hx
      subst hx
      simp only [leaf, key_mk, matchCount_self] at h2
      exact h2 trivial

/-- Restating `valueAt_append_key` through a key-decomposition hypothesis. -/
theorem valueAt_shift {n : TrieNode K V} {x y : NibbleVec} (h : n.key = x ++ y)
    (r : NibbleVec) :
    valueAt n (x ++ r) = valueAt (mk y n.key_value n.children n.child_count) r := by
  cases n with
  | mk k0 kv cs cc =>
    simp only [key_mk] at h
    subst h
    simpa using valueAt_append_key x y r kv cs cc

theorem insert_exact {n : TrieNode K V} {k : K} {v : V} {q : NibbleVec}
    (h1 : matchCount n.key q = n.key.length) (h2 : matchCount n.key q = q.length) :
    n.insert k v q
      = (mk n.key (some (k, v)) n.children n.child_count, n.key_value.map Prod.snd) := by
  rw [insert]
  rw [dif_pos h1, if_pos h2]

theorem insert_descend_some {n c : TrieNode K V} {k : K} {v : V} {q : NibbleVec}
    (h1 : matchCount n.key q = n.key.length) (h2 : matchCount n.key q ≠ q.length)
    (hc : getSlot n.children (nib (q.drop (matchCount n.key q)) 0) = some c) :
    n.insert k v q
      = (mk n.key n.key_value
          (setSlot n.children (nib (q.drop (matchCount n.key q)) 0)
            (some (c.insert k v (q.drop (matchCount n.key q))).1))
          n.child_count,
         (c.insert k v (q.drop (matchCount n.key q))).2) := by
  rw [insert]
  simp only [dif_pos h1, if_neg h2]
  split
  · rename_i c2 hc2
    rw [hc] at hc2
    cases hc2
    rfl
  · rename_i hc2
    rw [hc] at hc2
    cases hc2

theorem insert_descend_none {n : TrieNode K V} {k : K} {v : V} {q : NibbleVec}
    (h1 : matchCount n.key q = n.key.length) (h2 : matchCount n.key q ≠ q.length)
    (hc : getSlot n.children (nib (q.drop (matchCount n.key q)) 0) = none) :
    n.insert k v q
      = (mk n.key n.key_value
          (setSlot n.children (nib (q.drop (matchCount n.key q)) 0)
            (some (leaf (q.drop (matchCount n.key q)) k v)))
          (n.child_count + 1),
         none) := by
  rw [insert]
  simp only [dif_pos h1, if_neg h2]
  split
  · rename_i c2 hc2
    rw [hc] at hc2
    cases hc2
  · rename_i hc2
    rfl

theorem insert_promote {n : TrieNode K V} {k : K} {v : V} {q : NibbleVec}
    (h1 : matchCount n.key q ≠ n.key.length) (h2 : matchCount n.key q = q.length) :
    n.insert k v q
      = (mk (n.key.take (matchCount n.key q)) (some (k, v))
          (setSlot emptyChildren (nib (n.key.drop (matchCount n.key q)) 0)
            (some (mk (n.key.drop (matchCount n.key q)) n.key_value n.children n.child_count)))
          1,
         none) := by
  rw [insert]
  rw [dif_neg h1, if_pos h2]

theorem insert_branch {n : TrieNode K V} {k : K} {v : V} {q : NibbleVec}
    (h1 : matchCount n.key q ≠ n.key.length) (h2 : matchCount n.key q ≠ q.length) :
    n.insert k v q
      = (mk (n.key.take (matchCount n.key q)) none
          (setSlot
            (setSlot emptyChildren (nib (n.key.drop (matchCount n.key q)) 0)
              (some (mk (n.key.drop (matchCount n.key q)) n.key_value n.children n.child_count)))
            (nib (q.drop (matchCount n.key q)) 0)
            (some (leaf (q.drop (matchCount n.key q)) k v)))
          2,
         none) := by
  rw [insert]
  rw [dif_neg h1, if_neg h2]

theorem insert_snd (n : TrieNode K V) (k : K) (v : V) (q : NibbleVec) :
    (n.insert k v q).2 = (n.valueAt q).map Prod.snd := by
  induction n, k, v, q using insert.induct with
  | case1 n k v q m h1 h2 =>
    have h1' : matchCount n.key q = n.key.length := h1
    have h2' : matchCount n.key q = q.length := h2
    rw [insert_exact h1' h2', valueAt_term (by omega) h2']
  | case2 n k v q m h1 h2 rest i c hc ih =>
    have h1' : matchCount n.key q = n.key.length := h1
    have h2' : matchCount n.key q ≠ q.length := h2
    have hc' : getSlot n.children (nib (q.drop (matchCount n.key q)) 0) = some c := hc
    rw [insert_descend_some h1' h2' hc']
    rw [valueAt_descend (by omega) h2']
    rw [nib_drop] at hc'
    simp only [hc']
    exact ih
  | case3 n k v q m h1 h2 rest i hc =>
    have h1' : matchCount n.key q = n.key.length := h1
    have h2' : matchCount n.key q ≠ q.length := h2
    have hc' : getSlot n.children (nib (q.drop (matchCount n.key q)) 0) = none := hc
    rw [insert_descend_none h1' h2' hc']
    rw [valueAt_descend (by omega) h2']
    rw [nib_drop] at hc'
    simp only [hc']
    rfl
  | case4 n k v q m h1 h2 =>
    have h1' : matchCount n.key q ≠ n.key.length := h1
    have h2' : matchCount n.key q = q.length := h2
    have hlt : matchCount n.key q < n.key.length := by
      have := matchCount_le_left n.key q
      omega
    rw [insert_promote h1' h2', valueAt_mismatch hlt]
    rfl
  | case5 n k v q m h1 h2 =>
    have h1' : matchCount n.key q ≠ n.key.length := h1
    have h2' : matchCount n.key q ≠ q.length := h2
    have hlt : matchCount n.key q < n.key.length := by
      have := matchCount_le_left n.key q
      omega
    rw [insert_branch h1' h2', valueAt_mismatch hlt]
    rfl

theorem nib_ne_of_getD_ne {a b : NibbleVec} {i j : Nat}
    (h : a.getD i 0 ≠ b.getD j 0) : nib a i ≠ nib b j := by
  simp only [nib]
  intro hv
  exact h (Fin.val_injective hv)

/-- The pointwise semantics of insertion: the entry at `q` becomes `(k, v)`
and every other path keeps its entry. -/
theorem insert_valueAt (n : TrieNode K V) (k : K) (v : V) (q q' : NibbleVec) :
    valueAt (n.insert k v q).1 q' = if q' = q then some (k, v) else valueAt n q' := by
  induction n, k, v, q using insert.induct generalizing q' with
  | case1 n k v q m h1 h2 =>
    have h1' : matchCount n.key q = n.key.length := h1
    have h2' : matchCount n.key q = q.length := h2
    have hq : q = n.key := eq_key_of_full (by omega) h2'
    rw [insert_exact h1' h2']
    by_cases hm1 : matchCount n.key q' < n.key.length
    · rw [valueAt_mismatch (n := mk n.key (some (k, v)) n.children n.child_count) (by simpa using hm1)]
      rw [valueAt_mismatch hm1]
      rw [if_neg]
      intro hx
      subst hx
      omega
    · by_cases hm2 : matchCount n.key q' = q'.length
      · have hq' : q' = n.key := eq_key_of_full hm1 hm2
        rw [if_pos (hq'.trans hq.symm)]
        rw [valueAt_term (n := mk n.key (some (k, v)) n.children n.child_count) (by simpa using hm1) (by simpa using hm2)]
        rfl
      · rw [if_neg]
        · rw [valueAt_descend (n := mk n.key (some (k, v)) n.children n.child_count) (by simpa using hm1) (by simpa using hm2)]
          rw [valueAt_descend hm1 hm2]
          rfl
        · intro hx
          subst hx
          exact hm2 h2'
  | case2 n k v q m h1 h2 rest i c hc ih =>
    have h1' : matchCount n.key q = n.key.length := h1
    have h2' : matchCount n.key q ≠ q.length := h2
    have hc' : getSlot n.children (nib (q.drop (matchCount n.key q)) 0) = some c := hc
    have hqlen : matchCount n.key q ≤ q.length := matchCount_le_right n.key q
    have hqlt : n.key.length < q.length := by omega
    have hqdec : n.key ++ q.drop n.key.length = q := key_append_drop h1'
    rw [insert_descend_some h1' h2' hc']
    rw [nib_drop] at hc'
    by_cases hm1 : matchCount n.key q' < n.key.length
    · rw [valueAt_mismatch (n := mk n.key n.key_value _ n.child_count) (by simpa using hm1)]
      rw [valueAt_mismatch hm1]
      rw [if_neg]
      intro hx
      subst hx
      omega
    · have hm1' : matchCount n.key q' = n.key.length := by
        have := matchCount_le_left n.key q'
        omega
      have hqdec' : n.key ++ q'.drop n.key.length = q' := key_append_drop hm1'
      by_cases hm2 : matchCount n.key q' = q'.length
      · have hq' : q' = n.key := eq_key_of_full hm1 hm2
        rw [if_neg (by intro hx; subst hx; omega)]
        rw [valueAt_term (n := mk n.key n.key_value _ n.child_count) (by simpa using hm1) (by simpa using hm2)]
        rw [valueAt_term hm1 hm2]
        rfl
      · rw [valueAt_descend (n := mk n.key n.key_value _ n.child_count) (by simpa using hm1) (by simpa using hm2)]
        rw [valueAt_descend hm1 hm2]
        simp only [key_mk, children_mk]
        have ihd : ∀ (x : NibbleVec), valueAt (c.insert k v (q.drop (matchCount n.key q))).1 x
            = if x = q.drop (matchCount n.key q) then some (k, v) else valueAt c x := ih
        have hc0 : getSlot n.children (nib (q.drop (matchCount n.key q)) 0) = some c := hc
        have hmm : matchCount n.key q' = matchCount n.key q := by omega
        rw [hmm]
        have hiff : q' = q ↔ q'.drop (matchCount n.key q) = q.drop (matchCount n.key q) := by
          constructor
          · intro hx; rw [hx]
          · intro hx
            rw [← hqdec', ← hqdec, ← h1', hx]
        by_cases hij : nib q' (matchCount n.key q) = nib (q.drop (matchCount n.key q)) 0
        · rw [hij]
          simp only [getSlot_setSlot_self, hc0]
          rw [ihd]
          by_cases hdd : q'.drop (matchCount n.key q) = q.drop (matchCount n.key q)
          · rw [if_pos hdd, if_pos (hiff.2 hdd)]
          · rw [if_neg hdd, if_neg (fun hx => hdd (hiff.1 hx))]
        · rw [getSlot_setSlot_ne _ (fun hx => hij hx.symm)]
          rw [if_neg]
          intro hx
          subst hx
          exact hij (nib_drop q' (matchCount n.key q')).symm
  | case3 n k v q m h1 h2 rest i hc =>
    have h1' : matchCount n.key q = n.key.length := h1
    have h2' : matchCount n.key q ≠ q.length := h2
    have hc' : getSlot n.children (nib (q.drop (matchCount n.key q)) 0) = none := hc
    have hqlen : matchCount n.key q ≤ q.length := matchCount_le_right n.key q
    have hqlt : n.key.length < q.length := by omega
    have hqdec : n.key ++ q.drop n.key.length = q := key_append_drop h1'
    rw [insert_descend_none h1' h2' hc']
    rw [nib_drop] at hc'
    by_cases hm1 : matchCount n.key q' < n.key.length
    · rw [valueAt_mismatch (n := mk n.key n.key_value _ (n.child_count + 1)) (by simpa using hm1)]
      rw [valueAt_mismatch hm1]
      rw [if_neg]
      intro hx
      subst hx
      omega
    · have hm1' : matchCount n.key q' = n.key.length := by
        have := matchCount_le_left n.key q'
        omega
      have hqdec' : n.key ++ q'.drop n.key.length = q' := key_append_drop hm1'
      by_cases hm2 : matchCount n.key q' = q'.length
      · have hq' : q' = n.key := eq_key_of_full hm1 hm2
        rw [if_neg (by intro hx; subst hx; omega)]
        rw [valueAt_term (n := mk n.key n.key_value _ (n.child_count + 1)) (by simpa using hm1) (by simpa using hm2)]
        rw [valueAt_term hm1 hm2]
        rfl
      · rw [valueAt_descend (n := mk n.key n.key_value _ (n.child_count + 1)) (by simpa using hm1) (by simpa using hm2)]
        rw [valueAt_descend hm1 hm2]
        simp only [key_mk, children_mk]
        have hc0 : getSlot n.children (nib (q.drop (matchCount n.key q)) 0) = none := hc
        have hmm : matchCount n.key q' = matchCount n.key q := by omega
        rw [hmm]
        have hiff : q' = q ↔ q'.drop (matchCount n.key q) = q.drop (matchCount n.key q) := by
          constructor
          · intro hx; rw [hx]
          · intro hx
            rw [← hqdec', ← hqdec, ← h1', hx]
        by_cases hij : nib q' (matchCount n.key q) = nib (q.drop (matchCount n.key q)) 0
        · rw [hij]
          simp only [getSlot_setSlot_self, hc0]
          rw [valueAt_leaf]
          by_cases hdd : q'.drop (matchCount n.key q) = q.drop (matchCount n.key q)
          · rw [if_pos hdd, if_pos (hiff.2 hdd)]
          · rw [if_neg hdd, if_neg (fun hx => hdd (hiff.1 hx))]
        · rw [getSlot_setSlot_ne _ (fun hx => hij hx.symm)]
          rw [if_neg]
          intro hx
          subst hx
          exact hij (nib_drop q' (matchCount n.key q')).symm
  | case4 n k v q m h1 h2 =>
    have h1' : matchCount n.key q ≠ n.key.length := h1
    have h2' : matchCount n.key q = q.length := h2
    have hlt : matchCount n.key q < n.key.length := by
      have := matchCount_le_left n.key q
      omega
    have hql : matchCount n.key q = q.length := h2'
    have hcommon : n.key.take (matchCount n.key q) = q := by
      rw [matchCount_take_eq n.key q, h2', List.take_length]
    have hkdec : n.key.take (matchCount n.key q) ++ n.key.drop (matchCount n.key q) = n.key :=
      List.take_append_drop _ _
    have hclen : (n.key.take (matchCount n.key q)).length = matchCount n.key q := by
      rw [List.length_take]
      omega
    have htne : (n.key.drop (matchCount n.key q)) ≠ [] := by
      intro hx
      have := congrArg List.length hx
      simp only [List.length_drop, List.length_nil] at this
      omega
    rw [insert_promote h1' h2']
    by_cases hm1 : matchCount (n.key.take (matchCount n.key q)) q' < (n.key.take (matchCount n.key q)).length
    · rw [valueAt_mismatch (n := mk (n.key.take (matchCount n.key q)) (some (k, v)) _ 1) (by simpa using hm1)]
      have hq'ne : q' ≠ q := by
        intro hx
        subst hx
        rw [hcommon, matchCount_self] at hm1
        omega
      rw [if_neg hq'ne]
      rw [valueAt_mismatch]
      have he : matchCount n.key q' = matchCount (n.key.take (matchCount n.key q)) q' := by
        conv_lhs => rw [← hkdec]
        rw [matchCount_append_left_of_lt _ hm1]
      rw [he]
      omega
    · by_cases hm2 : matchCount (n.key.take (matchCount n.key q)) q' = q'.length
      · have hq' : q' = n.key.take (matchCount n.key q) := eq_key_of_full hm1 hm2
        have hq'q : q' = q := by rw [hq', hcommon]
        rw [if_pos hq'q]
        rw [valueAt_term (n := mk (n.key.take (matchCount n.key q)) (some (k, v)) _ 1) (by simpa using hm1) (by simpa using hm2)]
        rfl
      · have hm1' : matchCount (n.key.take (matchCount n.key q)) q' = matchCount n.key q := by
          have h5 := matchCount_le_left (n.key.take (matchCount n.key q)) q'
          omega
        have hq'ne : q' ≠ q := by
          intro hx
          subst hx
          rw [hcommon, matchCount_self] at hm2
          exact hm2 rfl
        rw [if_neg hq'ne]
        have hq'dec : n.key.take (matchCount n.key q) ++ q'.drop (matchCount n.key q) = q' := by
          have h6 : matchCount (n.key.take (matchCount n.key q)) q'
              = (n.key.take (matchCount n.key q)).length := by omega
          have h7 := key_append_drop h6
          rwa [hclen] at h7
        rw [valueAt_descend (n := mk (n.key.take (matchCount n.key q)) (some (k, v)) _ 1) (by simpa using hm1) (by simpa using hm2)]
        simp only [key_mk, children_mk, hm1']
        by_cases hij : nib q' (matchCount n.key q) = nib (n.key.drop (matchCount n.key q)) 0
        · rw [hij, getSlot_setSlot_self]
          have := valueAt_shift (n := n) (x := n.key.take (matchCount n.key q)) (y := n.key.drop (matchCount n.key q)) hkdec.symm (q'.drop (matchCount n.key q))
          rw [hq'dec] at this
          exact this.symm
        · rw [getSlot_setSlot_ne _ (fun hx => hij hx.symm), getSlot_emptyChildren]
          rw [valueAt_mismatch]
          rw [← hkdec]
          have hdrop_ne : (q'.drop (matchCount n.key q)) ≠ [] := by
            intro hx
            have := congrArg List.length hx
            simp only [List.length_drop, List.length_nil] at this
            have h3 := matchCount_le_right (n.key.take (matchCount n.key q)) q'
            omega
          have hmz : matchCount (n.key.drop (matchCount n.key q)) (q'.drop (matchCount n.key q)) = 0 := by
            apply matchCount_zero_of_head_ne
            intro hgd
            apply hij
            rw [← nib_drop q' (matchCount n.key q)]
            simp only [nib, hgd]
          conv_lhs => rw [← hq'dec]
          rw [matchCount_append_both, hclen, hmz]
          simp only [List.length_append, hclen]
          have : 0 < (n.key.drop (matchCount n.key q)).length := List.length_pos.2 htne
          omega
  | case5 n k v q m h1 h2 =>
    have h1' : matchCount n.key q ≠ n.key.length := h1
    have h2' : matchCount n.key q ≠ q.length := h2
    have hlt : matchCount n.key q < n.key.length := by
      have := matchCount_le_left n.key q
      omega
    have hqlt : matchCount n.key q < q.length := by
      have := matchCount_le_right n.key q
      omega
    have hcq : n.key.take (matchCount n.key q) = q.take (matchCount n.key q) :=
      matchCount_take_eq n.key q
    have hkdec : n.key.take (matchCount n.key q) ++ n.key.drop (matchCount n.key q) = n.key :=
      List.take_append_drop _ _
    have hqdec : n.key.take (matchCount n.key q) ++ q.drop (matchCount n.key q) = q := by
      rw [hcq]
      exact List.take_append_drop _ _
    have hclen : (n.key.take (matchCount n.key q)).length = matchCount n.key q := by
      rw [List.length_take]
      omega
    have htne : (n.key.drop (matchCount n.key q)) ≠ [] := by
      intro hx
      have := congrArg List.length hx
      simp only [List.length_drop, List.length_nil] at this
      omega
    have hqd_ne : (q.drop (matchCount n.key q)) ≠ [] := by
      intro hx
      have := congrArg List.length hx
      simp only [List.length_drop, List.length_nil] at this
      omega
    have hi12 : nib (n.key.drop (matchCount n.key q)) 0 ≠ nib (q.drop (matchCount n.key q)) 0 := by
      rw [nib_drop, nib_drop]
      exact nib_ne_of_getD_ne (matchCount_getD_ne hlt hqlt)
    have hprefq : matchCount (n.key.take (matchCount n.key q)) q
        = (n.key.take (matchCount n.key q)).length := by
      apply matchCount_of_isPrefix
      rw [hcq]
      exact List.take_prefix _ _
    rw [insert_branch h1' h2']
    by_cases hm1 : matchCount (n.key.take (matchCount n.key q)) q'
        < (n.key.take (matchCount n.key q)).length
    · rw [valueAt_mismatch (n := mk (n.key.take (matchCount n.key q)) none _ 2)
        (by simpa using hm1)]
      have hq'ne : q' ≠ q := by
        intro hx
        subst hx
        omega
      rw [if_neg hq'ne]
      rw [valueAt_mismatch]
      have he : matchCount n.key q' = matchCount (n.key.take (matchCount n.key q)) q' := by
        conv_lhs => rw [← hkdec]
        rw [matchCount_append_left_of_lt _ hm1]
      rw [he]
      omega
    · by_cases hm2 : matchCount (n.key.take (matchCount n.key q)) q' = q'.length
      · have hq' : q' = n.key.take (matchCount n.key q) := eq_key_of_full hm1 hm2
        have hq'ne : q' ≠ q := by
          intro hx
          subst hx
          omega
        rw [if_neg hq'ne]
        rw [valueAt_term (n := mk (n.key.take (matchCount n.key q)) none _ 2)
          (by simpa using hm1) (by simpa using hm2)]
        rw [hq']
        rw [valueAt_mismatch (by rw [matchCount_take_self (by omega)]; omega)]
        rfl
      · have hm1' : matchCount (n.key.take (matchCount n.key q)) q' = matchCount n.key q := by
          have h5 := matchCount_le_left (n.key.take (matchCount n.key q)) q'
          omega
        have hq'dec : n.key.take (matchCount n.key q) ++ q'.drop (matchCount n.key q) = q' := by
          have h6 : matchCount (n.key.take (matchCount n.key q)) q'
              = (n.key.take (matchCount n.key q)).length := by omega
          have h7 := key_append_drop h6
          rwa [hclen] at h7
        have hiff : q' = q ↔ q'.drop (matchCount n.key q) = q.drop (matchCount n.key q) := by
          constructor
          · intro hx; rw [hx]
          · intro hx
            rw [← hq'dec, hx, hqdec]
        rw [valueAt_descend (n := mk (n.key.take (matchCount n.key q)) none _ 2)
          (by simpa using hm1) (by simpa using hm2)]
        simp only [key_mk, children_mk, hm1']
        by_cases hij2 : nib q' (matchCount n.key q) = nib (q.drop (matchCount n.key q)) 0
        · rw [hij2]
          simp only [getSlot_setSlot_self]
          rw [valueAt_leaf]
          by_cases hdd : q'.drop (matchCount n.key q) = q.drop (matchCount n.key q)
          · rw [if_pos hdd, if_pos (hiff.2 hdd)]
          · rw [if_neg hdd, if_neg (fun hx => hdd (hiff.1 hx))]
            rw [valueAt_mismatch]
            have hmz : matchCount (n.key.drop (matchCount n.key q)) (q'.drop (matchCount n.key q)) = 0 := by
              apply matchCount_zero_of_head_ne
              intro hgd
              apply hi12
              rw [nib, nib, hgd]
              rw [← nib, ← nib, ← hij2]
              rw [nib_drop]
            conv_lhs => rw [← hkdec]
            conv_lhs => rw [← hq'dec]
            rw [matchCount_append_both, hmz]
            omega
        · have hq'ne : q' ≠ q := by
            intro hx
            subst hx
            exact hij2 (nib_drop q' (matchCount n.key q')).symm
          rw [if_neg hq'ne]
          rw [getSlot_setSlot_ne _ (fun hx => hij2 hx.symm)]
          by_cases hij1 : nib q' (matchCount n.key q) = nib (n.key.drop (matchCount n.key q)) 0
          · rw [hij1]
            simp only [getSlot_setSlot_self]
            have hsh := valueAt_shift (n := n) (x := n.key.take (matchCount n.key q))
              (y := n.key.drop (matchCount n.key q)) hkdec.symm (q'.drop (matchCount n.key q))
            rw [hq'dec] at hsh
            exact hsh.symm
          · rw [getSlot_setSlot_ne _ (fun hx => hij1 hx.symm), getSlot_emptyChildren]
            rw [valueAt_mismatch]
            have hmz : matchCount (n.key.drop (matchCount n.key q)) (q'.drop (matchCount n.key q)) = 0 := by
              apply matchCount_zero_of_head_ne
              intro hgd
              apply hij1
              rw [← nib_drop q' (matchCount n.key q)]
              rw [nib, nib, hgd]
            conv_lhs => rw [← hkdec]
            conv_lhs => rw [← hq'dec]
            rw [matchCount_append_both, hmz]
            omega

end TrieNode

namespace TrieNode

variable [DecidableEq K]

theorem removeRec_mismatch {n : TrieNode K V} {k : K} {q : NibbleVec}
    (h : matchCount n.key q < n.key.length) : n.removeRec k q = (n, none) := by
  rw [removeRec]
  rw [if_pos h]

theorem removeRec_term {n : TrieNode K V} {k : K} {q : NibbleVec}
    (h1 : ¬ matchCount n.key q < n.key.length) (h2 : matchCount n.key q = q.length) :
    n.removeRec k q
      = match n.key_value with
        | some (k', v) =>
          if k' = k then (mk n.key none n.children n.child_count, some v) else (n, none)
        | none => (n, none) := by
  rw [removeRec]
  rw [if_neg h1, if_pos h2]

theorem removeRec_descend_none {n : TrieNode K V} {k : K} {q : NibbleVec}
    (h1 : ¬ matchCount n.key q < n.key.length) (h2 : matchCount n.key q ≠ q.length)
    (hc : getSlot n.children (nib (q.drop (matchCount n.key q)) 0) = none) :
    n.removeRec k q = (n, none) := by
  rw [removeRec]
  simp only [if_neg h1, if_neg h2]
  split
  · rename_i hc2
    rfl
  · rename_i c2 hc2
    rw [hc] at hc2
    cases hc2

theorem removeRec_descend_some {n c : TrieNode K V} {k : K} {q : NibbleVec}
    (h1 : ¬ matchCount n.key q < n.key.length) (h2 : matchCount n.key q ≠ q.length)
    (hc : getSlot n.children (nib (q.drop (matchCount n.key q)) 0) = some c) :
    n.removeRec k q
      = match (c.removeRec k (q.drop (matchCount n.key q))).2 with
        | none => (n, none)
        | some v =>
          match compact (c.removeRec k (q.drop (matchCount n.key q))).1 with
          | none =>
            (mk n.key n.key_value
              (setSlot n.children (nib (q.drop (matchCount n.key q)) 0) none)
              (n.child_count - 1), some v)
          | some c' =>
            (mk n.key n.key_value
              (setSlot n.children (nib (q.drop (matchCount n.key q)) 0) (some c'))
              n.child_count, some v) := by
  rw [removeRec]
  simp only [if_neg h1, if_neg h2]
  split
  · rename_i hc2
    rw [hc] at hc2
    cases hc2
  · rename_i c2 hc2
    rw [hc] at hc2
    cases hc2
    rfl

omit [DecidableEq K] in
theorem getSlot_mem {cs : List (Option (TrieNode K V))} {c : TrieNode K V} {i : Nat}
    (h : getSlot cs i = some c) : some c ∈ cs := by
  induction cs generalizing i with
  | nil => simp [getSlot] at h
  | cons a t ih =>
    cases i with
    | zero => simp [getSlot] at h; simp [h]
    | succ j => simp [getSlot] at h; exact List.mem_cons_of_mem _ (ih h)

omit [DecidableEq K] in
theorem getSlot_none_of_nonEmpty_nil {cs : List (Option (TrieNode K V))}
    (h : nonEmptyChildren cs = []) (i : Nat) : getSlot cs i = none := by
  cases hx : getSlot cs i with
  | none => rfl
  | some c =>
    have hm := getSlot_mem hx
    have : c ∈ nonEmptyChildren cs := by
      simp only [nonEmptyChildren]
      exact List.mem_filterMap.2 ⟨some c, hm, rfl⟩
    rw [h] at this
    cases this

omit [DecidableEq K] in
/-- A node that `compact` vacates stores nothing anywhere. -/
theorem valueAt_of_compact_none {n : TrieNode K V} (h : compact n = none)
    (x : NibbleVec) : n.valueAt x = none := by
  have hkv : n.key_value = none := by
    by_cases hs : n.key_value.isSome
    · rw [compact, if_pos hs] at h
      cases h
    · simpa using hs
  have hch : nonEmptyChildren n.children = [] := by
    rw [compact] at h
    rw [if_neg (by simp [hkv])] at h
    rcases hne : nonEmptyChildren n.children with _ | ⟨c, _ | ⟨d, t⟩⟩
    · rfl
    · rw [hne] at h; cases h
    · rw [hne] at h; cases h
  by_cases h1 : matchCount n.key x < n.key.length
  · exact valueAt_mismatch h1
  · by_cases h2 : matchCount n.key x = x.length
    · rw [valueAt_term h1 h2, hkv]
    · rw [valueAt_descend h1 h2]
      rw [getSlot_none_of_nonEmpty_nil hch]

theorem removeRec_snd (n : TrieNode K V) (k : K) (q : NibbleVec) :
    (n.removeRec k q).2
      = match n.valueAt q with
        | some (k', v) => if k' = k then some v else none
        | none => none := by
  induction n, k, q using removeRec.induct with
  | case1 n k q m h1 =>
    rw [removeRec_mismatch h1, valueAt_mismatch h1]
  | case2 n q m h1 h2 k' v hkv =>
    rw [removeRec_term h1 h2, valueAt_term h1 h2, hkv]
    simp
  | case3 n k q m h1 h2 k' v hkv hne =>
    rw [removeRec_term h1 h2, valueAt_term h1 h2, hkv]
    simp [hne]
  | case4 n k q m h1 h2 hkv =>
    rw [removeRec_term h1 h2, valueAt_term h1 h2, hkv]
  | case5 n k q m h1 h2 rest i hc =>
    have hc' : getSlot n.children (nib (q.drop (matchCount n.key q)) 0) = none := hc
    rw [removeRec_descend_none h1 h2 hc']
    rw [valueAt_descend h1 h2]
    rw [nib_drop] at hc'
    rw [hc']
  | case6 n k q m h1 h2 rest i c hc r hr ih =>
    have hc' : getSlot n.children (nib (q.drop (matchCount n.key q)) 0) = some c := hc
    rw [removeRec_descend_some h1 h2 hc']
    rw [valueAt_descend h1 h2]
    rw [nib_drop] at hc'
    rw [hc']
    rw [← ih]
    have hr' : (c.removeRec k (q.drop (matchCount n.key q))).2 = none := hr
    rw [hr']
  | case7 n k q m h1 h2 rest i c hc r v hr hcmp ih =>
    have hc' : getSlot n.children (nib (q.drop (matchCount n.key q)) 0) = some c := hc
    rw [removeRec_descend_some h1 h2 hc']
    rw [valueAt_descend h1 h2]
    rw [nib_drop] at hc'
    rw [hc']
    rw [← ih]
    have hr' : (c.removeRec k (q.drop (matchCount n.key q))).2 = some v := hr
    have hcmp' : compact (c.removeRec k (q.drop (matchCount n.key q))).1 = none := hcmp
    rw [hr', hcmp']
  | case8 n k q m h1 h2 rest i c hc r v hr c' hcmp ih =>
    have hc' : getSlot n.children (nib (q.drop (matchCount n.key q)) 0) = some c := hc
    rw [removeRec_descend_some h1 h2 hc']
    rw [valueAt_descend h1 h2]
    rw [nib_drop] at hc'
    rw [hc']
    rw [← ih]
    have hr' : (c.removeRec k (q.drop (matchCount n.key q))).2 = some v := hr
    have hcmp' : compact (c.removeRec k (q.drop (matchCount n.key q))).1 = some c' := hcmp
    rw [hr', hcmp']

theorem removeRec_none_eq {n : TrieNode K V} {k : K} {q : NibbleVec}
    (h : (n.removeRec k q).2 = none) : (n.removeRec k q).1 = n := by
  induction n, k, q using removeRec.induct with
  | case1 n k q m h1 => rw [removeRec_mismatch h1]
  | case2 n q m h1 h2 k' v hkv =>
    rw [removeRec_term h1 h2, hkv] at h ⊢
    simp at h
  | case3 n k q m h1 h2 k' v hkv hne =>
    rw [removeRec_term h1 h2, hkv]
    simp [hne]
  | case4 n k q m h1 h2 hkv =>
    rw [removeRec_term h1 h2, hkv]
  | case5 n k q m h1 h2 rest i hc =>
    have hc' : getSlot n.children (nib (q.drop (matchCount n.key q)) 0) = none := hc
    rw [removeRec_descend_none h1 h2 hc']
  | case6 n k q m h1 h2 rest i c hc r hr ih =>
    have hc' : getSlot n.children (nib (q.drop (matchCount n.key q)) 0) = some c := hc
    rw [removeRec_descend_some h1 h2 hc']
    have hr' : (c.removeRec k (q.drop (matchCount n.key q))).2 = none := hr
    rw [hr']
  | case7 n k q m h1 h2 rest i c hc r v hr hcmp ih =>
    have hc' : getSlot n.children (nib (q.drop (matchCount n.key q)) 0) = some c := hc
    rw [removeRec_descend_some h1 h2 hc'] at h
    have hr' : (c.removeRec k (q.drop (matchCount n.key q))).2 = some v := hr
    have hcmp' : compact (c.removeRec k (q.drop (matchCount n.key q))).1 = none := hcmp
    rw [hr', hcmp'] at h
    cases h
  | case8 n k q m h1 h2 rest i c hc r v hr c' hcmp ih =>
    have hc' : getSlot n.children (nib (q.drop (matchCount n.key q)) 0) = some c := hc
    rw [removeRec_descend_some h1 h2 hc'] at h
    have hr' : (c.removeRec k (q.drop (matchCount n.key q))).2 = some v := hr
    have hcmp' : compact (c.removeRec k (q.drop (matchCount n.key q))).1 = some c' := hcmp
    rw [hr', hcmp'] at h
    cases h

end TrieNode

end Semantics

section WellFormed

variable {K V : Type _} [TrieKey K]

namespace TrieNode

/-- Contribution of an optional child to the non-empty-slot count. -/
def obit : Option (TrieNode K V) → Nat
  | none => 0
  | some _ => 1

theorem countSome_setSlot (cs : List (Option (TrieNode K V))) (i : Nat)
    (v : Option (TrieNode K V)) :
    countSome (setSlot cs i v) + obit (getSlot cs i) = countSome cs + obit v := by
  induction cs generalizing i with
  | nil =>
    induction i with
    | zero => cases v <;> simp [setSlot, getSlot, countSome, obit]
    | succ j ih => simpa [setSlot, getSlot, countSome] using ih
  | cons a t ih =>
    cases i with
    | zero => cases a <;> cases v <;> simp [setSlot, getSlot, countSome, obit] <;> omega
    | succ j =>
      cases a <;> simp only [setSlot, getSlot, countSome] <;> (have h := ih j; omega)

theorem countSome_replicate (n : Nat) :
    countSome (List.replicate n (none : Option (TrieNode K V))) = 0 := by
  induction n with
  | zero => rfl
  | succ j ih => simpa [List.replicate, countSome] using ih

theorem countSome_emptyChildren :
    countSome (emptyChildren : List (Option (TrieNode K V))) = 0 :=
  countSome_replicate 16

theorem countSome_eq_length_nonEmpty (cs : List (Option (TrieNode K V))) :
    countSome cs = (nonEmptyChildren cs).length := by
  induction cs with
  | nil => rfl
  | cons a t ih => cases a <;> simp [countSome, nonEmptyChildren, ih]

/-- Characterization of the slot/fragment agreement check. -/
theorem slotsMatch_iff (j : Nat) (cs : List (Option (TrieNode K V))) :
    slotsMatch j cs = true
      ↔ ∀ i c, getSlot cs i = some c → c.key ≠ [] ∧ nib c.key 0 = j + i := by
  induction cs generalizing j with
  | nil =>
    simp only [slotsMatch]
    constructor
    · intro _ i c hg
      simp [getSlot] at hg
    · intro _
      trivial
  | cons a t ih =>
    cases a with
    | none =>
      rw [slotsMatch, ih (j + 1)]
      constructor
      · intro h i c hg
        cases i with
        | zero => simp [getSlot] at hg
        | succ i' =>
          simp only [getSlot] at hg
          obtain ⟨h1, h2⟩ := h i' c hg
          exact ⟨h1, by omega⟩
      · intro h i c hg
        have := h (i + 1) c (by simpa [getSlot] using hg)
        obtain ⟨h1, h2⟩ := this
        exact ⟨h1, by omega⟩
    | some b =>
      rw [slotsMatch]
      simp only [Bool.and_eq_true, ih (j + 1)]
      constructor
      · intro h i c hg
        cases i with
        | zero =>
          simp only [getSlot] at hg
          cases hg
          obtain ⟨hh, _⟩ := h
          cases hk : b.key with
          | nil => rw [hk] at hh; simp at hh
          | cons y ys =>
            rw [hk] at hh
            simp only [List.head?_cons, beq_iff_eq] at hh
            refine ⟨by simp [hk], ?_⟩
            simp only [nib, List.getD_cons_zero]
            omega
        | succ i' =>
          simp only [getSlot] at hg
          obtain ⟨h1, h2⟩ := h.2 i' c hg
          exact ⟨h1, by omega⟩
      · intro h
        constructor
        · obtain ⟨h1, h2⟩ := h 0 b (by simp [getSlot])
          cases hk : b.key with
          | nil => exact absurd hk h1
          | cons y ys =>
            rw [hk] at h2
            simp only [nib, List.getD_cons_zero] at h2
            simp only [List.head?_cons, beq_iff_eq]
            omega
        · intro i c hg
          have := h (i + 1) c (by simpa [getSlot] using hg)
          obtain ⟨h1, h2⟩ := this
          exact ⟨h1, by omega⟩

theorem slotsMatch_emptyChildren (j : Nat) :
    slotsMatch j (emptyChildren : List (Option (TrieNode K V))) = true := by
  rw [slotsMatch_iff]
  intro i c hg
  simp only [emptyChildren] at hg
  rw [getSlot_replicate_none] at hg
  cases hg

theorem slotsMatch_getSlot {cs : List (Option (TrieNode K V))} {j i : Nat} {c : TrieNode K V}
    (h : slotsMatch j cs = true) (hg : getSlot cs i = some c) :
    c.key ≠ [] ∧ nib c.key 0 = j + i :=
  (slotsMatch_iff j cs).1 h i c hg

theorem slotsMatch_setSlot_none {cs : List (Option (TrieNode K V))} {j : Nat} (i : Nat)
    (h : slotsMatch j cs = true) : slotsMatch j (setSlot cs i none) = true := by
  rw [slotsMatch_iff]
  intro i' c hg
  by_cases hii : i = i'
  · subst hii
    rw [getSlot_setSlot_self] at hg
    cases hg
  · rw [getSlot_setSlot_ne _ hii] at hg
    exact slotsMatch_getSlot h hg

theorem slotsMatch_setSlot_some {cs : List (Option (TrieNode K V))} {j i : Nat}
    {c : TrieNode K V} (h : slotsMatch j cs = true) (hk : c.key ≠ [])
    (hh : nib c.key 0 = j + i) : slotsMatch j (setSlot cs i (some c)) = true := by
  rw [slotsMatch_iff]
  intro i' c' hg
  by_cases hii : i = i'
  · subst hii
    rw [getSlot_setSlot_self] at hg
    cases hg
    exact ⟨hk, hh⟩
  · rw [getSlot_setSlot_ne _ hii] at hg
    exact slotsMatch_getSlot h hg

theorem mem_nonEmpty_of_getSlot {cs : List (Option (TrieNode K V))} {c : TrieNode K V}
    {i : Nat} (h : getSlot cs i = some c) : c ∈ nonEmptyChildren cs := by
  simp only [nonEmptyChildren]
  exact List.mem_filterMap.2 ⟨some c, getSlot_mem h, rfl⟩

/-- The structural well-formedness of a (sub)tree rooted at `n`, reached by
`path` from the root: 16 children slots, accurate `child_count` (I4), empty
fragment exactly at the root, path consistency of the stored key (I6), I3
for non-root nodes, slot/fragment agreement (I1), recursively. -/
def nodeWF : TrieNode K V → Bool → NibbleVec → Bool
  | n, isRoot, path =>
    (n.children.length == 16)
    && (n.child_count == countSome n.children)
    && (isRoot || !n.key.isEmpty)
    && (match n.key_value with
        | some (k, _) => decide (encode k = path ++ n.key)
        | none => true)
    && (isRoot || n.key_value.isSome || decide (2 ≤ countSome n.children))
    && slotsMatch 0 n.children
    && (nonEmptyChildren n.children).attach.all (fun c => nodeWF c.1 false (path ++ n.key))
termination_by n => sizeOf n
decreasing_by
  have h1 := sizeOf_lt_of_mem_nonEmpty c.2
  have h2 := sizeOf_children_lt n
  show sizeOf c.1 < sizeOf n
  omega

theorem nodeWF_iff (n : TrieNode K V) (b : Bool) (p : NibbleVec) :
    nodeWF n b p = true ↔
      n.children.length = 16 ∧
      n.child_count = countSome n.children ∧
      (b = true ∨ n.key ≠ []) ∧
      (∀ k v, n.key_value = some (k, v) → encode k = p ++ n.key) ∧
      (b = true ∨ n.key_value.isSome = true ∨ 2 ≤ countSome n.children) ∧
      slotsMatch 0 n.children = true ∧
      (∀ c, c ∈ nonEmptyChildren n.children → nodeWF c false (p ++ n.key) = true) := by
  rw [nodeWF]
  simp only [Bool.and_eq_true, beq_iff_eq, List.all_eq_true, List.mem_attach, true_implies,
    Subtype.forall, Bool.or_eq_true, decide_eq_true_eq]
  constructor
  · rintro ⟨⟨⟨⟨⟨⟨hl, hcc⟩, hkey⟩, hkv⟩, h3⟩, hsl⟩, hch⟩
    refine ⟨hl, hcc, ?_, ?_, ?_, hsl, fun c hc => hch c hc⟩
    · rcases hkey with h | h
      · left; exact h
      · right
        simpa using h
    · intro k v hkvv
      rw [hkvv] at hkv
      simpa using hkv
    · tauto
  · rintro ⟨hl, hcc, hkey, hkv, h3, hsl, hch⟩
    refine ⟨⟨⟨⟨⟨⟨hl, hcc⟩, ?_⟩, ?_⟩, ?_⟩, hsl⟩, fun c hc => hch c hc⟩
    · rcases hkey with h | h
      · simp [h]
      · simp [h]
    · cases hkvv : n.key_value with
      | none => simp [hkvv]
      | some kv =>
        cases kv with
        | mk k v => simp [hkvv, hkv k v hkvv]
    · tauto

theorem nodeWF_child {n : TrieNode K V} {b : Bool} {p : NibbleVec} {c : TrieNode K V} {i : Nat}
    (h : nodeWF n b p = true) (hc : getSlot n.children i = some c) :
    nodeWF c false (p ++ n.key) = true :=
  ((nodeWF_iff n b p).1 h).2.2.2.2.2.2 c (mem_nonEmpty_of_getSlot hc)

theorem nib_lt (q : NibbleVec) (i : Nat) : nib q i < 16 := by
  simp only [nib]
  exact (q.getD i 0).isLt

theorem matchCount_pos_of_head_eq {x q : NibbleVec} (hx : x ≠ []) (hq : q ≠ [])
    (hh : nib x 0 = nib q 0) : 1 ≤ matchCount x q := by
  cases x with
  | nil => exact absurd rfl hx
  | cons a as =>
    cases q with
    | nil => exact absurd rfl hq
    | cons b bs =>
      simp only [nib, List.getD_cons_zero] at hh
      have hab : a = b := Fin.val_injective hh
      rw [matchCount, if_pos hab]
      omega

theorem nib_take {l : NibbleVec} {m : Nat} (h : 1 ≤ m) : nib (l.take m) 0 = nib l 0 := by
  cases l with
  | nil => simp
  | cons a as =>
    cases m with
    | zero => omega
    | succ j => simp [List.take_succ_cons, nib]

theorem nonEmpty_mem_getSlot {cs : List (Option (TrieNode K V))} {c : TrieNode K V}
    (h : c ∈ nonEmptyChildren cs) : ∃ i, getSlot cs i = some c := by
  induction cs with
  | nil => cases h
  | cons a t ih =>
    cases a with
    | none =>
      simp only [nonEmptyChildren, List.filterMap_cons] at h
      simp only [id] at h
      obtain ⟨i, hi⟩ := ih h
      exact ⟨i + 1, by simpa [getSlot] using hi⟩
    | some b =>
      simp only [nonEmptyChildren, List.filterMap_cons] at h
      simp only [id] at h
      rcases List.mem_cons.1 h with h' | h'
      · subst h'
        exact ⟨0, rfl⟩
      · obtain ⟨i, hi⟩ := ih h'
        exact ⟨i + 1, by simpa [getSlot] using hi⟩

theorem emptyChildren_length : (emptyChildren : List (Option (TrieNode K V))).length = 16 := by
  simp [emptyChildren]

theorem nonEmptyChildren_emptyChildren :
    nonEmptyChildren (emptyChildren : List (Option (TrieNode K V))) = [] := by
  have h := countSome_eq_length_nonEmpty (emptyChildren : List (Option (TrieNode K V)))
  rw [countSome_emptyChildren] at h
  exact (List.length_eq_zero.1 h.symm)

/-- A fresh leaf with non-empty fragment and consistent path is well-formed. -/
theorem nodeWF_leaf {q : NibbleVec} {k : K} {v : V} {path : NibbleVec}
    (hq : q ≠ []) (henc : encode k = path ++ q) :
    nodeWF (leaf q k v) false path = true := by
  rw [nodeWF_iff]
  refine ⟨?_, ?_, ?_, ?_, ?_, ?_, ?_⟩
  · simpa [leaf] using emptyChildren_length
  · simp [leaf, countSome_emptyChildren]
  · exact Or.inr (by simpa [leaf] using hq)
  · intro k' v' hkv
    simp only [leaf, key_value_mk, Option.some.injEq, Prod.mk.injEq] at hkv
    rw [← hkv.1]
    simpa [leaf] using henc
  · right
    left
    simp [leaf]
  · simpa [leaf] using slotsMatch_emptyChildren 0
  · intro c hc
    rw [show (leaf q k v).children = emptyChildren from rfl, nonEmptyChildren_emptyChildren] at hc
    cases hc

theorem drop_ne_nil_of_lt {q : NibbleVec} {m : Nat} (h : m < q.length) : q.drop m ≠ [] := by
  intro hx
  have := congrArg List.length hx
  simp only [List.length_drop, List.length_nil] at this
  omega

/-- Well-formedness is preserved by insertion, and the node's fragment keeps
its emptiness and its first nibble. -/
theorem insert_wf (n : TrieNode K V) (k : K) (v : V) (q : NibbleVec) :
    ∀ (b : Bool) (p : NibbleVec), nodeWF n b p = true → encode k = p ++ q →
      (n.key = [] ∨ (q ≠ [] ∧ n.key ≠ [] ∧ nib n.key 0 = nib q 0)) →
      (b = true → n.key = []) →
      nodeWF (n.insert k v q).1 b p = true
      ∧ ((n.insert k v q).1.key = [] ↔ n.key = [])
      ∧ (n.key ≠ [] → nib (n.insert k v q).1.key 0 = nib n.key 0) := by
  induction n, k, v, q using insert.induct with
  | case1 n k v q m h1 h2 =>
    intro b p hwf henc hhead hroot
    have h1' : matchCount n.key q = n.key.length := h1
    have h2' : matchCount n.key q = q.length := h2
    have hq : q = n.key := eq_key_of_full (by omega) h2'
    rw [insert_exact h1' h2']
    obtain ⟨hl, hcc, hkey, hkv, h3, hsl, hch⟩ := (nodeWF_iff n b p).1 hwf
    refine ⟨(nodeWF_iff _ b p).2 ⟨hl, hcc, hkey, ?_, ?_, hsl, ?_⟩, by simp, by simp⟩
    · intro k' v' hk
      simp only [key_value_mk, Option.some.injEq, Prod.mk.injEq] at hk
      rw [← hk.1, henc, hq]
      rfl
    · right
      left
      simp
    · simpa using hch
  | case2 n k v q m h1 h2 rest i c hc ih =>
    intro b p hwf henc hhead hroot
    have h1' : matchCount n.key q = n.key.length := h1
    have h2' : matchCount n.key q ≠ q.length := h2
    have hc0 : getSlot n.children (nib (q.drop (matchCount n.key q)) 0) = some c := hc
    have hqlen : matchCount n.key q ≤ q.length := matchCount_le_right n.key q
    have hqlt : n.key.length < q.length := by omega
    have hqdec : n.key ++ q.drop n.key.length = q := key_append_drop h1'
    obtain ⟨hl, hcc, hkey, hkv, h3, hsl, hch⟩ := (nodeWF_iff n b p).1 hwf
    have hilt : nib (q.drop (matchCount n.key q)) 0 < 16 := nib_lt _ 0
    have hslc := slotsMatch_getSlot hsl hc0
    have hrest_ne : q.drop (matchCount n.key q) ≠ [] := drop_ne_nil_of_lt (by omega)
    have hcwf : nodeWF c false (p ++ n.key) = true := nodeWF_child hwf hc0
    have hqdec2 : q = n.key ++ q.drop (matchCount n.key q) := by
      rw [h1']
      exact hqdec.symm
    have hrec := ih false (p ++ n.key) hcwf
      (by rw [henc, List.append_assoc]; exact congrArg (p ++ ·) hqdec2)
      (Or.inr ⟨hrest_ne, hslc.1, by
        show nib c.key 0 = nib (q.drop (matchCount n.key q)) 0
        rw [hslc.2]
        omega⟩)
      (fun h => absurd h (by simp))
    obtain ⟨hwf2m, hiff2m, hhd2m⟩ := hrec
    have hwf2 : nodeWF (c.insert k v (q.drop (matchCount n.key q))).1 false (p ++ n.key)
        = true := hwf2m
    have hiff2 : ((c.insert k v (q.drop (matchCount n.key q))).1.key = [] ↔ c.key = []) := hiff2m
    have hhd2 : c.key ≠ [] →
        nib (c.insert k v (q.drop (matchCount n.key q))).1.key 0 = nib c.key 0 := hhd2m
    rw [insert_descend_some h1' h2' hc0]
    have hcnt := countSome_setSlot n.children (nib (q.drop (matchCount n.key q)) 0)
      (some (c.insert k v (q.drop (matchCount n.key q))).1)
    rw [hc0] at hcnt
    simp only [obit] at hcnt
    refine ⟨(nodeWF_iff _ b p).2 ⟨?_, ?_, hkey, ?_, ?_, ?_, ?_⟩, by simp, by simp⟩
    · simp only [children_mk]
      rw [setSlot_length _ (by omega)]
      exact hl
    · simp only [children_mk, child_count_mk]
      omega
    · intro k' v' hk
      simp only [key_value_mk] at hk
      exact hkv k' v' hk
    · simp only [key_value_mk, children_mk]
      rcases h3 with h | h | h
      · left; exact h
      · right; left; exact h
      · right; right; omega
    · simp only [children_mk]
      apply slotsMatch_setSlot_some hsl
      · intro hx
        exact hslc.1 (hiff2.1 hx)
      · rw [hhd2 hslc.1, hslc.2]
    · simp only [children_mk, key_mk]
      intro c' hc'
      obtain ⟨j, hj⟩ := nonEmpty_mem_getSlot hc'
      by_cases hji : j = nib (q.drop (matchCount n.key q)) 0
      · subst hji
        rw [getSlot_setSlot_self] at hj
        cases hj
        exact hwf2
      · rw [getSlot_setSlot_ne _ (fun hx => hji hx.symm)] at hj
        exact nodeWF_child hwf hj
  | case3 n k v q m h1 h2 rest i hc =>
    intro b p hwf henc hhead hroot
    have h1' : matchCount n.key q = n.key.length := h1
    have h2' : matchCount n.key q ≠ q.length := h2
    have hc0 : getSlot n.children (nib (q.drop (matchCount n.key q)) 0) = none := hc
    have hqlen : matchCount n.key q ≤ q.length := matchCount_le_right n.key q
    have hqlt : n.key.length < q.length := by omega
    have hqdec : n.key ++ q.drop n.key.length = q := key_append_drop h1'
    obtain ⟨hl, hcc, hkey, hkv, h3, hsl, hch⟩ := (nodeWF_iff n b p).1 hwf
    have hilt : nib (q.drop (matchCount n.key q)) 0 < 16 := nib_lt _ 0
    have hrest_ne : q.drop (matchCount n.key q) ≠ [] := drop_ne_nil_of_lt (by omega)
    rw [insert_descend_none h1' h2' hc0]
    have hcnt := countSome_setSlot n.children (nib (q.drop (matchCount n.key q)) 0)
      (some (leaf (q.drop (matchCount n.key q)) k v))
    rw [hc0] at hcnt
    simp only [obit] at hcnt
    refine ⟨(nodeWF_iff _ b p).2 ⟨?_, ?_, hkey, ?_, ?_, ?_, ?_⟩, by simp, by simp⟩
    · simp only [children_mk]
      rw [setSlot_length _ (by omega)]
      exact hl
    · simp only [children_mk, child_count_mk]
      omega
    · intro k' v' hk
      simp only [key_value_mk] at hk
      exact hkv k' v' hk
    · simp only [key_value_mk, children_mk]
      rcases h3 with h | h | h
      · left; exact h
      · right; left; exact h
      · right; right; omega
    · simp only [children_mk]
      apply slotsMatch_setSlot_some hsl
      · simpa [leaf] using hrest_ne
      · simp [leaf]
    · simp only [children_mk, key_mk]
      intro c' hc'
      obtain ⟨j, hj⟩ := nonEmpty_mem_getSlot hc'
      by_cases hji : j = nib (q.drop (matchCount n.key q)) 0
      · subst hji
        rw [getSlot_setSlot_self] at hj
        cases hj
        apply nodeWF_leaf hrest_ne
        rw [henc, List.append_assoc, h1', hqdec]
      · rw [getSlot_setSlot_ne _ (fun hx => hji hx.symm)] at hj
        exact nodeWF_child hwf hj
  | case4 n k v q m h1 h2 =>
    intro b p hwf henc hhead hroot
    have h1' : matchCount n.key q ≠ n.key.length := h1
    have h2' : matchCount n.key q = q.length := h2
    have hlt : matchCount n.key q < n.key.length := by
      have := matchCount_le_left n.key q
      omega
    obtain ⟨hl, hcc, hkey, hkv, h3, hsl, hch⟩ := (nodeWF_iff n b p).1 hwf
    rcases hhead with hhd | ⟨hqne, hkne, hheq⟩
    · rw [hhd] at hlt
      simp at hlt
    have hb : b = false := by
      cases b with
      | false => rfl
      | true => exact absurd (hroot rfl) hkne
    subst hb
    have hm1 : 1 ≤ matchCount n.key q := matchCount_pos_of_head_eq hkne hqne hheq
    have hcq : n.key.take (matchCount n.key q) = q := by
      rw [matchCount_take_eq n.key q, h2', List.take_length]
    have hclen : (n.key.take (matchCount n.key q)).length = matchCount n.key q := by
      rw [List.length_take]
      omega
    have hkdec : n.key.take (matchCount n.key q) ++ n.key.drop (matchCount n.key q) = n.key :=
      List.take_append_drop _ _
    have htne : n.key.drop (matchCount n.key q) ≠ [] := drop_ne_nil_of_lt (by omega)
    have hcne : n.key.take (matchCount n.key q) ≠ [] := by
      intro hx
      have := congrArg List.length hx
      rw [hclen] at this
      simp at this
      omega
    rw [insert_promote h1' h2']
    have hcnt := countSome_setSlot (emptyChildren (K := K) (V := V))
      (nib (n.key.drop (matchCount n.key q)) 0)
      (some (mk (n.key.drop (matchCount n.key q)) n.key_value n.children n.child_count))
    rw [getSlot_emptyChildren] at hcnt
    simp only [obit, countSome_emptyChildren] at hcnt
    refine ⟨(nodeWF_iff _ false p).2 ⟨?_, ?_, ?_, ?_, ?_, ?_, ?_⟩, ?_, ?_⟩
    · simp only [children_mk]
      rw [setSlot_length _ (by rw [emptyChildren_length]; exact nib_lt _ 0)]
      exact emptyChildren_length
    · simp only [children_mk, child_count_mk]
      omega
    · exact Or.inr hcne
    · intro k' v' hk
      simp only [key_value_mk, Option.some.injEq, Prod.mk.injEq] at hk
      simp only [key_mk]
      rw [← hk.1, henc, hcq]
    · right
      left
      simp
    · simp only [children_mk]
      apply slotsMatch_setSlot_some (slotsMatch_emptyChildren 0)
      · simpa using htne
      · simp
    · simp only [children_mk, key_mk]
      intro c' hc'
      obtain ⟨j, hj⟩ := nonEmpty_mem_getSlot hc'
      by_cases hji : j = nib (n.key.drop (matchCount n.key q)) 0
      · subst hji
        rw [getSlot_setSlot_self] at hj
        cases hj
        rw [nodeWF_iff]
        refine ⟨by simpa using hl, by simpa using hcc, Or.inr (by simpa using htne), ?_, ?_, by simpa using hsl, ?_⟩
        · intro k' v' hk
          simp only [key_value_mk] at hk
          simp only [key_mk]
          rw [hkv k' v' hk, List.append_assoc, hkdec]
        · rcases h3 with h | h | h
          · cases h
          · right; left; simpa using h
          · right; right; simpa using h
        · simp only [children_mk, key_mk]
          intro d hd
          rw [List.append_assoc, hkdec]
          exact hch d hd
      · rw [getSlot_setSlot_ne _ (fun hx => hji hx.symm), getSlot_emptyChildren] at hj
        cases hj
    · simp only [key_mk]
      constructor
      · intro hx; exact absurd hx hcne
      · intro hx; exact absurd hx hkne
    · intro _
      simp only [key_mk]
      exact nib_take hm1
  | case5 n k v q m h1 h2 =>
    intro b p hwf henc hhead hroot
    have h1' : matchCount n.key q ≠ n.key.length := h1
    have h2' : matchCount n.key q ≠ q.length := h2
    have hlt : matchCount n.key q < n.key.length := by
      have := matchCount_le_left n.key q
      omega
    have hqlt : matchCount n.key q < q.length := by
      have := matchCount_le_right n.key q
      omega
    obtain ⟨hl, hcc, hkey, hkv, h3, hsl, hch⟩ := (nodeWF_iff n b p).1 hwf
    rcases hhead with hhd | ⟨hqne, hkne, hheq⟩
    · rw [hhd] at hlt
      simp at hlt
    have hb : b = false := by
      cases b with
      | false => rfl
      | true => exact absurd (hroot rfl) hkne
    subst hb
    have hm1 : 1 ≤ matchCount n.key q := matchCount_pos_of_head_eq hkne hqne hheq
    have hcq : n.key.take (matchCount n.key q) = q.take (matchCount n.key q) :=
      matchCount_take_eq n.key q
    have hclen : (n.key.take (matchCount n.key q)).length = matchCount n.key q := by
      rw [List.length_take]
      omega
    have hkdec : n.key.take (matchCount n.key q) ++ n.key.drop (matchCount n.key q) = n.key :=
      List.take_append_drop _ _
    have hqdec : n.key.take (matchCount n.key q) ++ q.drop (matchCount n.key q) = q := by
      rw [hcq]
      exact List.take_append_drop _ _
    have htne : n.key.drop (matchCount n.key q) ≠ [] := drop_ne_nil_of_lt (by omega)
    have hqdne : q.drop (matchCount n.key q) ≠ [] := drop_ne_nil_of_lt (by omega)
    have hcne : n.key.take (matchCount n.key q) ≠ [] := by
      intro hx
      have := congrArg List.length hx
      rw [hclen] at this
      simp at this
      omega
    have hi12 : nib (n.key.drop (matchCount n.key q)) 0 ≠ nib (q.drop (matchCount n.key q)) 0 := by
      rw [nib_drop, nib_drop]
      exact nib_ne_of_getD_ne (matchCount_getD_ne hlt hqlt)
    rw [insert_branch h1' h2']
    have hcnt1 := countSome_setSlot (emptyChildren (K := K) (V := V))
      (nib (n.key.drop (matchCount n.key q)) 0)
      (some (mk (n.key.drop (matchCount n.key q)) n.key_value n.children n.child_count))
    rw [getSlot_emptyChildren] at hcnt1
    simp only [obit, countSome_emptyChildren] at hcnt1
    have hcnt2 := countSome_setSlot
      (setSlot (emptyChildren (K := K) (V := V)) (nib (n.key.drop (matchCount n.key q)) 0)
        (some (mk (n.key.drop (matchCount n.key q)) n.key_value n.children n.child_count)))
      (nib (q.drop (matchCount n.key q)) 0)
      (some (leaf (q.drop (matchCount n.key q)) k v))
    rw [getSlot_setSlot_ne _ hi12, getSlot_emptyChildren] at hcnt2
    simp only [obit] at hcnt2
    refine ⟨(nodeWF_iff _ false p).2 ⟨?_, ?_, ?_, ?_, ?_, ?_, ?_⟩, ?_, ?_⟩
    · simp only [children_mk]
      rw [setSlot_length _ (by
          rw [setSlot_length _ (by rw [emptyChildren_length]; exact nib_lt _ 0)]
          rw [emptyChildren_length]
          exact nib_lt _ 0)]
      rw [setSlot_length _ (by rw [emptyChildren_length]; exact nib_lt _ 0)]
      exact emptyChildren_length
    · simp only [children_mk, child_count_mk]
      omega
    · exact Or.inr hcne
    · intro k' v' hk
      simp only [key_value_mk] at hk
      cases hk
    · right
      right
      simp only [children_mk]
      omega
    · simp only [children_mk]
      apply slotsMatch_setSlot_some
      · apply slotsMatch_setSlot_some (slotsMatch_emptyChildren 0)
        · simpa using htne
        · simp
      · simpa [leaf] using hqdne
      · simp [leaf]
    · simp only [children_mk, key_mk]
      intro c' hc'
      obtain ⟨j, hj⟩ := nonEmpty_mem_getSlot hc'
      by_cases hj2 : j = nib (q.drop (matchCount n.key q)) 0
      · subst hj2
        rw [getSlot_setSlot_self] at hj
        cases hj
        apply nodeWF_leaf hqdne
        rw [henc, List.append_assoc, hqdec]
      · rw [getSlot_setSlot_ne _ (fun hx => hj2 hx.symm)] at hj
        by_cases hj1 : j = nib (n.key.drop (matchCount n.key q)) 0
        · subst hj1
          rw [getSlot_setSlot_self] at hj
          cases hj
          rw [nodeWF_iff]
          refine ⟨by simpa using hl, by simpa using hcc, Or.inr (by simpa using htne), ?_, ?_, by simpa using hsl, ?_⟩
          · intro k' v' hk
            simp only [key_value_mk] at hk
            simp only [key_mk]
            rw [hkv k' v' hk, List.append_assoc, hkdec]
          · rcases h3 with h | h | h
            · cases h
            · right; left; simpa using h
            · right; right; simpa using h
          · simp only [children_mk, key_mk]
            intro d hd
            rw [List.append_assoc, hkdec]
            exact hch d hd
        · rw [getSlot_setSlot_ne _ (fun hx => hj1 hx.symm), getSlot_emptyChildren] at hj
          cases hj
    · simp only [key_mk]
      constructor
      · intro hx; exact absurd hx hcne
      · intro hx; exact absurd hx hkne
    · intro _
      simp only [key_mk]
      exact nib_take hm1

theorem countValues_eq (n : TrieNode K V) :
    countValues n = (if n.key_value.isSome then 1 else 0)
      + ((nonEmptyChildren n.children).map countValues).sum := by
  rw [countValues, List.attach_map_coe]

theorem nonEmptyChildren_cons_none (t : List (Option (TrieNode K V))) :
    nonEmptyChildren ((none : Option (TrieNode K V)) :: t) = nonEmptyChildren t := by
  simp [nonEmptyChildren]

theorem nonEmptyChildren_cons_some (b : TrieNode K V) (t : List (Option (TrieNode K V))) :
    nonEmptyChildren (some b :: t) = b :: nonEmptyChildren t := by
  simp [nonEmptyChildren]

/-- Value of an optional child under `f`, zero when empty. -/
def ovalue {M : Type _} [AddCommMonoid M] (f : TrieNode K V → M) :
    Option (TrieNode K V) → M
  | some c => f c
  | none => 0

theorem sum_nonEmpty_setSlot {M : Type _} [AddCommMonoid M] (f : TrieNode K V → M)
    (cs : List (Option (TrieNode K V))) (i : Nat) (v : Option (TrieNode K V)) :
    ((nonEmptyChildren (setSlot cs i v)).map f).sum + ovalue f (getSlot cs i)
    = ((nonEmptyChildren cs).map f).sum + ovalue f v := by
  induction cs generalizing i with
  | nil =>
    induction i with
    | zero =>
      cases v <;> simp [setSlot, getSlot, nonEmptyChildren, ovalue]
    | succ j ih =>
      simpa [setSlot, getSlot, nonEmptyChildren, ovalue] using ih
  | cons a t ih =>
    cases i with
    | zero =>
      cases a <;> cases v <;>
        simp [setSlot, getSlot, nonEmptyChildren, ovalue] <;> abel
    | succ j =>
      cases a with
      | none =>
        simpa [setSlot, getSlot, nonEmptyChildren, ovalue] using ih j
      | some b =>
        rw [show setSlot (some b :: t) (j + 1) v = some b :: setSlot t j v from rfl]
        rw [nonEmptyChildren_cons_some, nonEmptyChildren_cons_some]
        simp only [List.map_cons, List.sum_cons, getSlot]
        rw [add_assoc, add_assoc, ih j]

theorem countValues_leaf (q : NibbleVec) (k : K) (v : V) :
    countValues (leaf q k v) = 1 := by
  rw [countValues_eq]
  simp [leaf, nonEmptyChildren_emptyChildren]

theorem insert_count (n : TrieNode K V) (k : K) (v : V) (q : NibbleVec) :
    countValues (n.insert k v q).1 + (if (n.insert k v q).2.isSome then 1 else 0)
      = countValues n + 1 := by
  induction n, k, v, q using insert.induct with
  | case1 n k v q m h1 h2 =>
    have h1' : matchCount n.key q = n.key.length := h1
    have h2' : matchCount n.key q = q.length := h2
    rw [insert_exact h1' h2']
    rw [countValues_eq, countValues_eq]
    cases n.key_value <;> simp <;> omega
  | case2 n k v q m h1 h2 rest i c hc ih =>
    have h1' : matchCount n.key q = n.key.length := h1
    have h2' : matchCount n.key q ≠ q.length := h2
    have hc0 : getSlot n.children (nib (q.drop (matchCount n.key q)) 0) = some c := hc
    have ih' : countValues (c.insert k v (q.drop (matchCount n.key q))).1
        + (if (c.insert k v (q.drop (matchCount n.key q))).2.isSome then 1 else 0)
        = countValues c + 1 := ih
    rw [insert_descend_some h1' h2' hc0]
    rw [countValues_eq, countValues_eq]
    have hs := sum_nonEmpty_setSlot countValues n.children
      (nib (q.drop (matchCount n.key q)) 0)
      (some (c.insert k v (q.drop (matchCount n.key q))).1)
    rw [hc0] at hs
    simp only [ovalue] at hs
    simp only [children_mk, key_value_mk, Option.isSome_none, Option.isSome_some,
      Bool.false_eq_true, if_false, if_true]
    omega
  | case3 n k v q m h1 h2 rest i hc =>
    have h1' : matchCount n.key q = n.key.length := h1
    have h2' : matchCount n.key q ≠ q.length := h2
    have hc0 : getSlot n.children (nib (q.drop (matchCount n.key q)) 0) = none := hc
    rw [insert_descend_none h1' h2' hc0]
    rw [countValues_eq, countValues_eq]
    have hs := sum_nonEmpty_setSlot countValues n.children
      (nib (q.drop (matchCount n.key q)) 0)
      (some (leaf (q.drop (matchCount n.key q)) k v))
    rw [hc0] at hs
    simp only [ovalue] at hs
    rw [countValues_leaf] at hs
    simp only [children_mk, key_value_mk, Option.isSome_none, Option.isSome_some,
      Bool.false_eq_true, if_false, if_true]
    omega
  | case4 n k v q m h1 h2 =>
    have h1' : matchCount n.key q ≠ n.key.length := h1
    have h2' : matchCount n.key q = q.length := h2
    rw [insert_promote h1' h2']
    rw [countValues_eq]
    have hs := sum_nonEmpty_setSlot countValues (emptyChildren (K := K) (V := V))
      (nib (n.key.drop (matchCount n.key q)) 0)
      (some (mk (n.key.drop (matchCount n.key q)) n.key_value n.children n.child_count))
    rw [getSlot_emptyChildren] at hs
    simp only [ovalue] at hs
    rw [nonEmptyChildren_emptyChildren] at hs
    simp only [List.map_nil, List.sum_nil] at hs
    have hsh : countValues (mk (n.key.drop (matchCount n.key q)) n.key_value n.children
        n.child_count) = countValues n := by
      rw [countValues_eq, countValues_eq]
      simp
    simp only [children_mk, key_value_mk, Option.isSome_none, Option.isSome_some,
      Bool.false_eq_true, if_false, if_true]
    omega
  | case5 n k v q m h1 h2 =>
    have h1' : matchCount n.key q ≠ n.key.length := h1
    have h2' : matchCount n.key q ≠ q.length := h2
    have hqlt : matchCount n.key q < q.length := by
      have := matchCount_le_right n.key q
      omega
    have hlt : matchCount n.key q < n.key.length := by
      have := matchCount_le_left n.key q
      omega
    have hi12 : nib (n.key.drop (matchCount n.key q)) 0 ≠ nib (q.drop (matchCount n.key q)) 0 := by
      rw [nib_drop, nib_drop]
      exact nib_ne_of_getD_ne (matchCount_getD_ne hlt hqlt)
    rw [insert_branch h1' h2']
    rw [countValues_eq]
    have hs1 := sum_nonEmpty_setSlot countValues (emptyChildren (K := K) (V := V))
      (nib (n.key.drop (matchCount n.key q)) 0)
      (some (mk (n.key.drop (matchCount n.key q)) n.key_value n.children n.child_count))
    rw [getSlot_emptyChildren] at hs1
    simp only [ovalue] at hs1
    rw [nonEmptyChildren_emptyChildren] at hs1
    simp only [List.map_nil, List.sum_nil] at hs1
    have hs2 := sum_nonEmpty_setSlot countValues
      (setSlot (emptyChildren (K := K) (V := V)) (nib (n.key.drop (matchCount n.key q)) 0)
        (some (mk (n.key.drop (matchCount n.key q)) n.key_value n.children n.child_count)))
      (nib (q.drop (matchCount n.key q)) 0)
      (some (leaf (q.drop (matchCount n.key q)) k v))
    rw [getSlot_setSlot_ne _ hi12, getSlot_emptyChildren] at hs2
    simp only [ovalue] at hs2
    rw [countValues_leaf] at hs2
    have hsh : countValues (mk (n.key.drop (matchCount n.key q)) n.key_value n.children
        n.child_count) = countValues n := by
      rw [countValues_eq, countValues_eq]
      simp
    simp only [children_mk, key_value_mk, Option.isSome_none, Option.isSome_some,
      Bool.false_eq_true, if_false, if_true]
    omega

theorem compact_count_none {n : TrieNode K V} (h : compact n = none) : countValues n = 0 := by
  have hkv : n.key_value = none := by
    by_cases hs : n.key_value.isSome
    · rw [compact, if_pos hs] at h
      cases h
    · simpa using hs
  have hch : nonEmptyChildren n.children = [] := by
    rw [compact, if_neg (by simp [hkv])] at h
    rcases hne : nonEmptyChildren n.children with _ | ⟨c, _ | ⟨d, t⟩⟩
    · rfl
    · rw [hne] at h; cases h
    · rw [hne] at h; cases h
  rw [countValues_eq, hkv, hch]
  simp

theorem compact_count_some {n c' : TrieNode K V} (h : compact n = some c') :
    countValues c' = countValues n := by
  by_cases hs : n.key_value.isSome
  · rw [compact, if_pos hs] at h
    cases h
    rfl
  · rw [compact, if_neg hs] at h
    rcases hne : nonEmptyChildren n.children with _ | ⟨d, _ | ⟨e, t⟩⟩ <;> rw [hne] at h
    · cases h
    · cases h
      rw [countValues_eq (mk (n.key ++ d.key) d.key_value d.children d.child_count)]
      rw [countValues_eq n, hne]
      simp only [key_value_mk, children_mk, List.map_cons, List.map_nil, List.sum_cons,
        List.sum_nil]
      have : n.key_value.isSome = false := by simpa using hs
      rw [this, countValues_eq d]
      simp
    · cases h
      rfl

variable [DecidableEq K]

theorem remove_count (n : TrieNode K V) (k : K) (q : NibbleVec) :
    countValues (n.removeRec k q).1
      + (if (n.removeRec k q).2.isSome then 1 else 0) = countValues n := by
  induction n, k, q using removeRec.induct with
  | case1 n k q m h1 =>
    rw [removeRec_mismatch h1]
    simp
  | case2 n q m h1 h2 k' v hkv =>
    rw [removeRec_term h1 h2, hkv]
    simp only [if_pos rfl]
    rw [countValues_eq, countValues_eq]
    simp [hkv]
    omega
  | case3 n k q m h1 h2 k' v hkv hne =>
    rw [removeRec_term h1 h2, hkv]
    simp [hne]
  | case4 n k q m h1 h2 hkv =>
    rw [removeRec_term h1 h2, hkv]
    simp
  | case5 n k q m h1 h2 rest i hc =>
    have hc0 : getSlot n.children (nib (q.drop (matchCount n.key q)) 0) = none := hc
    rw [removeRec_descend_none h1 h2 hc0]
    simp
  | case6 n k q m h1 h2 rest i c hc r hr ih =>
    have hc0 : getSlot n.children (nib (q.drop (matchCount n.key q)) 0) = some c := hc
    have hr' : (c.removeRec k (q.drop (matchCount n.key q))).2 = none := hr
    rw [removeRec_descend_some h1 h2 hc0, hr']
    simp
  | case7 n k q m h1 h2 rest i c hc r v hr hcmp ih =>
    have hc0 : getSlot n.children (nib (q.drop (matchCount n.key q)) 0) = some c := hc
    have hr' : (c.removeRec k (q.drop (matchCount n.key q))).2 = some v := hr
    have hcmp' : compact (c.removeRec k (q.drop (matchCount n.key q))).1 = none := hcmp
    have ih' : countValues (c.removeRec k (q.drop (matchCount n.key q))).1
        + (if (c.removeRec k (q.drop (matchCount n.key q))).2.isSome then 1 else 0)
        = countValues c := ih
    rw [hr'] at ih'
    simp only [Option.isSome_some, if_pos] at ih'
    have hcz := compact_count_none hcmp'
    rw [removeRec_descend_some h1 h2 hc0, hr', hcmp']
    rw [countValues_eq, countValues_eq]
    have hs := sum_nonEmpty_setSlot countValues n.children
      (nib (q.drop (matchCount n.key q)) 0) none
    rw [hc0] at hs
    simp only [ovalue] at hs
    simp only [children_mk, key_value_mk, Option.isSome_none, Option.isSome_some,
      Bool.false_eq_true, if_false, if_true]
    omega
  | case8 n k q m h1 h2 rest i c hc r v hr c' hcmp ih =>
    have hc0 : getSlot n.children (nib (q.drop (matchCount n.key q)) 0) = some c := hc
    have hr' : (c.removeRec k (q.drop (matchCount n.key q))).2 = some v := hr
    have hcmp' : compact (c.removeRec k (q.drop (matchCount n.key q))).1 = some c' := hcmp
    have ih' : countValues (c.removeRec k (q.drop (matchCount n.key q))).1
        + (if (c.removeRec k (q.drop (matchCount n.key q))).2.isSome then 1 else 0)
        = countValues c := ih
    rw [hr'] at ih'
    simp only [Option.isSome_some, if_pos] at ih'
    have hcs := compact_count_some hcmp'
    rw [removeRec_descend_some h1 h2 hc0, hr', hcmp']
    rw [countValues_eq, countValues_eq]
    have hs := sum_nonEmpty_setSlot countValues n.children
      (nib (q.drop (matchCount n.key q)) 0) (some c')
    rw [hc0] at hs
    simp only [ovalue] at hs
    simp only [children_mk, key_value_mk, Option.isSome_none, Option.isSome_some,
      Bool.false_eq_true, if_false, if_true]
    omega

theorem nib_append_left {x : NibbleVec} (y : NibbleVec) (hx : x ≠ []) :
    nib (x ++ y) 0 = nib x 0 := by
  cases x with
  | nil => exact absurd rfl hx
  | cons a t => rfl

theorem nodeWF_weaken {n : TrieNode K V} {b : Bool} {p : NibbleVec}
    (h : nodeWF n b p = true) : nodeWF n true p = true := by
  obtain ⟨hl, hcc, hkey, hkv, h3, hsl, hch⟩ := (nodeWF_iff n b p).1 h
  exact (nodeWF_iff n true p).2 ⟨hl, hcc, Or.inl rfl, hkv, Or.inl rfl, hsl, hch⟩

omit [DecidableEq K] in
/-- Compaction of a node that satisfies the relaxed invariant (I3 possibly
broken at the top) yields, when it returns a node, a strictly well-formed
node whose fragment keeps the original first nibble. -/
theorem compact_wf {n : TrieNode K V} {p : NibbleVec} (hne : n.key ≠ [])
    (hwf : nodeWF n true p = true) :
    ∀ c2, compact n = some c2 →
      nodeWF c2 false p = true ∧ c2.key ≠ [] ∧ nib c2.key 0 = nib n.key 0 := by
  intro c2 hcmp
  obtain ⟨hl, hcc, hkey, hkv, h3, hsl, hch⟩ := (nodeWF_iff n true p).1 hwf
  by_cases hv : n.key_value.isSome
  · rw [compact, if_pos hv] at hcmp
    cases hcmp
    exact ⟨(nodeWF_iff _ false p).2 ⟨hl, hcc, Or.inr hne, hkv, Or.inr (Or.inl hv), hsl, hch⟩,
      hne, rfl⟩
  · rw [compact, if_neg hv] at hcmp
    rcases hmm : nonEmptyChildren n.children with _ | ⟨d, _ | ⟨e, t⟩⟩ <;> rw [hmm] at hcmp
    · cases hcmp
    · cases hcmp
      have hd : d ∈ nonEmptyChildren n.children := by
        rw [hmm]
        exact List.mem_singleton.2 rfl
      obtain ⟨hdl, hdcc, hdkey, hdkv, hd3, hdsl, hdch⟩ :=
        (nodeWF_iff d false (p ++ n.key)).1 (hch d hd)
      have hdne : d.key ≠ [] := by
        rcases hdkey with h | h
        · cases h
        · exact h
      refine ⟨(nodeWF_iff _ false p).2 ⟨?_, ?_, ?_, ?_, ?_, ?_, ?_⟩, ?_, ?_⟩
      · simpa using hdl
      · simpa using hdcc
      · right
        simp only [key_mk]
        intro hx
        exact hne (List.append_eq_nil.1 hx).1
      · intro a w ha
        simp only [key_value_mk] at ha
        simp only [key_mk]
        rw [hdkv a w ha, List.append_assoc]
      · rcases hd3 with h | h | h
        · cases h
        · right; left; simpa using h
        · right; right; simpa using h
      · simpa using hdsl
      · simp only [children_mk, key_mk]
        intro c3 hc3
        rw [← List.append_assoc]
        exact hdch c3 hc3
      · simp only [key_mk]
        intro hx
        exact hne (List.append_eq_nil.1 hx).1
      · simp only [key_mk]
        exact nib_append_left d.key hne
    · cases hcmp
      have h2le : 2 ≤ countSome n.children := by
        rw [countSome_eq_length_nonEmpty, hmm]
        simp
      exact ⟨(nodeWF_iff _ false p).2
        ⟨hl, hcc, Or.inr hne, hkv, Or.inr (Or.inr h2le), hsl, hch⟩, hne, rfl⟩

/-- Removal from a well-formed node keeps the fragment unchanged and keeps
the node well formed except possibly for I3 at the top (the parent fixes
that by compaction). -/
theorem remove_wf (n : TrieNode K V) (k : K) (q : NibbleVec) :
    ∀ (b : Bool) (p : NibbleVec), nodeWF n b p = true →
      (n.removeRec k q).1.key = n.key ∧ nodeWF (n.removeRec k q).1 true p = true := by
  induction n, k, q using removeRec.induct with
  | case1 n k q m h1 =>
    intro b p hwf
    rw [removeRec_mismatch h1]
    exact ⟨rfl, nodeWF_weaken hwf⟩
  | case2 n q m h1 h2 k' v hkv =>
    intro b p hwf
    rw [removeRec_term h1 h2, hkv]
    simp only [if_pos rfl]
    obtain ⟨hl, hcc, hkey, hkv2, h3, hsl, hch⟩ := (nodeWF_iff n b p).1 hwf
    refine ⟨rfl, (nodeWF_iff _ true p).2 ⟨?_, ?_, Or.inl rfl, ?_, Or.inl rfl, ?_, ?_⟩⟩
    · exact hl
    · exact hcc
    · intro a w ha
      cases ha
    · exact hsl
    · exact hch
  | case3 n k q m h1 h2 k' v hkv hne =>
    intro b p hwf
    have hres : n.removeRec k q = (n, none) := by
      rw [removeRec_term h1 h2, hkv]
      exact if_neg hne
    rw [hres]
    exact ⟨rfl, nodeWF_weaken hwf⟩
  | case4 n k q m h1 h2 hkv =>
    intro b p hwf
    rw [removeRec_term h1 h2, hkv]
    exact ⟨rfl, nodeWF_weaken hwf⟩
  | case5 n k q m h1 h2 rest i hc =>
    intro b p hwf
    have hc0 : getSlot n.children (nib (q.drop (matchCount n.key q)) 0) = none := hc
    rw [removeRec_descend_none h1 h2 hc0]
    exact ⟨rfl, nodeWF_weaken hwf⟩
  | case6 n k q m h1 h2 rest i c hc r hr ih =>
    intro b p hwf
    have hc0 : getSlot n.children (nib (q.drop (matchCount n.key q)) 0) = some c := hc
    have hr' : (c.removeRec k (q.drop (matchCount n.key q))).2 = none := hr
    rw [removeRec_descend_some h1 h2 hc0, hr']
    exact ⟨rfl, nodeWF_weaken hwf⟩
  | case7 n k q m h1 h2 rest i c hc r v hr hcmp ih =>
    intro b p hwf
    have hc0 : getSlot n.children (nib (q.drop (matchCount n.key q)) 0) = some c := hc
    have hr' : (c.removeRec k (q.drop (matchCount n.key q))).2 = some v := hr
    have hcmp' : compact (c.removeRec k (q.drop (matchCount n.key q))).1 = none := hcmp
    rw [removeRec_descend_some h1 h2 hc0, hr', hcmp']
    obtain ⟨hl, hcc, hkey, hkv2, h3, hsl, hch⟩ := (nodeWF_iff n b p).1 hwf
    have hcnt := countSome_setSlot n.children (nib (q.drop (matchCount n.key q)) 0) none
    rw [hc0] at hcnt
    simp only [obit] at hcnt
    refine ⟨rfl, (nodeWF_iff _ true p).2 ⟨?_, ?_, Or.inl rfl, ?_, Or.inl rfl, ?_, ?_⟩⟩
    · simp only [children_mk]
      rw [setSlot_length _ (by rw [hl]; exact nib_lt _ 0)]
      exact hl
    · simp only [children_mk, child_count_mk]
      omega
    · intro a w ha
      simp only [key_value_mk] at ha
      simp only [key_mk]
      exact hkv2 a w ha
    · simp only [children_mk]
      exact slotsMatch_setSlot_none _ hsl
    · simp only [children_mk, key_mk]
      intro c2 hc2
      obtain ⟨j, hj⟩ := nonEmpty_mem_getSlot hc2
      by_cases hji : j = nib (q.drop (matchCount n.key q)) 0
      · subst hji
        rw [getSlot_setSlot_self] at hj
        cases hj
      · rw [getSlot_setSlot_ne _ (fun hx => hji hx.symm)] at hj
        exact nodeWF_child hwf hj
  | case8 n k q m h1 h2 rest i c hc r v hr c' hcmp ih =>
    intro b p hwf
    have hc0 : getSlot n.children (nib (q.drop (matchCount n.key q)) 0) = some c := hc
    have hr' : (c.removeRec k (q.drop (matchCount n.key q))).2 = some v := hr
    have hcmp' : compact (c.removeRec k (q.drop (matchCount n.key q))).1 = some c' := hcmp
    rw [removeRec_descend_some h1 h2 hc0, hr', hcmp']
    obtain ⟨hl, hcc, hkey, hkv2, h3, hsl, hch⟩ := (nodeWF_iff n b p).1 hwf
    have hcwf : nodeWF c false (p ++ n.key) = true := nodeWF_child hwf hc0
    obtain ⟨hkeq, hwfr⟩ := ih false (p ++ n.key) hcwf
    have hslc := slotsMatch_getSlot hsl hc0
    have hrne : (c.removeRec k (q.drop (matchCount n.key q))).1.key ≠ [] := by
      rw [hkeq]
      exact hslc.1
    obtain ⟨hc'wf, hc'ne, hc'head⟩ := compact_wf hrne hwfr c' hcmp'
    have hc'head2 : nib c'.key 0 = 0 + nib (q.drop (matchCount n.key q)) 0 := by
      rw [hc'head, hkeq, hslc.2]
    have hcnt := countSome_setSlot n.children (nib (q.drop (matchCount n.key q)) 0) (some c')
    rw [hc0] at hcnt
    simp only [obit] at hcnt
    refine ⟨rfl, (nodeWF_iff _ true p).2 ⟨?_, ?_, Or.inl rfl, ?_, Or.inl rfl, ?_, ?_⟩⟩
    · simp only [children_mk]
      rw [setSlot_length _ (by rw [hl]; exact nib_lt _ 0)]
      exact hl
    · simp only [children_mk, child_count_mk]
      omega
    · intro a w ha
      simp only [key_value_mk] at ha
      simp only [key_mk]
      exact hkv2 a w ha
    · simp only [children_mk]
      exact slotsMatch_setSlot_some hsl hc'ne hc'head2
    · simp only [children_mk, key_mk]
      intro c2 hc2
      obtain ⟨j, hj⟩ := nonEmpty_mem_getSlot hc2
      by_cases hji : j = nib (q.drop (matchCount n.key q)) 0
      · subst hji
        rw [getSlot_setSlot_self] at hj
        cases hj
        exact hc'wf
      · rw [getSlot_setSlot_ne _ (fun hx => hji hx.symm)] at hj
        exact nodeWF_child hwf hj

omit [DecidableEq K] in
/-- The counter returned by the recursive integrity check is the number of
value-bearing nodes. -/
theorem check_count (n : TrieNode K V) (pfx : NibbleVec) :
    (check_integrity_recursive n pfx).2 = countValues n := by
  induction n, pfx using check_integrity_recursive.induct with
  | case1 n pfx ih =>
    rw [check_integrity_recursive, countValues]
    simp only [List.map_map]
    congr 1
    refine congrArg List.sum (List.map_congr_left ?_)
    intro a _
    exact ih a

omit [DecidableEq K] in
/-- A strictly well-formed node passes the recursive integrity check, for
any claimed prefix. -/
theorem check_ok_of_wf (n : TrieNode K V) (pfx : NibbleVec) :
    ∀ p, nodeWF n false p = true → (check_integrity_recursive n pfx).1 = true := by
  induction n, pfx using check_integrity_recursive.induct with
  | case1 n pfx ih =>
    intro p hwf
    obtain ⟨hl, hcc, hkey, hkv, h3, hsl, hch⟩ := (nodeWF_iff n false p).1 hwf
    rw [check_integrity_recursive]
    simp only [Bool.and_eq_true, beq_iff_eq, List.all_eq_true, List.mem_map,
      Bool.or_eq_true, decide_eq_true_eq, List.mem_attach, true_and,
      Subtype.exists, forall_exists_index]
    refine ⟨⟨⟨hcc, ?_⟩, hsl⟩, ?_⟩
    · rcases h3 with h | h | h
      · cases h
      · left; right; exact h
      · right; exact h
    · intro x c hc hx
      rw [← hx]
      exact ih ⟨c, hc⟩ (p ++ n.key) (hch c hc)

omit [DecidableEq K] in
/-- The root node of a well-formed trie passes the recursive integrity
check started from the empty prefix. -/
theorem check_ok_root {n : TrieNode K V} (hwf : nodeWF n true [] = true)
    (hkey : n.key = []) : (check_integrity_recursive n []).1 = true := by
  obtain ⟨hl, hcc, _, hkv, _, hsl, hch⟩ := (nodeWF_iff n true []).1 hwf
  rw [check_integrity_recursive]
  simp only [Bool.and_eq_true, beq_iff_eq, List.all_eq_true, List.mem_map,
    Bool.or_eq_true, decide_eq_true_eq, List.mem_attach, true_and,
    Subtype.exists, forall_exists_index]
  refine ⟨⟨⟨hcc, Or.inl (Or.inl (by simp))⟩, hsl⟩, ?_⟩
  intro x c hc hx
  rw [← hx]
  exact check_ok_of_wf c ([] ++ c.key) ([] ++ n.key) (hch c hc)

end TrieNode

end WellFormed

/-- The `Trie` container: the root `TrieNode` plus the cached entry count
(`trie.rs`). -/
structure Trie (K V : Type _) where
  length : Nat
  node : TrieNode K V

/-- A borrowed subtrie view: a node plus the `NibbleVec` it was reached
with (field `prefix` in the source, renamed `pfx` because `prefix` is a
reserved word in Lean). -/
structure SubTrie (K V : Type _) where
  pfx : NibbleVec
  nd : TrieNode K V

/-- The `new_subtrie` helper from `trie.rs`. -/
def new_subtrie {K V : Type _} (p : NibbleVec) (node : TrieNode K V) : SubTrie K V :=
  ⟨p, node⟩

namespace Trie

variable {K V : Type _} [TrieKey K] [DecidableEq K]

/-- `Trie::new`: empty trie, length 0. -/
def new : Trie K V := ⟨0, TrieNode.new⟩

/-- `Trie::len`: the cached entry count. -/
def len (t : Trie K V) : Nat := t.length

/-- `Trie::get`: encode the key, walk the node tree, then disambiguate with
`value_checked`. -/
def get (t : Trie K V) (k : K) : Option V :=
  (t.node.get (encode k)).bind (fun n => n.value_checked k)

/-- `Trie::insert`: node-level insert with the encoded key; the length is
incremented exactly when no previous value is returned.  The updated trie
is returned alongside the previous value. -/
def insert (t : Trie K V) (k : K) (v : V) : Trie K V × Option V :=
  let r := t.node.insert k v (encode k)
  (⟨if r.2.isNone then t.length + 1 else t.length, r.1⟩, r.2)

/-- `Trie::remove`: node-level remove; the length is decremented exactly
when a value is returned.  The updated trie is returned alongside the
removed value. -/
def remove (t : Trie K V) (k : K) : Trie K V × Option V :=
  let r := t.node.remove k
  (⟨if r.2.isSome then t.length - 1 else t.length, r.1⟩, r.2)

/-- `Trie::subtrie`: the view rooted at the node whose path equals
`encode k`, with `encode k` as its remembered path. -/
def subtrie (t : Trie K V) (k : K) : Option (SubTrie K V) :=
  (t.node.get (encode k)).map (fun n => new_subtrie (encode k) n)

/-- `Trie::get_ancestor`: the view for the deepest value-bearing node on the
descent path of `encode k`; the source passes the full `key_fragments`
(`encode k`) as the view's remembered path. -/
def get_ancestor (t : Trie K V) (k : K) : Option (SubTrie K V) :=
  (t.node.get_ancestor (encode k)).map (fun n => new_subtrie (encode k) n)

/-- `Trie::get_ancestor_value`: the value of the closest ancestor. -/
def get_ancestor_value (t : Trie K V) (k : K) : Option V :=
  (t.get_ancestor k).bind (fun st => st.nd.key_value.map Prod.snd)

/-- `Trie::map_with_default`: if a value is stored at `key`, apply `f` to it
in place (through `get_mut`); otherwise insert `default`. -/
def map_with_default (t : Trie K V) (key : K) (f : V → V) (default : V) : Trie K V :=
  if (t.get key).isSome then
    ⟨t.length, t.node.modifyValue key (encode key) f⟩
  else (t.insert key default).1

/-- `Trie::check_integrity`: run the recursive node check from an empty
prefix and require the counted number of value-bearing nodes to equal the
cached length. -/
def check_integrity (t : Trie K V) : Bool :=
  let r := t.node.check_integrity_recursive []
  r.1 && (r.2 == t.length)

end Trie

/-- The `FromIterator` impl from `iter.rs`: build a trie by inserting the
pairs of the sequence, in order, into a freshly created empty trie. -/
def Trie.from_iter {K V : Type _} [TrieKey K] [DecidableEq K] (l : List (K × V)) : Trie K V :=
  l.foldl (fun t kv => (t.insert kv.1 kv.2).1) Trie.new

/-- The child iterator of a node (`child_iter` in `iter.rs`): the non-empty
children in slot order.  A partly consumed child iterator is its list of
remaining children. -/
def childList {K V : Type _} (n : TrieNode K V) : List (TrieNode K V) :=
  TrieNode.nonEmptyChildren n.children

/-- The entry iterator of `iter.rs`: the root node, whether the root has
been visited, and the stack of (partly consumed) child iterators. -/
structure Iter (K V : Type _) where
  root : TrieNode K V
  root_visited : Bool
  stack : List (List (TrieNode K V))

/-- `Iter::new`: root not yet visited, empty stack. -/
def Iter.new {K V : Type _} (root : TrieNode K V) : Iter K V :=
  ⟨root, false, []⟩

/-- A computable size of a node: two plus the sizes of its non-empty
children (a termination measure for the iterator). -/
def nsize {K V : Type _} : TrieNode K V → Nat
  | n => 2 + ((TrieNode.nonEmptyChildren n.children).attach.map (fun c => nsize c.1)).sum
termination_by n => sizeOf n
decreasing_by
  have h1 := TrieNode.sizeOf_lt_of_mem_nonEmpty c.2
  have h2 := TrieNode.sizeOf_children_lt n
  show sizeOf c.1 < sizeOf n
  omega

/-- Combined size of the nodes remaining in one stack frame. -/
def frameW {K V : Type _} (fr : List (TrieNode K V)) : Nat :=
  (fr.map nsize).sum

/-- Termination measure for the iterator loop: each frame costs one plus
the sizes of its remaining nodes. -/
def stackW {K V : Type _} (s : List (List (TrieNode K V))) : Nat :=
  (s.map (fun fr => 1 + frameW fr)).sum

theorem nsize_eq {K V : Type _} (n : TrieNode K V) :
    nsize n = 2 + frameW (childList n) := by
  rw [nsize]
  congr 1
  simp only [frameW, childList]
  induction TrieNode.nonEmptyChildren n.children with
  | nil => simp
  | cons a t ih => simp [ih]

/-- The main loop of `Iter::next`: peek at the top child iterator; if it
yields a child, push that child's iterator and return its `key_value` if
present; if it is exhausted, pop it; an empty stack ends the iteration. -/
def iterLoop {K V : Type _} :
    List (List (TrieNode K V)) → Option (K × V) × List (List (TrieNode K V))
  | [] => (none, [])
  | [] :: rest => iterLoop rest
  | (c :: cs) :: rest =>
    let stack' := childList c :: cs :: rest
    match c.key_value with
    | some kv => (some kv, stack')
    | none => iterLoop stack'
termination_by s => stackW s
decreasing_by
  · simp only [stackW, List.map_cons, List.sum_cons, frameW, List.map_nil, List.sum_nil]
    omega
  · have := nsize_eq c
    simp only [stackW, List.map_cons, List.sum_cons, frameW] at *
    omega

/-- `Iter::next`: on the first call mark the root visited, push its child
iterator and yield its `key_value` if present; afterwards run the loop. -/
def Iter.next {K V : Type _} (it : Iter K V) : Option (K × V) × Iter K V :=
  if it.root_visited then
    let r := iterLoop it.stack
    (r.1, ⟨it.root, true, r.2⟩)
  else
    let s0 := childList it.root :: it.stack
    match it.root.key_value with
    | some kv => (some kv, ⟨it.root, true, s0⟩)
    | none =>
      let r := iterLoop s0
      (r.1, ⟨it.root, true, r.2⟩)

/-- Termination measure for running the iterator to exhaustion. -/
def iterW {K V : Type _} (it : Iter K V) : Nat :=
  (if it.root_visited then 0 else 1 + nsize it.root) + stackW it.stack

theorem iterLoop_weight {K V : Type _} (s : List (List (TrieNode K V))) :
    stackW (iterLoop s).2 ≤ stackW s ∧
      ((iterLoop s).1.isSome → stackW (iterLoop s).2 < stackW s) := by
  induction s using iterLoop.induct with
  | case1 => simp [iterLoop]
  | case2 rest ih =>
    rw [iterLoop]
    have hstep : stackW rest < stackW ([] :: rest) := by
      simp only [stackW, List.map_cons, List.sum_cons, frameW, List.map_nil, List.sum_nil]
      omega
    exact ⟨le_trans ih.1 (le_of_lt hstep), fun h => lt_trans (ih.2 h) hstep⟩
  | case3 c cs rest p hkv =>
    rw [iterLoop]
    simp only [hkv]
    have := nsize_eq c
    have hlt : stackW (childList c :: cs :: rest) < stackW ((c :: cs) :: rest) := by
      simp only [stackW, List.map_cons, List.sum_cons, frameW] at *
      omega
    exact ⟨le_of_lt hlt, fun h => hlt⟩
  | case4 c cs rest stack' hkv ih =>
    rw [iterLoop]
    simp only [hkv]
    have hstep : stackW (childList c :: cs :: rest) < stackW ((c :: cs) :: rest) := by
      have := nsize_eq c
      simp only [stackW, List.map_cons, List.sum_cons, frameW] at *
      omega
    exact ⟨le_trans ih.1 (le_of_lt hstep), fun h => lt_trans (ih.2 h) hstep⟩

theorem next_some_decreases {K V : Type _} {it it' : Iter K V} {kv : K × V}
    (h : Iter.next it = (some kv, it')) : iterW it' < iterW it := by
  unfold Iter.next at h
  by_cases hv : it.root_visited
  · simp only [hv, if_true] at h
    have hw := iterLoop_weight it.stack
    cases h' : iterLoop it.stack with
    | mk o s' =>
      rw [h'] at h hw
      cases h
      have h2 := hw.2
      simp only at h2
      simp only [iterW, hv, if_true]
      have := h2 rfl
      simp only at this
      omega
  · simp only [hv, if_false] at h
    have hroot := nsize_eq it.root
    have hstep : stackW (childList it.root :: it.stack)
        < 1 + nsize it.root + stackW it.stack := by
      simp only [stackW, List.map_cons, List.sum_cons]
      omega
    cases hkv : it.root.key_value with
    | some p =>
      rw [hkv] at h
      cases h
      simp only [iterW, hv, if_false, Bool.false_eq_true, if_true]
      simp only [stackW, List.map_cons, List.sum_cons] at *
      omega
    | none =>
      rw [hkv] at h
      have hw := iterLoop_weight (childList it.root :: it.stack)
      cases h' : iterLoop (childList it.root :: it.stack) with
      | mk o s' =>
        rw [h'] at h hw
        cases h
        simp only [iterW, hv, if_false, Bool.false_eq_true, if_true]
        have h1 := hw.1
        simp only at h1
        omega

/-- Run the iterator to exhaustion, collecting the yielded pairs in order. -/
def iterAll {K V : Type _} : Iter K V → List (K × V)
  | it =>
    match h : Iter.next it with
    | (some kv, it') => kv :: iterAll it'
    | (none, _) => []
termination_by it => iterW it
decreasing_by exact next_some_decreases h

/-- A concrete key type for scenarios: a numeric tag plus an explicit
nibble encoding.  Distinct tags may share an encoding, exercising the
non-injective encoding cases. -/
structure TKey where
  tag : Nat
  enc : NibbleVec
deriving DecidableEq

instance : TrieKey TKey := ⟨TKey.enc⟩

/-- A single mutating operation on a trie. -/
inductive Op (K V : Type _) where
  | ins (k : K) (v : V)
  | del (k : K)

/-- Apply a sequence of insert/remove operations, in order. -/
def applyOps {K V : Type _} [TrieKey K] [DecidableEq K] (t : Trie K V) : List (Op K V) → Trie K V
  | [] => t
  | Op.ins k v :: rest => applyOps (t.insert k v).1 rest
  | Op.del k :: rest => applyOps (t.remove k).1 rest


/-- The root node of the empty trie is well formed. -/
theorem nodeWF_new {K V : Type _} [TrieKey K] :
    TrieNode.nodeWF (TrieNode.new : TrieNode K V) true [] = true := by
  rw [TrieNode.nodeWF_iff]
  refine ⟨TrieNode.emptyChildren_length, by
      simp [TrieNode.new, TrieNode.countSome_emptyChildren], Or.inl rfl, ?_, Or.inl rfl,
    TrieNode.slotsMatch_emptyChildren 0, ?_⟩
  · intro k v h
    cases h
  · intro c hc
    rw [show (TrieNode.new : TrieNode K V).children = TrieNode.emptyChildren from rfl,
      TrieNode.nonEmptyChildren_emptyChildren] at hc
    cases hc

/-- The empty trie stores no values. -/
theorem countValues_new {K V : Type _} [TrieKey K] :
    TrieNode.countValues (TrieNode.new : TrieNode K V) = 0 := by
  rw [TrieNode.countValues_eq]
  rw [show (TrieNode.new : TrieNode K V).children = TrieNode.emptyChildren from rfl,
    TrieNode.nonEmptyChildren_emptyChildren]
  simp [TrieNode.new]

/-- Trie-level well-formedness: empty root fragment, well-formed node tree
(root exempt from I3), and accurate cached length (I5). -/
def TrieWF {K V : Type _} [TrieKey K] (t : Trie K V) : Prop :=
  t.node.key = [] ∧ TrieNode.nodeWF t.node true [] = true
    ∧ TrieNode.countValues t.node = t.length

theorem TrieWF_new {K V : Type _} [TrieKey K] : TrieWF (Trie.new : Trie K V) :=
  ⟨rfl, nodeWF_new, countValues_new⟩

theorem TrieWF_insert {K V : Type _} [TrieKey K] [DecidableEq K] {t : Trie K V}
    (h : TrieWF t) (k : K) (v : V) : TrieWF (t.insert k v).1 := by
  obtain ⟨hkey, hwf, hcnt⟩ := h
  have hins := TrieNode.insert_wf t.node k v (encode k) true [] hwf (by simp)
    (Or.inl hkey) (fun _ => hkey)
  have hcount := TrieNode.insert_count t.node k v (encode k)
  refine ⟨hins.2.1.2 hkey, hins.1, ?_⟩
  show TrieNode.countValues (t.node.insert k v (encode k)).1
    = if (t.node.insert k v (encode k)).2.isNone then t.length + 1 else t.length
  cases hr : (t.node.insert k v (encode k)).2 with
  | none =>
    rw [hr] at hcount
    simp only [Option.isNone_none, if_true]
    simp only [Option.isSome_none, Bool.false_eq_true, if_false] at hcount
    omega
  | some w =>
    rw [hr] at hcount
    simp only [Option.isNone_some, Bool.false_eq_true, if_false]
    simp only [Option.isSome_some, if_true] at hcount
    omega

theorem TrieWF_remove {K V : Type _} [TrieKey K] [DecidableEq K] {t : Trie K V}
    (h : TrieWF t) (k : K) : TrieWF (t.remove k).1 := by
  obtain ⟨hkey, hwf, hcnt⟩ := h
  have hrem := TrieNode.remove_wf t.node k (encode k) true [] hwf
  have hcount := TrieNode.remove_count t.node k (encode k)
  refine ⟨by rw [show (t.remove k).1.node = (t.node.removeRec k (encode k)).1 from rfl,
      hrem.1]; exact hkey, hrem.2, ?_⟩
  show TrieNode.countValues (t.node.removeRec k (encode k)).1
    = if (t.node.removeRec k (encode k)).2.isSome then t.length - 1 else t.length
  cases hr : (t.node.removeRec k (encode k)).2 with
  | none =>
    rw [hr] at hcount
    simp only [Option.isSome_none, Bool.false_eq_true, if_false] at hcount ⊢
    omega
  | some w =>
    rw [hr] at hcount
    simp only [Option.isSome_some, if_true] at hcount ⊢
    omega

/-- A well-formed trie passes `check_integrity`. -/
theorem check_integrity_of_wf {K V : Type _} [TrieKey K] [DecidableEq K] {t : Trie K V}
    (h : TrieWF t) : t.check_integrity = true := by
  obtain ⟨hkey, hwf, hcnt⟩ := h
  show ((t.node.check_integrity_recursive []).1
    && ((t.node.check_integrity_recursive []).2 == t.length)) = true
  simp only [Bool.and_eq_true, beq_iff_eq]
  exact ⟨TrieNode.check_ok_root hwf hkey, by rw [TrieNode.check_count]; exact hcnt⟩

/-- Any sequence of inserts and removes preserves trie well-formedness. -/
theorem TrieWF_applyOps {K V : Type _} [TrieKey K] [DecidableEq K] (ops : List (Op K V)) :
    ∀ t : Trie K V, TrieWF t → TrieWF (applyOps t ops) := by
  induction ops with
  | nil => exact fun t h => h
  | cons op rest ih =>
    cases op with
    | ins k v =>
      intro t h
      rw [applyOps]
      exact ih _ (TrieWF_insert h k v)
    | del k =>
      intro t h
      rw [applyOps]
      exact ih _ (TrieWF_remove h k)


/-- Unfolding of `iterAll` when `next` yields a pair. -/
theorem iterAll_next_some {K V : Type _} {it it' : Iter K V} {kv : K × V}
    (h : Iter.next it = (some kv, it')) : iterAll it = kv :: iterAll it' := by
  rw [iterAll]
  split
  · rename_i kv2 it2 heq
    rw [h] at heq
    simp only [Prod.mk.injEq, Option.some.injEq] at heq
    obtain ⟨h1, h2⟩ := heq
    rw [h1, h2]
  · rename_i it2 heq
    rw [h] at heq
    simp at heq

/-- Unfolding of `iterAll` when `next` is exhausted. -/
theorem iterAll_next_none {K V : Type _} {it : Iter K V} {r : Iter K V}
    (h : Iter.next it = (none, r)) : iterAll it = [] := by
  rw [iterAll]
  split
  · rename_i kv2 it2 heq
    rw [h] at heq
    simp at heq
  · rfl

/-- Two iterator states with the same `next` step produce the same output
stream. -/
theorem iterAll_eq_of_next_eq {K V : Type _} {it it2 : Iter K V}
    (h : Iter.next it = Iter.next it2) : iterAll it = iterAll it2 := by
  cases hn : Iter.next it with
  | mk o s =>
    cases o with
    | some kv => rw [iterAll_next_some hn, iterAll_next_some (h.symm.trans hn)]
    | none => rw [iterAll_next_none hn, iterAll_next_none (h.symm.trans hn)]

/-- When the loop reports exhaustion the stack it leaves is empty. -/
theorem iterLoop_none {K V : Type _} (s : List (List (TrieNode K V))) :
    (iterLoop s).1 = none → (iterLoop s).2 = [] := by
  induction s using iterLoop.induct with
  | case1 =>
    intro _
    rw [iterLoop]
  | case2 rest ih =>
    rw [iterLoop]
    exact ih
  | case3 c cs rest p hkv =>
    rw [iterLoop]
    simp [hkv]
  | case4 c cs rest stack' hkv ih =>
    rw [iterLoop]
    simp only [hkv]
    exact ih

/-- `toList` without the `attach` plumbing. -/
theorem TrieNode.toList_eq {K V : Type _} (n : TrieNode K V) :
    TrieNode.toList n
      = (match n.key_value with | some p => [p] | none => [])
        ++ ((TrieNode.nonEmptyChildren n.children).map TrieNode.toList).flatten := by
  rw [TrieNode.toList, List.attach_map_coe]

/-- A stack of positive-cost frames with total weight zero is empty. -/
theorem stackW_zero {K V : Type _} {s : List (List (TrieNode K V))}
    (h : stackW s = 0) : s = [] := by
  cases s with
  | nil => rfl
  | cons fr rest =>
    simp only [stackW, List.map_cons, List.sum_cons] at h
    omega

/-- An already-visited iterator with an empty stack yields nothing. -/
theorem iterAll_empty {K V : Type _} (root : TrieNode K V) :
    iterAll (⟨root, true, []⟩ : Iter K V) = [] := by
  have hn : Iter.next (⟨root, true, []⟩ : Iter K V) = (none, ⟨root, true, []⟩) := by
    show ((iterLoop ([] : List (List (TrieNode K V)))).1, _) = _
    rw [iterLoop]
  exact iterAll_next_none hn

/-- Running the iterator from a visited state flattens the stack: each
frame contributes the pre-order listings of its remaining nodes. -/
theorem iterAll_state {K V : Type _} :
    ∀ (w : Nat) (s : List (List (TrieNode K V))), stackW s ≤ w → ∀ root : TrieNode K V,
      iterAll (⟨root, true, s⟩ : Iter K V)
        = (s.map (fun fr => (fr.map TrieNode.toList).flatten)).flatten := by
  intro w
  induction w with
  | zero =>
    intro s hw root
    have hs : s = [] := stackW_zero (Nat.le_zero.1 hw)
    subst hs
    rw [iterAll_empty]
    rfl
  | succ w ih =>
    intro s hw root
    cases s with
    | nil =>
      rw [iterAll_empty]
      rfl
    | cons fr rest =>
      cases fr with
      | nil =>
        have hnext : Iter.next (⟨root, true, [] :: rest⟩ : Iter K V)
            = Iter.next ⟨root, true, rest⟩ := by
          show ((iterLoop ([] :: rest)).1, _) = ((iterLoop rest).1, _)
          rw [show iterLoop ([] :: rest) = iterLoop rest from by rw [iterLoop]]
        have hwr : stackW rest ≤ w := by
          simp only [stackW, List.map_cons, List.sum_cons, frameW, List.map_nil,
            List.sum_nil] at hw ⊢
          omega
        rw [iterAll_eq_of_next_eq hnext, ih rest hwr root]
        simp
      | cons c cs =>
        have hwts : stackW (childList c :: cs :: rest) ≤ w := by
          have h1 := nsize_eq c
          simp only [stackW, List.map_cons, List.sum_cons, frameW] at hw h1 ⊢
          omega
        cases hkv : c.key_value with
        | some p =>
          have hnext : Iter.next (⟨root, true, (c :: cs) :: rest⟩ : Iter K V)
              = (some p, ⟨root, true, childList c :: cs :: rest⟩) := by
            show ((iterLoop ((c :: cs) :: rest)).1, _) = _
            rw [show iterLoop ((c :: cs) :: rest)
                = (some p, childList c :: cs :: rest) from by rw [iterLoop]; simp [hkv]]
          rw [iterAll_next_some hnext, ih _ hwts root]
          simp only [List.map_cons, List.flatten_cons]
          rw [show TrieNode.toList c = p :: ((childList c).map TrieNode.toList).flatten
            from by rw [TrieNode.toList_eq, hkv]; rfl]
          simp
        | none =>
          have hnext : Iter.next (⟨root, true, (c :: cs) :: rest⟩ : Iter K V)
              = Iter.next ⟨root, true, childList c :: cs :: rest⟩ := by
            show ((iterLoop ((c :: cs) :: rest)).1, _) = _
            rw [show iterLoop ((c :: cs) :: rest)
                = iterLoop (childList c :: cs :: rest) from by rw [iterLoop]; simp [hkv]]
            rfl
          rw [iterAll_eq_of_next_eq hnext, ih _ hwts root]
          simp only [List.map_cons, List.flatten_cons]
          rw [show TrieNode.toList c = ((childList c).map TrieNode.toList).flatten
            from by rw [TrieNode.toList_eq, hkv]; rfl]
          simp

/-- The entry iterator yields exactly the pre-order listing of the tree. -/
theorem iterAll_new {K V : Type _} (n : TrieNode K V) :
    iterAll (Iter.new n) = TrieNode.toList n := by
  cases hkv : n.key_value with
  | some p =>
    have hnext : Iter.next (Iter.new n) = (some p, ⟨n, true, [childList n]⟩) := by
      show (match n.key_value with
        | some kv => (some kv, (⟨n, true, [childList n]⟩ : Iter K V))
        | none =>
          ((iterLoop [childList n]).1, ⟨n, true, (iterLoop [childList n]).2⟩)) = _
      rw [hkv]
    rw [iterAll_next_some hnext,
      iterAll_state (stackW [childList n]) [childList n] le_rfl n,
      TrieNode.toList_eq, hkv]
    simp [childList]
  | none =>
    have hnext : Iter.next (Iter.new n) = Iter.next ⟨n, true, [childList n]⟩ := by
      show (match n.key_value with
        | some kv => (some kv, (⟨n, true, [childList n]⟩ : Iter K V))
        | none =>
          ((iterLoop [childList n]).1, ⟨n, true, (iterLoop [childList n]).2⟩))
        = ((iterLoop [childList n]).1, _)
      rw [hkv]
    rw [iterAll_eq_of_next_eq hnext,
      iterAll_state (stackW [childList n]) [childList n] le_rfl n,
      TrieNode.toList_eq, hkv]
    simp [childList]

/-- The keys iterator of `iter.rs` (`Keys::next` maps an entry to its
key). -/
def Trie.keys {K V : Type _} (t : Trie K V) : List K :=
  (iterAll (Iter.new t.node)).map Prod.fst

/-- The values iterator of `iter.rs` (`Values::next` maps an entry to its
value). -/
def Trie.values {K V : Type _} (t : Trie K V) : List V :=
  (iterAll (Iter.new t.node)).map Prod.snd

/-- `Trie::get` in terms of the stored entry at the encoded position. -/
theorem Trie.get_eq {K V : Type _} [TrieKey K] [DecidableEq K] (t : Trie K V) (k : K) :
    t.get k = (TrieNode.valueAt t.node (encode k)).bind
      (fun p => if p.1 = k then some p.2 else none) := by
  show (t.node.get (encode k)).bind (fun n => n.value_checked k) = _
  rw [TrieNode.valueAt]
  cases hg : t.node.get (encode k) with
  | none => rfl
  | some m =>
    simp only [Option.some_bind]
    rw [TrieNode.value_checked]
    cases hkv : m.key_value with
    | none => rfl
    | some p =>
      cases p
      rfl

/-- The empty root stores nothing at any position. -/
theorem TrieNode.valueAt_new {K V : Type _} (q : NibbleVec) :
    TrieNode.valueAt (TrieNode.new : TrieNode K V) q = none := by
  cases q with
  | nil =>
    have h1 : ¬ matchCount (TrieNode.new : TrieNode K V).key ([] : NibbleVec)
        < (TrieNode.new : TrieNode K V).key.length := by
      show ¬ matchCount ([] : NibbleVec) ([] : NibbleVec) < List.length ([] : NibbleVec)
      decide
    have h2 : matchCount (TrieNode.new : TrieNode K V).key ([] : NibbleVec)
        = ([] : NibbleVec).length := by
      show matchCount ([] : NibbleVec) ([] : NibbleVec) = List.length ([] : NibbleVec)
      decide
    rw [TrieNode.valueAt_term h1 h2]
    rfl
  | cons a l =>
    have h1 : ¬ matchCount (TrieNode.new : TrieNode K V).key (a :: l)
        < (TrieNode.new : TrieNode K V).key.length := by
      show ¬ matchCount ([] : NibbleVec) (a :: l) < List.length ([] : NibbleVec)
      simp
    have h2 : matchCount (TrieNode.new : TrieNode K V).key (a :: l) ≠ (a :: l).length := by
      show matchCount ([] : NibbleVec) (a :: l) ≠ (a :: l).length
      simp [matchCount]
    rw [TrieNode.valueAt_descend h1 h2]
    rw [show (TrieNode.new : TrieNode K V).children = TrieNode.emptyChildren from rfl,
      TrieNode.getSlot_emptyChildren]


/-- C2: starting from `Trie::new`, after every finite sequence of `insert`
and `remove` operations `check_integrity` returns `true`; and
`check_integrity` holds exactly when the recursive structural check of the
node tree succeeds and the counted number of value-bearing nodes equals the
cached length. -/
theorem claim_C2 {K V : Type _} [TrieKey K] [DecidableEq K] :
    (∀ ops : List (Op K V), (applyOps Trie.new ops).check_integrity = true)
    ∧ (∀ t : Trie K V, t.check_integrity
        = ((t.node.check_integrity_recursive []).1
          && ((t.node.check_integrity_recursive []).2 == t.length))) := by
  constructor
  · intro ops
    exact check_integrity_of_wf (TrieWF_applyOps ops Trie.new TrieWF_new)
  · intro t
    rfl

/-- C10: once `next` returns `none` the entry iterator is permanently
exhausted: the state delivered with a `none` is a fixpoint of `next`
(`root_visited` stays true, the stack stays empty), so every later call —
and hence the keys and values iterators derived from it — yields `none`. -/
theorem claim_C10 {K V : Type _} (it it' : Iter K V)
    (h : Iter.next it = (none, it')) : Iter.next it' = (none, it') := by
  unfold Iter.next at h
  by_cases hv : it.root_visited
  · simp only [hv, if_true] at h
    have h1 : (iterLoop it.stack).1 = none := by
      have h0 := congrArg Prod.fst h
      simpa using h0
    have h2 : it' = ⟨it.root, true, (iterLoop it.stack).2⟩ := by
      have h0 := congrArg Prod.snd h
      simpa using h0.symm
    have h3 := iterLoop_none it.stack h1
    rw [h2, h3]
    show ((iterLoop ([] : List (List (TrieNode K V)))).1, _) = _
    rw [iterLoop]
  · simp only [hv, if_false] at h
    cases hkv : it.root.key_value with
    | some kv =>
      rw [hkv] at h
      simp at h
    | none =>
      rw [hkv] at h
      have h1 : (iterLoop (childList it.root :: it.stack)).1 = none := by
        have h0 := congrArg Prod.fst h
        simpa using h0
      have h2 : it' = ⟨it.root, true, (iterLoop (childList it.root :: it.stack)).2⟩ := by
        have h0 := congrArg Prod.snd h
        simpa using h0.symm
      have h3 := iterLoop_none (childList it.root :: it.stack) h1
      rw [h2, h3]
      show ((iterLoop ([] : List (List (TrieNode K V)))).1, _) = _
      rw [iterLoop]

/-- C10 at a concrete input: the iterator of the empty tree is exhausted
immediately and its exhausted state is a fixpoint. -/
theorem claim_C10_witness :
    Iter.next (⟨TrieNode.new, true, []⟩ : Iter TKey Nat)
      = (none, (⟨TrieNode.new, true, []⟩ : Iter TKey Nat)) := by
  have h : Iter.next (⟨TrieNode.new, false, []⟩ : Iter TKey Nat)
      = (none, ⟨TrieNode.new, true, []⟩) := by
    show ((iterLoop [childList (TrieNode.new : TrieNode TKey Nat)]).1,
      (⟨TrieNode.new, true,
        (iterLoop [childList (TrieNode.new : TrieNode TKey Nat)]).2⟩ : Iter TKey Nat)) = _
    rw [show childList (TrieNode.new : TrieNode TKey Nat) = [] from rfl]
    rw [iterLoop, iterLoop]
  exact claim_C10 _ _ h


/-- C3 (amended): `insert` returns the value previously stored at the
encoded position `encode k` — whatever typed key owns it — or `none` if
that position was empty; `len` grows by 1 exactly when the position was
empty.  The same-key special case holds as stated: a second insert with
the same key yields the new value on `get` and leaves `len` unchanged. -/
theorem claim_C3 {K V : Type _} [TrieKey K] [DecidableEq K] (t : Trie K V)
    (k : K) (v v' : V) :
    (t.insert k v).2 = (TrieNode.valueAt t.node (encode k)).map Prod.snd
    ∧ (t.insert k v).1.len
        = (if (TrieNode.valueAt t.node (encode k)).isSome then t.len else t.len + 1)
    ∧ ((t.insert k v).1.insert k v').1.get k = some v'
    ∧ ((t.insert k v).1.insert k v').1.len = (t.insert k v).1.len := by
  refine ⟨?_, ?_, ?_, ?_⟩
  · show (t.node.insert k v (encode k)).2 = _
    exact TrieNode.insert_snd t.node k v (encode k)
  · show (if (t.node.insert k v (encode k)).2.isNone then t.length + 1 else t.length) = _
    rw [TrieNode.insert_snd]
    cases TrieNode.valueAt t.node (encode k) with
    | none => simp [Trie.len]
    | some p => simp [Trie.len]
  · rw [Trie.get_eq]
    rw [show ((t.insert k v).1.insert k v').1.node
      = ((t.insert k v).1.node.insert k v' (encode k)).1 from rfl]
    rw [TrieNode.insert_valueAt]
    simp
  · show (if ((t.insert k v).1.node.insert k v' (encode k)).2.isNone
        then (t.insert k v).1.length + 1 else (t.insert k v).1.length) = _
    rw [TrieNode.insert_snd]
    rw [show (t.insert k v).1.node = (t.node.insert k v (encode k)).1 from rfl]
    rw [TrieNode.insert_valueAt]
    simp [Trie.len]

/-- C3, refuting the original wording: with two distinct typed keys sharing
an encoding, `insert` of an absent key (`get` yields `none` for it) still
returns `some` — the value owned by the other key — and `len` stays
unchanged although a new key was inserted. -/
theorem claim_C3_cx :
    ((Trie.new : Trie TKey Nat).insert ⟨0, [1]⟩ 10).1.get ⟨1, [1]⟩ = none
    ∧ (((Trie.new : Trie TKey Nat).insert ⟨0, [1]⟩ 10).1.insert ⟨1, [1]⟩ 20).2 = some 10
    ∧ (((Trie.new : Trie TKey Nat).insert ⟨0, [1]⟩ 10).1.insert ⟨1, [1]⟩ 20).1.len
        = ((Trie.new : Trie TKey Nat).insert ⟨0, [1]⟩ 10).1.len := by
  have hv1 : TrieNode.valueAt ((Trie.new : Trie TKey Nat).insert ⟨0, [1]⟩ 10).1.node [1]
      = some (⟨0, [1]⟩, 10) := by
    show TrieNode.valueAt ((Trie.new : Trie TKey Nat).node.insert ⟨0, [1]⟩ 10 [1]).1 [1] = _
    rw [TrieNode.insert_valueAt, if_pos rfl]
  have h2 : (((Trie.new : Trie TKey Nat).insert ⟨0, [1]⟩ 10).1.node.insert
      ⟨1, [1]⟩ 20 [1]).2 = some 10 := by
    rw [TrieNode.insert_snd, hv1]
    rfl
  refine ⟨?_, ?_, ?_⟩
  · rw [Trie.get_eq]
    rw [show encode (⟨1, [1]⟩ : TKey) = [1] from rfl, hv1]
    decide
  · exact h2
  · show (if (((Trie.new : Trie TKey Nat).insert ⟨0, [1]⟩ 10).1.node.insert
        ⟨1, [1]⟩ 20 [1]).2.isNone
      then ((Trie.new : Trie TKey Nat).insert ⟨0, [1]⟩ 10).1.length + 1
      else ((Trie.new : Trie TKey Nat).insert ⟨0, [1]⟩ 10).1.length) = _
    rw [h2]
    rfl

/-- C5: for distinct typed keys with equal encodings only one entry is
stored at a time: inserting `k2` over `k1` returns `k1`'s value and leaves
exactly `(k2, v2)` stored at the shared position; `get` of the evicted key
and of a third key with the same encoding yields `none` because the
terminal key-equality check treats the mismatch as absence. -/
theorem claim_C5 {K V : Type _} [TrieKey K] [DecidableEq K] (t : Trie K V)
    (k1 k2 k3 : K) (v1 v2 : V)
    (henc1 : encode k1 = encode k2) (henc3 : encode k3 = encode k2)
    (hne12 : k1 ≠ k2) (hne32 : k3 ≠ k2)
    (hempty : TrieNode.valueAt t.node (encode k1) = none) :
    ((t.insert k1 v1).1.insert k2 v2).2 = some v1
    ∧ TrieNode.valueAt ((t.insert k1 v1).1.insert k2 v2).1.node (encode k2)
        = some (k2, v2)
    ∧ ((t.insert k1 v1).1.insert k2 v2).1.get k2 = some v2
    ∧ ((t.insert k1 v1).1.insert k2 v2).1.get k1 = none
    ∧ ((t.insert k1 v1).1.insert k2 v2).1.get k3 = none := by
  have hv1 : TrieNode.valueAt (t.insert k1 v1).1.node (encode k2) = some (k1, v1) := by
    show TrieNode.valueAt (t.node.insert k1 v1 (encode k1)).1 (encode k2) = _
    rw [TrieNode.insert_valueAt, if_pos henc1.symm]
  have hv2 : ∀ q', TrieNode.valueAt ((t.insert k1 v1).1.insert k2 v2).1.node q'
      = if q' = encode k2 then some (k2, v2)
        else TrieNode.valueAt (t.insert k1 v1).1.node q' := by
    intro q'
    show TrieNode.valueAt ((t.insert k1 v1).1.node.insert k2 v2 (encode k2)).1 q' = _
    rw [TrieNode.insert_valueAt]
  refine ⟨?_, ?_, ?_, ?_, ?_⟩
  · show ((t.insert k1 v1).1.node.insert k2 v2 (encode k2)).2 = _
    rw [TrieNode.insert_snd, hv1]
    rfl
  · rw [hv2, if_pos rfl]
  · rw [Trie.get_eq, hv2, if_pos rfl]
    simp
  · rw [Trie.get_eq, hv2, if_pos henc1]
    simp [Ne.symm hne12]
  · rw [Trie.get_eq, hv2, if_pos henc3]
    simp [Ne.symm hne32]

/-- C5 at a concrete input: three tags sharing the encoding `[1]`. -/
theorem claim_C5_witness :
    (((Trie.new : Trie TKey Nat).insert ⟨0, [1]⟩ 10).1.insert ⟨1, [1]⟩ 20).2 = some 10
    ∧ TrieNode.valueAt
        (((Trie.new : Trie TKey Nat).insert ⟨0, [1]⟩ 10).1.insert ⟨1, [1]⟩ 20).1.node
        (encode (⟨1, [1]⟩ : TKey)) = some (⟨1, [1]⟩, 20)
    ∧ (((Trie.new : Trie TKey Nat).insert ⟨0, [1]⟩ 10).1.insert ⟨1, [1]⟩ 20).1.get
        ⟨1, [1]⟩ = some 20
    ∧ (((Trie.new : Trie TKey Nat).insert ⟨0, [1]⟩ 10).1.insert ⟨1, [1]⟩ 20).1.get
        ⟨0, [1]⟩ = none
    ∧ (((Trie.new : Trie TKey Nat).insert ⟨0, [1]⟩ 10).1.insert ⟨1, [1]⟩ 20).1.get
        ⟨2, [1]⟩ = none :=
  claim_C5 (Trie.new : Trie TKey Nat) ⟨0, [1]⟩ ⟨1, [1]⟩ ⟨2, [1]⟩ 10 20 rfl rfl
    (by decide) (by decide) (TrieNode.valueAt_new _)


/-- The last element of a cons, as an `Option.or`. -/
theorem getLast_or {α : Type _} (a : α) (l : List α) :
    (a :: l).getLast? = Option.or l.getLast? (some a) := by
  cases l with
  | nil => rfl
  | cons b t =>
    rw [List.getLast?_cons_cons]
    cases h : (b :: t).getLast? with
    | none =>
      exfalso
      rw [List.getLast?_eq_none_iff] at h
      cases h
    | some x => rfl

/-- Folding inserts over a list: the stored entry at any encoded position
is the last pair of the list encoding there, else whatever the initial trie
stored. -/
theorem foldl_insert_valueAt {K V : Type _} [TrieKey K] [DecidableEq K] :
    ∀ (l : List (K × V)) (t : Trie K V) (q : NibbleVec),
      TrieNode.valueAt
          (l.foldl (fun t kv => (t.insert kv.1 kv.2).1) t).node q
        = Option.or ((l.filter (fun kv => decide (encode kv.1 = q))).getLast?)
            (TrieNode.valueAt t.node q) := by
  intro l
  induction l with
  | nil => intro t q; rfl
  | cons kv tl ih =>
    intro t q
    rw [List.foldl_cons, ih]
    have hstep : TrieNode.valueAt (t.insert kv.1 kv.2).1.node q
        = if q = encode kv.1 then some kv else TrieNode.valueAt t.node q := by
      show TrieNode.valueAt (t.node.insert kv.1 kv.2 (encode kv.1)).1 q = _
      rw [TrieNode.insert_valueAt]
    rw [hstep, List.filter_cons]
    by_cases hq : encode kv.1 = q
    · rw [if_pos hq.symm, if_pos (show decide (encode kv.1 = q) = true by simpa using hq),
        getLast_or, Option.or_assoc]
      congr 1
    · rw [if_neg (fun hx => hq hx.symm),
        if_neg (show ¬ decide (encode kv.1 = q) = true by simpa using hq)]

/-- C9 (amended): `from_iter` builds exactly the fold of `insert` over the
sequence in order, and the stored entry at every encoded position is the
last pair of the sequence with that encoding (last-write-wins per
encoding, not per typed key: a later pair whose distinct key shares the
encoding evicts the earlier entry). -/
theorem claim_C9 {K V : Type _} [TrieKey K] [DecidableEq K] (l : List (K × V)) :
    Trie.from_iter l
      = l.foldl (fun t kv => (t.insert kv.1 kv.2).1) (Trie.new : Trie K V)
    ∧ ∀ q, TrieNode.valueAt (Trie.from_iter l).node q
        = (l.filter (fun kv => decide (encode kv.1 = q))).getLast? := by
  refine ⟨rfl, ?_⟩
  intro q
  show TrieNode.valueAt
    (l.foldl (fun t kv => (t.insert kv.1 kv.2).1) (Trie.new : Trie K V)).node q = _
  rw [foldl_insert_valueAt]
  rw [show TrieNode.valueAt (Trie.new : Trie K V).node q = none from
    TrieNode.valueAt_new q]
  cases (l.filter (fun kv => decide (encode kv.1 = q))).getLast? <;> rfl

/-- C9, refuting the last-write-wins-per-key wording: the sequence has
duplicate occurrences of the key with tag 0 (last value 3), yet after a
later pair with a distinct key of the same encoding the built trie stores
nothing at all for that key, while the colliding key holds its value. -/
theorem claim_C9_cx :
    (Trie.from_iter
        [((⟨0, [1]⟩ : TKey), (1 : Nat)), (⟨0, [1]⟩, 3), (⟨1, [1]⟩, 9)]).get
      ⟨0, [1]⟩ = none
    ∧ (Trie.from_iter
        [((⟨0, [1]⟩ : TKey), (1 : Nat)), (⟨0, [1]⟩, 3), (⟨1, [1]⟩, 9)]).get
      ⟨1, [1]⟩ = some 9 := by
  have hv : TrieNode.valueAt
      (Trie.from_iter
        [((⟨0, [1]⟩ : TKey), (1 : Nat)), (⟨0, [1]⟩, 3), (⟨1, [1]⟩, 9)]).node [1]
      = some (⟨1, [1]⟩, 9) := by
    show TrieNode.valueAt
      ((((Trie.new : Trie TKey Nat).insert ⟨0, [1]⟩ 1).1.insert
        ⟨0, [1]⟩ 3).1.node.insert ⟨1, [1]⟩ 9 [1]).1 [1] = _
    rw [TrieNode.insert_valueAt, if_pos rfl]
  constructor
  · rw [Trie.get_eq, show encode (⟨0, [1]⟩ : TKey) = [1] from rfl, hv]
    decide
  · rw [Trie.get_eq, show encode (⟨1, [1]⟩ : TKey) = [1] from rfl, hv]
    decide


/-- C4: removing a key that is not stored — including one present only
under a different typed key sharing its encoding — returns `none` and
mutates nothing (same node tree, same length); removing a stored key
returns its value and decrements the length by one. -/
theorem claim_C4 {K V : Type _} [TrieKey K] [DecidableEq K] (t : Trie K V) (k : K) :
    (t.get k = none →
      (t.remove k).2 = none ∧ (t.remove k).1.node = t.node
        ∧ (t.remove k).1.len = t.len)
    ∧ (∀ v, t.get k = some v →
      (t.remove k).2 = some v ∧ (t.remove k).1.len = t.len - 1) := by
  have hsnd : (t.remove k).2
      = match TrieNode.valueAt t.node (encode k) with
        | some (k', v) => if k' = k then some v else none
        | none => none := by
    show (t.node.removeRec k (encode k)).2 = _
    exact TrieNode.removeRec_snd t.node k (encode k)
  constructor
  · intro hg
    rw [Trie.get_eq] at hg
    have h2 : (t.remove k).2 = none := by
      rw [hsnd]
      cases hv : TrieNode.valueAt t.node (encode k) with
      | none => rfl
      | some p =>
        rw [hv] at hg
        cases p with
        | mk k' v =>
          simp only [Option.some_bind] at hg
          by_cases hk : k' = k
          · rw [if_pos hk] at hg
            cases hg
          · simp [hk]
    refine ⟨h2, ?_, ?_⟩
    · show (t.node.removeRec k (encode k)).1 = t.node
      exact TrieNode.removeRec_none_eq h2
    · show (if (t.node.removeRec k (encode k)).2.isSome then t.length - 1 else t.length)
        = t.length
      rw [show (t.node.removeRec k (encode k)).2 = none from h2]
      rfl
  · intro v hg
    rw [Trie.get_eq] at hg
    have hv2 : (t.remove k).2 = some v := by
      rw [hsnd]
      cases hv : TrieNode.valueAt t.node (encode k) with
      | none =>
        rw [hv] at hg
        cases hg
      | some p =>
        rw [hv] at hg
        cases p with
        | mk k' w =>
          simp only [Option.some_bind] at hg
          by_cases hk : k' = k
          · rw [if_pos hk] at hg
            simp only [Option.some.injEq] at hg
            subst hg
            simp [hk]
          · rw [if_neg hk] at hg
            cases hg
    refine ⟨hv2, ?_⟩
    show (if (t.node.removeRec k (encode k)).2.isSome then t.length - 1 else t.length)
      = t.length - 1
    rw [show (t.node.removeRec k (encode k)).2 = some v from hv2]
    rfl

/-- C4 at concrete inputs: removing the absent colliding key (tag 1)
changes nothing; removing the stored key (tag 0) yields its value and
drops the length to zero. -/
theorem claim_C4_witness :
    (((Trie.new : Trie TKey Nat).insert ⟨0, [1]⟩ 10).1.remove ⟨1, [1]⟩).2 = none
    ∧ (((Trie.new : Trie TKey Nat).insert ⟨0, [1]⟩ 10).1.remove ⟨1, [1]⟩).1.node
        = ((Trie.new : Trie TKey Nat).insert ⟨0, [1]⟩ 10).1.node
    ∧ (((Trie.new : Trie TKey Nat).insert ⟨0, [1]⟩ 10).1.remove ⟨1, [1]⟩).1.len
        = ((Trie.new : Trie TKey Nat).insert ⟨0, [1]⟩ 10).1.len
    ∧ (((Trie.new : Trie TKey Nat).insert ⟨0, [1]⟩ 10).1.remove ⟨0, [1]⟩).2 = some 10
    ∧ (((Trie.new : Trie TKey Nat).insert ⟨0, [1]⟩ 10).1.remove ⟨0, [1]⟩).1.len
        = ((Trie.new : Trie TKey Nat).insert ⟨0, [1]⟩ 10).1.len - 1 := by
  have hv1 : TrieNode.valueAt ((Trie.new : Trie TKey Nat).insert ⟨0, [1]⟩ 10).1.node [1]
      = some (⟨0, [1]⟩, 10) := by
    show TrieNode.valueAt ((Trie.new : Trie TKey Nat).node.insert ⟨0, [1]⟩ 10 [1]).1 [1] = _
    rw [TrieNode.insert_valueAt, if_pos rfl]
  have hga : ((Trie.new : Trie TKey Nat).insert ⟨0, [1]⟩ 10).1.get ⟨1, [1]⟩ = none := by
    rw [Trie.get_eq, show encode (⟨1, [1]⟩ : TKey) = [1] from rfl, hv1]
    decide
  have hgb : ((Trie.new : Trie TKey Nat).insert ⟨0, [1]⟩ 10).1.get ⟨0, [1]⟩ = some 10 := by
    rw [Trie.get_eq, show encode (⟨0, [1]⟩ : TKey) = [1] from rfl, hv1]
    decide
  have ha := claim_C4 ((Trie.new : Trie TKey Nat).insert ⟨0, [1]⟩ 10).1 ⟨1, [1]⟩
  have hb := claim_C4 ((Trie.new : Trie TKey Nat).insert ⟨0, [1]⟩ 10).1 ⟨0, [1]⟩
  exact ⟨(ha.1 hga).1, (ha.1 hga).2.1, (ha.1 hga).2.2,
    (hb.2 10 hgb).1, (hb.2 10 hgb).2⟩


namespace TrieNode

variable {K V : Type _} [DecidableEq K]

theorem modifyValue_mismatch {n : TrieNode K V} {k : K} {q : NibbleVec} {f : V → V}
    (h : matchCount n.key q < n.key.length) : modifyValue n k q f = n := by
  rw [modifyValue]
  rw [if_pos h]

theorem modifyValue_term {n : TrieNode K V} {k : K} {q : NibbleVec} {f : V → V}
    (h1 : ¬ matchCount n.key q < n.key.length) (h2 : matchCount n.key q = q.length) :
    modifyValue n k q f
      = match n.key_value with
        | some (k', v) =>
          if k' = k then mk n.key (some (k', f v)) n.children n.child_count else n
        | none => n := by
  rw [modifyValue]
  rw [if_neg h1, if_pos h2]

theorem modifyValue_descend_none {n : TrieNode K V} {k : K} {q : NibbleVec} {f : V → V}
    (h1 : ¬ matchCount n.key q < n.key.length) (h2 : matchCount n.key q ≠ q.length)
    (hc : getSlot n.children (nib q (matchCount n.key q)) = none) :
    modifyValue n k q f = n := by
  rw [modifyValue]
  simp only [if_neg h1, if_neg h2]
  split
  · rfl
  · rename_i c2 hc2
    rw [hc] at hc2
    cases hc2

theorem modifyValue_descend_some {n c : TrieNode K V} {k : K} {q : NibbleVec} {f : V → V}
    (h1 : ¬ matchCount n.key q < n.key.length) (h2 : matchCount n.key q ≠ q.length)
    (hc : getSlot n.children (nib q (matchCount n.key q)) = some c) :
    modifyValue n k q f
      = mk n.key n.key_value
          (setSlot n.children (nib q (matchCount n.key q))
            (some (modifyValue c k (q.drop (matchCount n.key q)) f)))
          n.child_count := by
  rw [modifyValue]
  simp only [if_neg h1, if_neg h2]
  split
  · rename_i hc2
    rw [hc] at hc2
    cases hc2
  · rename_i c2 hc2
    rw [hc] at hc2
    cases hc2
    rfl

/-- Pointwise semantics of `get_mut`-then-update: the entry at the queried
position has its value mapped when its owning key is `k`; every other
position is untouched. -/
theorem modifyValue_valueAt (n : TrieNode K V) (k : K) (q : NibbleVec) (f : V → V)
    (q' : NibbleVec) :
    valueAt (modifyValue n k q f) q'
      = if q' = q
        then (valueAt n q).map (fun p => if p.1 = k then (p.1, f p.2) else p)
        else valueAt n q' := by
  induction n, k, q, f using modifyValue.induct generalizing q' with
  | case1 n k q f m h1 =>
    have h1' : matchCount n.key q < n.key.length := h1
    rw [modifyValue_mismatch h1']
    by_cases hqq : q' = q
    · rw [if_pos hqq, hqq, valueAt_mismatch h1']
      rfl
    · rw [if_neg hqq]
  | case2 n q f m h1 h2 k' v hkv =>
    have h1' : ¬ matchCount n.key q < n.key.length := h1
    have h2' : matchCount n.key q = q.length := h2
    have hres : modifyValue n k' q f = mk n.key (some (k', f v)) n.children n.child_count := by
      rw [modifyValue_term h1' h2', hkv]
      exact if_pos rfl
    rw [hres]
    have hvq : valueAt n q = some (k', v) := by
      rw [valueAt_term h1' h2', hkv]
    have hq : q = n.key := eq_key_of_full h1' h2'
    by_cases hm1 : matchCount n.key q' < n.key.length
    · rw [valueAt_mismatch (n := mk n.key (some (k', f v)) n.children n.child_count)
        (by simpa using hm1)]
      rw [if_neg (by intro hx; rw [hx] at hm1; exact h1' hm1), valueAt_mismatch hm1]
    · by_cases hm2 : matchCount n.key q' = q'.length
      · have hq' : q' = n.key := eq_key_of_full hm1 hm2
        rw [if_pos (hq'.trans hq.symm), hvq]
        rw [valueAt_term (n := mk n.key (some (k', f v)) n.children n.child_count)
          (by simpa using hm1) (by simpa using hm2)]
        simp
      · rw [if_neg (by intro hx; subst hx; exact hm2 h2')]
        rw [valueAt_descend (n := mk n.key (some (k', f v)) n.children n.child_count)
          (by simpa using hm1) (by simpa using hm2)]
        rw [valueAt_descend hm1 hm2]
        rfl
  | case3 n k q f m h1 h2 k' v hkv hne =>
    have h1' : ¬ matchCount n.key q < n.key.length := h1
    have h2' : matchCount n.key q = q.length := h2
    have hres : modifyValue n k q f = n := by
      rw [modifyValue_term h1' h2', hkv]
      exact if_neg hne
    rw [hres]
    by_cases hqq : q' = q
    · rw [if_pos hqq, hqq, valueAt_term h1' h2', hkv]
      simp [hne]
    · rw [if_neg hqq]
  | case4 n k q f m h1 h2 hkv =>
    have h1' : ¬ matchCount n.key q < n.key.length := h1
    have h2' : matchCount n.key q = q.length := h2
    have hres : modifyValue n k q f = n := by
      rw [modifyValue_term h1' h2', hkv]
    rw [hres]
    by_cases hqq : q' = q
    · rw [if_pos hqq, hqq, valueAt_term h1' h2', hkv]
      rfl
    · rw [if_neg hqq]
  | case5 n k q f m h1 h2 hc =>
    have h1' : ¬ matchCount n.key q < n.key.length := h1
    have h2' : matchCount n.key q ≠ q.length := h2
    have hc' : getSlot n.children (nib q (matchCount n.key q)) = none := hc
    rw [modifyValue_descend_none h1' h2' hc']
    by_cases hqq : q' = q
    · rw [if_pos hqq, hqq, valueAt_descend h1' h2', hc']
      rfl
    · rw [if_neg hqq]
  | case6 n k q f m h1 h2 c hc ih =>
    have h1' : matchCount n.key q = n.key.length := by
      have := matchCount_le_left n.key q
      omega
    have h2' : matchCount n.key q ≠ q.length := h2
    have hc' : getSlot n.children (nib q (matchCount n.key q)) = some c := hc
    have hqlen : matchCount n.key q ≤ q.length := matchCount_le_right n.key q
    have hqlt : n.key.length < q.length := by omega
    have hqdec : n.key ++ q.drop n.key.length = q := key_append_drop h1'
    rw [modifyValue_descend_some (by omega) h2' hc']
    have hvq : valueAt n q = valueAt c (q.drop (matchCount n.key q)) := by
      rw [valueAt_descend (by omega) h2', hc']
    by_cases hm1 : matchCount n.key q' < n.key.length
    · rw [valueAt_mismatch (n := mk n.key n.key_value _ n.child_count)
        (by simpa using hm1)]
      rw [if_neg (by intro hx; subst hx; omega), valueAt_mismatch hm1]
    · have hm1' : matchCount n.key q' = n.key.length := by
        have := matchCount_le_left n.key q'
        omega
      have hqdec' : n.key ++ q'.drop n.key.length = q' := key_append_drop hm1'
      by_cases hm2 : matchCount n.key q' = q'.length
      · have hq' : q' = n.key := eq_key_of_full hm1 hm2
        rw [if_neg (by intro hx; subst hx; omega)]
        rw [valueAt_term (n := mk n.key n.key_value _ n.child_count)
          (by simpa using hm1) (by simpa using hm2)]
        rw [valueAt_term hm1 hm2]
        rfl
      · rw [valueAt_descend (n := mk n.key n.key_value _ n.child_count)
          (by simpa using hm1) (by simpa using hm2)]
        rw [valueAt_descend hm1 hm2]
        simp only [key_mk, children_mk]
        have ihd : ∀ (x : NibbleVec), valueAt (modifyValue c k (q.drop (matchCount n.key q)) f) x
            = if x = q.drop (matchCount n.key q)
              then (valueAt c (q.drop (matchCount n.key q))).map
                (fun p => if p.1 = k then (p.1, f p.2) else p)
              else valueAt c x := ih
        have hmm : matchCount n.key q' = matchCount n.key q := by omega
        rw [hmm]
        have hiff : q' = q ↔ q'.drop (matchCount n.key q) = q.drop (matchCount n.key q) := by
          constructor
          · intro hx
            rw [hx]
          · intro hx
            rw [← hqdec', ← hqdec, ← h1', hx]
        by_cases hij : nib q' (matchCount n.key q) = nib q (matchCount n.key q)
        · rw [hij]
          simp only [getSlot_setSlot_self]
          rw [ihd]
          by_cases hdd : q'.drop (matchCount n.key q) = q.drop (matchCount n.key q)
          · rw [if_pos hdd, if_pos (hiff.2 hdd), hvq]
          · rw [if_neg hdd, if_neg (fun hx => hdd (hiff.1 hx)), hc']
        · rw [getSlot_setSlot_ne _ (fun hx => hij hx.symm)]
          rw [if_neg]
          intro hx
          rw [hx] at hij
          exact hij rfl

end TrieNode


/-- C8: when no value is stored at `k`, `map_with_default` inserts the
default and the result does not depend on `f` at all; when a value `v` is
stored, it applies `f` in place — `get` then yields `f v`, the length is
unchanged, and every other encoded position is untouched (nothing is
inserted). -/
theorem claim_C8 {K V : Type _} [TrieKey K] [DecidableEq K] (t : Trie K V)
    (k : K) (f : V → V) (d : V) :
    (t.get k = none → t.map_with_default k f d = (t.insert k d).1)
    ∧ (∀ v, t.get k = some v →
        (t.map_with_default k f d).get k = some (f v)
        ∧ (t.map_with_default k f d).len = t.len
        ∧ ∀ q', q' ≠ encode k →
            TrieNode.valueAt (t.map_with_default k f d).node q'
              = TrieNode.valueAt t.node q') := by
  constructor
  · intro hg
    rw [Trie.map_with_default, hg]
    simp
  · intro v hg
    have hmwd : t.map_with_default k f d
        = ⟨t.length, t.node.modifyValue k (encode k) f⟩ := by
      rw [Trie.map_with_default, hg]
      simp
    rw [Trie.get_eq] at hg
    have hva : TrieNode.valueAt t.node (encode k) = some (k, v) := by
      cases hv : TrieNode.valueAt t.node (encode k) with
      | none =>
        rw [hv] at hg
        cases hg
      | some p =>
        rw [hv] at hg
        cases p with
        | mk k0 w =>
          simp only [Option.some_bind] at hg
          by_cases hk : k0 = k
          · subst hk
            rw [if_pos rfl] at hg
            simp only [Option.some.injEq] at hg
            rw [hg]
          · rw [if_neg hk] at hg
            cases hg
    refine ⟨?_, ?_, ?_⟩
    · rw [hmwd, Trie.get_eq]
      show (TrieNode.valueAt (t.node.modifyValue k (encode k) f) (encode k)).bind _ = _
      rw [TrieNode.modifyValue_valueAt, if_pos rfl, hva]
      simp
    · rw [hmwd]
      rfl
    · intro q' hq'
      rw [hmwd]
      show TrieNode.valueAt (t.node.modifyValue k (encode k) f) q' = _
      rw [TrieNode.modifyValue_valueAt, if_neg hq']

/-- C8 at a concrete input: on the empty trie the default 5 is inserted
(no use of `f`); the second call applies `f` in place, yielding 105 with
the length unchanged. -/
theorem claim_C8_witness :
    (Trie.new : Trie TKey Nat).map_with_default ⟨0, [1]⟩ (fun v => v + 100) 5
      = ((Trie.new : Trie TKey Nat).insert ⟨0, [1]⟩ 5).1
    ∧ (((Trie.new : Trie TKey Nat).insert ⟨0, [1]⟩ 5).1.map_with_default
        ⟨0, [1]⟩ (fun v => v + 100) 5).get ⟨0, [1]⟩ = some 105
    ∧ (((Trie.new : Trie TKey Nat).insert ⟨0, [1]⟩ 5).1.map_with_default
        ⟨0, [1]⟩ (fun v => v + 100) 5).len
      = ((Trie.new : Trie TKey Nat).insert ⟨0, [1]⟩ 5).1.len := by
  have hg0 : (Trie.new : Trie TKey Nat).get ⟨0, [1]⟩ = none := by
    rw [Trie.get_eq, show encode (⟨0, [1]⟩ : TKey) = [1] from rfl,
      show (Trie.new : Trie TKey Nat).node = (TrieNode.new : TrieNode TKey Nat) from rfl,
      TrieNode.valueAt_new]
    rfl
  have hv1 : TrieNode.valueAt ((Trie.new : Trie TKey Nat).insert ⟨0, [1]⟩ 5).1.node [1]
      = some (⟨0, [1]⟩, 5) := by
    show TrieNode.valueAt ((Trie.new : Trie TKey Nat).node.insert ⟨0, [1]⟩ 5 [1]).1 [1] = _
    rw [TrieNode.insert_valueAt, if_pos rfl]
  have hg1 : ((Trie.new : Trie TKey Nat).insert ⟨0, [1]⟩ 5).1.get ⟨0, [1]⟩ = some 5 := by
    rw [Trie.get_eq, show encode (⟨0, [1]⟩ : TKey) = [1] from rfl, hv1]
    decide
  have h0 := claim_C8 (Trie.new : Trie TKey Nat) ⟨0, [1]⟩ (fun v => v + 100) 5
  have h1 := claim_C8 ((Trie.new : Trie TKey Nat).insert ⟨0, [1]⟩ 5).1 ⟨0, [1]⟩
    (fun v => v + 100) 5
  exact ⟨h0.1 hg0, (h1.2 5 hg1).1, (h1.2 5 hg1).2.1⟩


namespace TrieNode

variable {K V : Type _} [TrieKey K]

theorem mk_eta (n : TrieNode K V) :
    mk n.key n.key_value n.children n.child_count = n := by
  cases n
  rfl

theorem mk_eta_none {n : TrieNode K V} (h : n.key_value = none) :
    mk n.key none n.children n.child_count = n := by
  rw [← h]
  exact mk_eta n

theorem nonEmptyChildren_replicate (m : Nat) :
    nonEmptyChildren (List.replicate m (none : Option (TrieNode K V))) = [] := by
  induction m with
  | zero => rfl
  | succ m ih =>
    rw [List.replicate_succ, nonEmptyChildren_cons_none, ih]

theorem nonEmpty_setSlot_replicate :
    ∀ (i m : Nat) (x : TrieNode K V),
      nonEmptyChildren (setSlot (List.replicate m none) i (some x)) = [x] := by
  intro i
  induction i with
  | zero =>
    intro m x
    cases m with
    | zero => rfl
    | succ m =>
      rw [List.replicate_succ]
      show nonEmptyChildren (some x :: List.replicate m none) = [x]
      rw [nonEmptyChildren_cons_some, nonEmptyChildren_replicate]
  | succ i ih =>
    intro m x
    cases m with
    | zero =>
      show nonEmptyChildren (none :: setSlot [] i (some x)) = [x]
      rw [nonEmptyChildren_cons_none]
      exact ih 0 x
    | succ m =>
      rw [List.replicate_succ]
      show nonEmptyChildren (none :: setSlot (List.replicate m none) i (some x)) = [x]
      rw [nonEmptyChildren_cons_none]
      exact ih m x

theorem nonEmpty_setSlot_empty (i : Nat) (x : TrieNode K V) :
    nonEmptyChildren (setSlot emptyChildren i (some x)) = [x] :=
  nonEmpty_setSlot_replicate i 16 x

/-- A node satisfying the strict invariant (I3 included) is its own
compaction. -/
theorem compact_of_strict {n : TrieNode K V} {p : NibbleVec}
    (hwf : nodeWF n false p = true) : compact n = some n := by
  obtain ⟨-, -, -, -, h3, -, -⟩ := (nodeWF_iff n false p).1 hwf
  by_cases hv : n.key_value.isSome
  · rw [compact, if_pos hv]
  · rw [compact, if_neg hv]
    rcases h3 with h | h | h
    · cases h
    · exact absurd h hv
    · rcases hne : nonEmptyChildren n.children with _ | ⟨a, _ | ⟨b, t⟩⟩
      · rw [countSome_eq_length_nonEmpty, hne] at h
        simp at h
      · rw [countSome_eq_length_nonEmpty, hne] at h
        simp at h
      · rfl

variable [DecidableEq K]

theorem removeRec_leaf (k : K) (v : V) (r : NibbleVec) :
    removeRec (leaf r k v) k r = (mk r none emptyChildren 0, some v) := by
  have h1 : ¬ matchCount r r < r.length := by
    rw [matchCount_self]
    omega
  have h2 : matchCount r r = r.length := matchCount_self r
  rw [removeRec_term (n := leaf r k v) h1 h2]
  show (if k = k then ((mk r none emptyChildren 0 : TrieNode K V), some v)
    else (leaf r k v, none)) = _
  rw [if_pos rfl]

theorem compact_cleared_leaf (r : NibbleVec) :
    compact (mk r (none : Option (K × V)) emptyChildren 0) = none := by
  rw [compact]
  rw [if_neg (by simp)]
  show (match nonEmptyChildren (emptyChildren : List (Option (TrieNode K V))) with
    | [] => (none : Option (TrieNode K V))
    | [c] => some (mk (r ++ c.key) c.key_value c.children c.child_count)
    | _ => some (mk r none emptyChildren 0)) = none
  rw [nonEmptyChildren_emptyChildren]

theorem removeRec_descend_restore {n c c2 : TrieNode K V} {k : K} {q : NibbleVec} {v : V}
    (h1 : ¬ matchCount n.key q < n.key.length) (h2 : matchCount n.key q ≠ q.length)
    (hc : getSlot n.children (nib (q.drop (matchCount n.key q)) 0) = some c)
    (hr : (c.removeRec k (q.drop (matchCount n.key q))).2 = some v)
    (hcmp : compact (c.removeRec k (q.drop (matchCount n.key q))).1 = some c2) :
    n.removeRec k q
      = (mk n.key n.key_value
          (setSlot n.children (nib (q.drop (matchCount n.key q)) 0) (some c2))
          n.child_count, some v) := by
  rw [removeRec_descend_some h1 h2 hc, hr, hcmp]

theorem removeRec_descend_vacate {n c : TrieNode K V} {k : K} {q : NibbleVec} {v : V}
    (h1 : ¬ matchCount n.key q < n.key.length) (h2 : matchCount n.key q ≠ q.length)
    (hc : getSlot n.children (nib (q.drop (matchCount n.key q)) 0) = some c)
    (hr : (c.removeRec k (q.drop (matchCount n.key q))).2 = some v)
    (hcmp : compact (c.removeRec k (q.drop (matchCount n.key q))).1 = none) :
    n.removeRec k q
      = (mk n.key n.key_value
          (setSlot n.children (nib (q.drop (matchCount n.key q)) 0) none)
          (n.child_count - 1), some v) := by
  rw [removeRec_descend_some h1 h2 hc, hr, hcmp]

/-- Removing a freshly inserted key restores the node: the removal returns
the inserted value; at a non-root node the compacted result is exactly the
original node, and at the root the result is the original node itself.
Premises: well-formedness, path consistency, head compatibility, and an
empty entry at the insertion position. -/
theorem insert_remove_restore (n : TrieNode K V) (k : K) (v : V) (q : NibbleVec) :
    ∀ (b : Bool) (p : NibbleVec), nodeWF n b p = true → encode k = p ++ q →
      (n.key = [] ∨ (q ≠ [] ∧ n.key ≠ [] ∧ nib n.key 0 = nib q 0)) →
      (b = true → n.key = []) →
      valueAt n q = none →
      ((n.insert k v q).1.removeRec k q).2 = some v
      ∧ (b = false → compact ((n.insert k v q).1.removeRec k q).1 = some n)
      ∧ (b = true → ((n.insert k v q).1.removeRec k q).1 = n) := by
  induction n, k, v, q using insert.induct with
  | case1 n k v q m h1 h2 =>
    intro b p hwf henc hhead hroot hempty
    have h1' : matchCount n.key q = n.key.length := h1
    have h2' : matchCount n.key q = q.length := h2
    have hkvn : n.key_value = none := by
      rw [← valueAt_term (by omega) h2']
      exact hempty
    rw [insert_exact h1' h2']
    have hrem : (mk n.key (some (k, v)) n.children n.child_count).removeRec k q
        = (mk n.key none n.children n.child_count, some v) := by
      rw [removeRec_term (n := mk n.key (some (k, v)) n.children n.child_count)
        (show ¬ matchCount n.key q < n.key.length by omega) h2']
      show (if k = k
        then ((mk n.key none n.children n.child_count : TrieNode K V), some v)
        else (mk n.key (some (k, v)) n.children n.child_count, none)) = _
      rw [if_pos rfl]
    rw [hrem, mk_eta_none hkvn]
    refine ⟨rfl, ?_, fun _ => rfl⟩
    intro hb
    subst hb
    exact compact_of_strict hwf
  | case2 n k v q m h1 h2 rest i c hc ih =>
    intro b p hwf henc hhead hroot hempty
    have h1' : matchCount n.key q = n.key.length := h1
    have h2' : matchCount n.key q ≠ q.length := h2
    have hc0 : getSlot n.children (nib (q.drop (matchCount n.key q)) 0) = some c := hc
    have hc2 : getSlot n.children (nib q (matchCount n.key q)) = some c := by
      rw [← nib_drop]
      exact hc0
    have hqlen : matchCount n.key q ≤ q.length := matchCount_le_right n.key q
    have hqlt : n.key.length < q.length := by omega
    have hqdec : n.key ++ q.drop n.key.length = q := key_append_drop h1'
    obtain ⟨hl, hcc, hkey, hkv, h3, hsl, hch⟩ := (nodeWF_iff n b p).1 hwf
    have hslc := slotsMatch_getSlot hsl hc0
    have hrest_ne : q.drop (matchCount n.key q) ≠ [] := drop_ne_nil_of_lt (by omega)
    have hcwf : nodeWF c false (p ++ n.key) = true := nodeWF_child hwf hc0
    have hqdec2 : q = n.key ++ q.drop (matchCount n.key q) := by
      rw [h1']
      exact hqdec.symm
    have hvc : valueAt c (q.drop (matchCount n.key q)) = none := by
      have hx := valueAt_descend (n := n) (q := q) (by omega) h2'
      rw [hempty, hc2] at hx
      exact hx.symm
    obtain ⟨ih2, ihc, -⟩ := ih false (p ++ n.key) hcwf
      (by rw [henc, List.append_assoc]; exact congrArg (p ++ ·) hqdec2)
      (Or.inr ⟨hrest_ne, hslc.1, by
        show nib c.key 0 = nib (q.drop (matchCount n.key q)) 0
        rw [hslc.2]
        omega⟩)
      (fun h => absurd h (by simp))
      hvc
    have ihc' : compact ((c.insert k v (q.drop (matchCount n.key q))).1.removeRec k
        (q.drop (matchCount n.key q))).1 = some c := ihc rfl
    rw [insert_descend_some h1' h2' hc0]
    have hil : nib (q.drop (matchCount n.key q)) 0 < n.children.length := by
      rw [hl]
      exact nib_lt _ 0
    have hrem : (mk n.key n.key_value
        (setSlot n.children (nib (q.drop (matchCount n.key q)) 0)
          (some (c.insert k v (q.drop (matchCount n.key q))).1))
        n.child_count).removeRec k q = (n, some v) := by
      rw [removeRec_descend_restore
        (n := mk n.key n.key_value
          (setSlot n.children (nib (q.drop (matchCount n.key q)) 0)
            (some (c.insert k v (q.drop (matchCount n.key q))).1))
          n.child_count)
        (show ¬ matchCount n.key q < n.key.length by omega) h2'
        (getSlot_setSlot_self _ _ _) ih2 ihc']
      simp only [key_mk, key_value_mk, children_mk, child_count_mk]
      rw [setSlot_setSlot_same, setSlot_eq_self hil hc0, mk_eta]
    rw [hrem]
    refine ⟨rfl, ?_, fun _ => rfl⟩
    intro hb
    subst hb
    exact compact_of_strict hwf
  | case3 n k v q m h1 h2 rest i hc =>
    intro b p hwf henc hhead hroot hempty
    have h1' : matchCount n.key q = n.key.length := h1
    have h2' : matchCount n.key q ≠ q.length := h2
    have hc0 : getSlot n.children (nib (q.drop (matchCount n.key q)) 0) = none := hc
    have hqlen : matchCount n.key q ≤ q.length := matchCount_le_right n.key q
    have hqlt : n.key.length < q.length := by omega
    obtain ⟨hl, hcc, hkey, hkv, h3, hsl, hch⟩ := (nodeWF_iff n b p).1 hwf
    have hil : nib (q.drop (matchCount n.key q)) 0 < n.children.length := by
      rw [hl]
      exact nib_lt _ 0
    rw [insert_descend_none h1' h2' hc0]
    have hrem : (mk n.key n.key_value
        (setSlot n.children (nib (q.drop (matchCount n.key q)) 0)
          (some (leaf (q.drop (matchCount n.key q)) k v)))
        (n.child_count + 1)).removeRec k q = (n, some v) := by
      rw [removeRec_descend_vacate
        (n := mk n.key n.key_value
          (setSlot n.children (nib (q.drop (matchCount n.key q)) 0)
            (some (leaf (q.drop (matchCount n.key q)) k v)))
          (n.child_count + 1))
        (show ¬ matchCount n.key q < n.key.length by omega) h2'
        (getSlot_setSlot_self _ _ _)
        (show ((leaf (q.drop (matchCount n.key q)) k v).removeRec k
            (q.drop (matchCount n.key q))).2 = some v by rw [removeRec_leaf])
        (show compact ((leaf (q.drop (matchCount n.key q)) k v).removeRec k
            (q.drop (matchCount n.key q))).1 = none by
          rw [removeRec_leaf]
          exact compact_cleared_leaf _)]
      simp only [key_mk, key_value_mk, children_mk, child_count_mk]
      rw [setSlot_setSlot_same, setSlot_eq_self hil hc0]
      rw [show n.child_count + 1 - 1 = n.child_count from rfl, mk_eta]
    rw [hrem]
    refine ⟨rfl, ?_, fun _ => rfl⟩
    intro hb
    subst hb
    exact compact_of_strict hwf
  | case4 n k v q m h1 h2 =>
    intro b p hwf henc hhead hroot hempty
    have h1' : matchCount n.key q ≠ n.key.length := h1
    have h2' : matchCount n.key q = q.length := h2
    have hlt : matchCount n.key q < n.key.length := by
      have := matchCount_le_left n.key q
      omega
    rcases hhead with hhd | ⟨hqne, hkne, hheq⟩
    · rw [hhd] at hlt
      simp at hlt
    have hb : b = false := by
      cases b with
      | false => rfl
      | true => exact absurd (hroot rfl) hkne
    subst hb
    have hcq : n.key.take (matchCount n.key q) = q := by
      rw [matchCount_take_eq n.key q, h2', List.take_length]
    have hmc1 : ¬ matchCount (n.key.take (matchCount n.key q)) q
        < (n.key.take (matchCount n.key q)).length := by
      rw [hcq, matchCount_self]
      omega
    have hmc2 : matchCount (n.key.take (matchCount n.key q)) q = q.length := by
      rw [hcq, matchCount_self]
    rw [insert_promote h1' h2']
    have hrem : (mk (n.key.take (matchCount n.key q)) (some (k, v))
        (setSlot emptyChildren (nib (n.key.drop (matchCount n.key q)) 0)
          (some (mk (n.key.drop (matchCount n.key q)) n.key_value n.children
            n.child_count))) 1).removeRec k q
        = (mk (n.key.take (matchCount n.key q)) none
            (setSlot emptyChildren (nib (n.key.drop (matchCount n.key q)) 0)
              (some (mk (n.key.drop (matchCount n.key q)) n.key_value n.children
                n.child_count))) 1, some v) := by
      rw [removeRec_term
        (n := mk (n.key.take (matchCount n.key q)) (some (k, v))
          (setSlot emptyChildren (nib (n.key.drop (matchCount n.key q)) 0)
            (some (mk (n.key.drop (matchCount n.key q)) n.key_value n.children
              n.child_count))) 1)
        hmc1 hmc2]
      show (if k = k then _ else _) = _
      rw [if_pos rfl]
      simp only [key_mk, children_mk, child_count_mk]
    rw [hrem]
    refine ⟨rfl, ?_, ?_⟩
    · intro _
      rw [compact]
      rw [if_neg (by simp)]
      show (match nonEmptyChildren (setSlot emptyChildren
          (nib (n.key.drop (matchCount n.key q)) 0)
          (some (mk (n.key.drop (matchCount n.key q)) n.key_value n.children
            n.child_count))) with
        | [] => (none : Option (TrieNode K V))
        | [c] => some (mk (n.key.take (matchCount n.key q) ++ c.key) c.key_value
            c.children c.child_count)
        | _ => some (mk (n.key.take (matchCount n.key q)) none
            (setSlot emptyChildren (nib (n.key.drop (matchCount n.key q)) 0)
              (some (mk (n.key.drop (matchCount n.key q)) n.key_value n.children
                n.child_count))) 1)) = some n
      rw [nonEmpty_setSlot_empty]
      simp only [key_mk, key_value_mk, children_mk, child_count_mk]
      rw [List.take_append_drop, mk_eta]
    · intro hb
      cases hb
  | case5 n k v q m h1 h2 =>
    intro b p hwf henc hhead hroot hempty
    have h1' : matchCount n.key q ≠ n.key.length := h1
    have h2' : matchCount n.key q ≠ q.length := h2
    have hlt : matchCount n.key q < n.key.length := by
      have := matchCount_le_left n.key q
      omega
    have hqlt : matchCount n.key q < q.length := by
      have := matchCount_le_right n.key q
      omega
    rcases hhead with hhd | ⟨hqne, hkne, hheq⟩
    · rw [hhd] at hlt
      simp at hlt
    have hb : b = false := by
      cases b with
      | false => rfl
      | true => exact absurd (hroot rfl) hkne
    subst hb
    have hii : nib (n.key.drop (matchCount n.key q)) 0
        ≠ nib (q.drop (matchCount n.key q)) 0 := by
      rw [nib_drop, nib_drop]
      exact nib_ne_of_getD_ne (matchCount_getD_ne hlt hqlt)
    have hklen : (n.key.take (matchCount n.key q)).length = matchCount n.key q := by
      rw [List.length_take]
      omega
    have htake : matchCount (n.key.take (matchCount n.key q)) q = matchCount n.key q := by
      rw [matchCount_take_eq n.key q, matchCount_comm]
      exact matchCount_take_self (by omega)
    have hmc1 : ¬ matchCount (n.key.take (matchCount n.key q)) q
        < (n.key.take (matchCount n.key q)).length := by
      rw [htake, hklen]
      omega
    have hmc2 : matchCount (n.key.take (matchCount n.key q)) q ≠ q.length := by
      rw [htake]
      omega
    rw [insert_branch h1' h2']
    have hdropX : q.drop (matchCount (n.key.take (matchCount n.key q)) q)
        = q.drop (matchCount n.key q) := by
      rw [htake]
    have hrem : (mk (n.key.take (matchCount n.key q)) none
        (setSlot
          (setSlot emptyChildren (nib (n.key.drop (matchCount n.key q)) 0)
            (some (mk (n.key.drop (matchCount n.key q)) n.key_value n.children
              n.child_count)))
          (nib (q.drop (matchCount n.key q)) 0)
          (some (leaf (q.drop (matchCount n.key q)) k v))) 2).removeRec k q
        = (mk (n.key.take (matchCount n.key q)) none
            (setSlot emptyChildren (nib (n.key.drop (matchCount n.key q)) 0)
              (some (mk (n.key.drop (matchCount n.key q)) n.key_value n.children
                n.child_count))) 1, some v) := by
      rw [removeRec_descend_vacate
        (n := mk (n.key.take (matchCount n.key q)) none
          (setSlot
            (setSlot emptyChildren (nib (n.key.drop (matchCount n.key q)) 0)
              (some (mk (n.key.drop (matchCount n.key q)) n.key_value n.children
                n.child_count)))
            (nib (q.drop (matchCount n.key q)) 0)
            (some (leaf (q.drop (matchCount n.key q)) k v))) 2)
        hmc1 hmc2
        (show getSlot (setSlot
            (setSlot emptyChildren (nib (n.key.drop (matchCount n.key q)) 0)
              (some (mk (n.key.drop (matchCount n.key q)) n.key_value n.children
                n.child_count)))
            (nib (q.drop (matchCount n.key q)) 0)
            (some (leaf (q.drop (matchCount n.key q)) k v)))
          (nib (q.drop (matchCount (n.key.take (matchCount n.key q)) q)) 0)
          = some (leaf (q.drop (matchCount n.key q)) k v) by
          rw [hdropX]
          exact getSlot_setSlot_self _ _ _)
        (show ((leaf (q.drop (matchCount n.key q)) k v).removeRec k
            (q.drop (matchCount (n.key.take (matchCount n.key q)) q))).2 = some v by
          rw [hdropX, removeRec_leaf])
        (show compact ((leaf (q.drop (matchCount n.key q)) k v).removeRec k
            (q.drop (matchCount (n.key.take (matchCount n.key q)) q))).1 = none by
          rw [hdropX, removeRec_leaf]
          exact compact_cleared_leaf _)]
      simp only [key_mk, key_value_mk, children_mk, child_count_mk]
      rw [hdropX, setSlot_setSlot_same]
      have hgs : getSlot (setSlot emptyChildren (nib (n.key.drop (matchCount n.key q)) 0)
          (some (mk (n.key.drop (matchCount n.key q)) n.key_value n.children
            n.child_count)))
          (nib (q.drop (matchCount n.key q)) 0) = none := by
        rw [getSlot_setSlot_ne _ hii, getSlot_emptyChildren]
      rw [setSlot_eq_self (by
          rw [setSlot_length _ (by rw [emptyChildren_length]; exact nib_lt _ 0),
            emptyChildren_length]
          exact nib_lt _ 0) hgs]
    rw [hrem]
    refine ⟨rfl, ?_, ?_⟩
    · intro _
      rw [compact]
      rw [if_neg (by simp)]
      show (match nonEmptyChildren (setSlot emptyChildren
          (nib (n.key.drop (matchCount n.key q)) 0)
          (some (mk (n.key.drop (matchCount n.key q)) n.key_value n.children
            n.child_count))) with
        | [] => (none : Option (TrieNode K V))
        | [c] => some (mk (n.key.take (matchCount n.key q) ++ c.key) c.key_value
            c.children c.child_count)
        | _ => some (mk (n.key.take (matchCount n.key q)) none
            (setSlot emptyChildren (nib (n.key.drop (matchCount n.key q)) 0)
              (some (mk (n.key.drop (matchCount n.key q)) n.key_value n.children
                n.child_count))) 1)) = some n
      rw [nonEmpty_setSlot_empty]
      simp only [key_mk, key_value_mk, children_mk, child_count_mk]
      rw [List.take_append_drop, mk_eta]
    · intro hb
      cases hb

end TrieNode


/-- C6 (amended): for a well-formed trie whose encoded position for `k` is
empty — no entry under any typed key sharing `encode k` — inserting `k` and
then removing it returns the inserted value and restores the trie exactly,
length and node structure included. -/
theorem claim_C6 {K V : Type _} [TrieKey K] [DecidableEq K] (t : Trie K V)
    (hwf : TrieWF t) (k : K) (v : V)
    (hempty : TrieNode.valueAt t.node (encode k) = none) :
    ((t.insert k v).1.remove k).2 = some v ∧ ((t.insert k v).1.remove k).1 = t := by
  obtain ⟨hkey, hnwf, hcnt⟩ := hwf
  obtain ⟨h2, -, h1⟩ := TrieNode.insert_remove_restore t.node k v (encode k) true []
    hnwf (by simp) (Or.inl hkey) (fun _ => hkey) hempty
  have hres := h1 rfl
  have hins2 : (t.node.insert k v (encode k)).2 = none := by
    rw [TrieNode.insert_snd, hempty]
    rfl
  have hlen1 : (t.insert k v).1.length = t.length + 1 := by
    show (if (t.node.insert k v (encode k)).2.isNone then t.length + 1 else t.length) = _
    rw [hins2]
    rfl
  refine ⟨h2, ?_⟩
  show (⟨if ((t.node.insert k v (encode k)).1.removeRec k (encode k)).2.isSome
      then (t.insert k v).1.length - 1 else (t.insert k v).1.length,
      ((t.node.insert k v (encode k)).1.removeRec k (encode k)).1⟩ : Trie K V) = t
  rw [h2, hres, hlen1]
  simp only [Option.isSome_some, if_true, Nat.add_sub_cancel]

/-- C6, refuting the original wording: the trie does not contain the key
with tag 1 (`get` yields `none`), yet insert-then-remove of that key does
not restore the original trie — the colliding entry of tag 0 is destroyed
and even the length differs. -/
theorem claim_C6_cx :
    ((Trie.new : Trie TKey Nat).insert ⟨0, [1]⟩ 10).1.get ⟨1, [1]⟩ = none
    ∧ ((((Trie.new : Trie TKey Nat).insert ⟨0, [1]⟩ 10).1.insert
        ⟨1, [1]⟩ 20).1.remove ⟨1, [1]⟩).2 = some 20
    ∧ ((((Trie.new : Trie TKey Nat).insert ⟨0, [1]⟩ 10).1.insert
        ⟨1, [1]⟩ 20).1.remove ⟨1, [1]⟩).1
      ≠ ((Trie.new : Trie TKey Nat).insert ⟨0, [1]⟩ 10).1 := by
  have hv1 : TrieNode.valueAt ((Trie.new : Trie TKey Nat).insert ⟨0, [1]⟩ 10).1.node [1]
      = some (⟨0, [1]⟩, 10) := by
    show TrieNode.valueAt ((Trie.new : Trie TKey Nat).node.insert ⟨0, [1]⟩ 10 [1]).1 [1] = _
    rw [TrieNode.insert_valueAt, if_pos rfl]
  have hv2 : TrieNode.valueAt (((Trie.new : Trie TKey Nat).insert ⟨0, [1]⟩ 10).1.insert
      ⟨1, [1]⟩ 20).1.node [1] = some (⟨1, [1]⟩, 20) := by
    show TrieNode.valueAt (((Trie.new : Trie TKey Nat).insert ⟨0, [1]⟩ 10).1.node.insert
      ⟨1, [1]⟩ 20 [1]).1 [1] = _
    rw [TrieNode.insert_valueAt, if_pos rfl]
  have hrem2 : ((((Trie.new : Trie TKey Nat).insert ⟨0, [1]⟩ 10).1.insert
      ⟨1, [1]⟩ 20).1.node.removeRec ⟨1, [1]⟩ [1]).2 = some 20 := by
    rw [TrieNode.removeRec_snd, hv2]
    decide
  have t1len : ((Trie.new : Trie TKey Nat).insert ⟨0, [1]⟩ 10).1.length = 1 := by
    show (if ((Trie.new : Trie TKey Nat).node.insert ⟨0, [1]⟩ 10 [1]).2.isNone
      then 0 + 1 else 0) = 1
    rw [TrieNode.insert_snd,
      show (Trie.new : Trie TKey Nat).node = (TrieNode.new : TrieNode TKey Nat) from rfl,
      TrieNode.valueAt_new]
    rfl
  have t2len : (((Trie.new : Trie TKey Nat).insert ⟨0, [1]⟩ 10).1.insert
      ⟨1, [1]⟩ 20).1.length = 1 := by
    show (if (((Trie.new : Trie TKey Nat).insert ⟨0, [1]⟩ 10).1.node.insert
        ⟨1, [1]⟩ 20 [1]).2.isNone
      then ((Trie.new : Trie TKey Nat).insert ⟨0, [1]⟩ 10).1.length + 1
      else ((Trie.new : Trie TKey Nat).insert ⟨0, [1]⟩ 10).1.length) = 1
    rw [TrieNode.insert_snd, hv1, t1len]
    rfl
  have rlen : ((((Trie.new : Trie TKey Nat).insert ⟨0, [1]⟩ 10).1.insert
      ⟨1, [1]⟩ 20).1.remove ⟨1, [1]⟩).1.length = 0 := by
    show (if ((((Trie.new : Trie TKey Nat).insert ⟨0, [1]⟩ 10).1.insert
        ⟨1, [1]⟩ 20).1.node.removeRec ⟨1, [1]⟩ [1]).2.isSome
      then (((Trie.new : Trie TKey Nat).insert ⟨0, [1]⟩ 10).1.insert
        ⟨1, [1]⟩ 20).1.length - 1
      else (((Trie.new : Trie TKey Nat).insert ⟨0, [1]⟩ 10).1.insert
        ⟨1, [1]⟩ 20).1.length) = 0
    rw [hrem2, t2len]
    rfl
  refine ⟨?_, hrem2, ?_⟩
  · rw [Trie.get_eq, show encode (⟨1, [1]⟩ : TKey) = [1] from rfl, hv1]
    decide
  · intro h
    have hl := congrArg Trie.length h
    rw [rlen, t1len] at hl
    cases hl

/-- C6 at a concrete input: inserting and removing a fresh key with a fresh
encoding on a one-entry trie returns the value and restores the trie. -/
theorem claim_C6_witness :
    ((((Trie.new : Trie TKey Nat).insert ⟨0, [1]⟩ 10).1.insert
        ⟨5, [2]⟩ 7).1.remove ⟨5, [2]⟩).2 = some 7
    ∧ ((((Trie.new : Trie TKey Nat).insert ⟨0, [1]⟩ 10).1.insert
        ⟨5, [2]⟩ 7).1.remove ⟨5, [2]⟩).1
      = ((Trie.new : Trie TKey Nat).insert ⟨0, [1]⟩ 10).1 := by
  have hempty : TrieNode.valueAt
      ((Trie.new : Trie TKey Nat).insert ⟨0, [1]⟩ 10).1.node
      (encode (⟨5, [2]⟩ : TKey)) = none := by
    show TrieNode.valueAt ((Trie.new : Trie TKey Nat).node.insert ⟨0, [1]⟩ 10 [1]).1 [2] = _
    rw [TrieNode.insert_valueAt, if_neg (by decide),
      show (Trie.new : Trie TKey Nat).node = (TrieNode.new : TrieNode TKey Nat) from rfl,
      TrieNode.valueAt_new]
  exact claim_C6 ((Trie.new : Trie TKey Nat).insert ⟨0, [1]⟩ 10).1
    (TrieWF_insert TrieWF_new ⟨0, [1]⟩ 10) ⟨5, [2]⟩ 7 hempty


namespace TrieNode

variable {K V : Type _} [TrieKey K]

omit [TrieKey K] in
/-- A stored entry forces a non-empty query sharing the node's first
nibble. -/
theorem nib_zero_of_valueAt_some {c : TrieNode K V} {r : NibbleVec} {p : K × V}
    (h : valueAt c r = some p) (hk : c.key ≠ []) : r ≠ [] ∧ nib r 0 = nib c.key 0 := by
  by_cases h1 : matchCount c.key r < c.key.length
  · rw [valueAt_mismatch h1] at h
    cases h
  · have hkl : 1 ≤ c.key.length := by
      cases hc : c.key with
      | nil => exact absurd hc hk
      | cons a t => simp
    have hm1 : 1 ≤ matchCount c.key r := by omega
    have hr1 : 1 ≤ r.length := by
      have := matchCount_le_right c.key r
      omega
    constructor
    · intro hx
      rw [hx] at hr1
      simp at hr1
    · have htk := matchCount_take_eq c.key r
      have e1 : nib (c.key.take (matchCount c.key r)) 0 = nib c.key 0 := nib_take hm1
      have e2 : nib (r.take (matchCount c.key r)) 0 = nib r 0 := nib_take hm1
      rw [htk] at e1
      rw [← e1, e2]

/-- Non-empty children listed in slot order have strictly increasing first
nibbles. -/
theorem pairwise_nonEmpty_head :
    ∀ (cs : List (Option (TrieNode K V))) (j : Nat), slotsMatch j cs = true →
      List.Pairwise (fun c d : TrieNode K V => nib c.key 0 < nib d.key 0)
        (nonEmptyChildren cs) := by
  intro cs
  induction cs with
  | nil =>
    intro j _
    exact List.Pairwise.nil
  | cons a t ih =>
    intro j hsl
    cases a with
    | none =>
      rw [nonEmptyChildren_cons_none]
      exact ih (j + 1) hsl
    | some c =>
      have hand : (match c.key.head? with
          | some x => x.val == j
          | none => false) = true ∧ slotsMatch (j + 1) t = true := by
        have : ((match c.key.head? with
            | some x => x.val == j
            | none => false) && slotsMatch (j + 1) t) = true := hsl
        exact Bool.and_eq_true _ _ ▸ this
      have hc0 : nib c.key 0 = j + 0 :=
        (slotsMatch_getSlot (j := j) hsl (show getSlot (some c :: t) 0 = some c from rfl)).2
      rw [nonEmptyChildren_cons_some]
      refine List.Pairwise.cons ?_ (ih (j + 1) hand.2)
      intro d hd
      obtain ⟨i, hi⟩ := nonEmpty_mem_getSlot hd
      have hdj := (slotsMatch_getSlot hand.2 hi).2
      omega

/-- Every entry of the pre-order listing of a well-formed subtree is found
by `valueAt` along a path extending the subtree's own path. -/
theorem toList_valueAt (n : TrieNode K V) : ∀ (b : Bool) (p : NibbleVec),
    nodeWF n b p = true →
    ∀ k v, (k, v) ∈ toList n → ∃ r, encode k = p ++ r ∧ valueAt n r = some (k, v) := by
  induction n using toList.induct with
  | case1 n x ih =>
    intro b p hwf k v hmem
    obtain ⟨hl, hcc, hkey, hkv, h3, hsl, hch⟩ := (nodeWF_iff n b p).1 hwf
    rw [toList_eq] at hmem
    rcases List.mem_append.1 hmem with hm | hm
    · cases hkv2 : n.key_value with
      | none =>
        rw [hkv2] at hm
        cases hm
      | some pr =>
        rw [hkv2] at hm
        simp only [List.mem_singleton] at hm
        refine ⟨n.key, ?_, ?_⟩
        · exact hkv k v (by rw [hkv2, ← hm])
        · rw [valueAt_term (by rw [matchCount_self]; omega) (matchCount_self n.key),
            hkv2, hm]
    · rw [List.mem_flatten] at hm
      obtain ⟨l, hl2, hkl⟩ := hm
      rw [List.mem_map] at hl2
      obtain ⟨c, hcmem, rfl⟩ := hl2
      have hcwf := hch c hcmem
      obtain ⟨j, hj⟩ := nonEmpty_mem_getSlot hcmem
      have hslc := slotsMatch_getSlot hsl hj
      obtain ⟨r', henc', hval'⟩ := ih ⟨c, hcmem⟩ false (p ++ n.key) hcwf k v hkl
      obtain ⟨hr'ne, hr'head⟩ := nib_zero_of_valueAt_some hval' hslc.1
      refine ⟨n.key ++ r', by rw [henc', List.append_assoc], ?_⟩
      have hx := valueAt_append_key n.key [] r' n.key_value n.children n.child_count
      rw [List.append_nil, mk_eta] at hx
      rw [hx]
      have hnj : nib r' (matchCount ([] : NibbleVec) r') = j := by
        rw [show matchCount ([] : NibbleVec) r' = 0 from rfl, hr'head, hslc.2]
        omega
      rw [valueAt_descend (n := mk ([] : NibbleVec) n.key_value n.children n.child_count)
        (by simp) (by
          show ¬ matchCount ([] : NibbleVec) r' = r'.length
          rw [show matchCount ([] : NibbleVec) r' = 0 from rfl]
          intro hx2
          exact hr'ne (List.length_eq_zero.1 hx2.symm))]
      simp only [key_mk, children_mk]
      rw [hnj, hj]
      rw [show matchCount ([] : NibbleVec) r' = 0 from rfl, List.drop_zero]
      exact hval'

/-- Conversely, every entry `valueAt` finds is listed. -/
theorem valueAt_toList (n : TrieNode K V) :
    ∀ r k v, valueAt n r = some (k, v) → (k, v) ∈ toList n := by
  induction n using toList.induct with
  | case1 n x ih =>
    intro r k v hval
    by_cases h1 : matchCount n.key r < n.key.length
    · rw [valueAt_mismatch h1] at hval
      cases hval
    · by_cases h2 : matchCount n.key r = r.length
      · rw [valueAt_term h1 h2] at hval
        rw [toList_eq, hval]
        simp
      · rw [valueAt_descend h1 h2] at hval
        cases hslot : getSlot n.children (nib r (matchCount n.key r)) with
        | none =>
          rw [hslot] at hval
          cases hval
        | some c =>
          rw [hslot] at hval
          have hcm := mem_nonEmpty_of_getSlot hslot
          have hrec := ih ⟨c, hcm⟩ _ k v hval
          rw [toList_eq]
          apply List.mem_append_right
          rw [List.mem_flatten]
          exact ⟨toList c, List.mem_map.2 ⟨c, hcm, rfl⟩, hrec⟩

/-- In a well-formed subtree the listed keys are pairwise distinct: each
stored key determines its node's path. -/
theorem toList_nodup (n : TrieNode K V) : ∀ (b : Bool) (p : NibbleVec),
    nodeWF n b p = true → ((toList n).map Prod.fst).Nodup := by
  induction n using toList.induct with
  | case1 n x ih =>
    intro b p hwf
    obtain ⟨hl, hcc, hkey, hkv, h3, hsl, hch⟩ := (nodeWF_iff n b p).1 hwf
    have hfact : ∀ c ∈ nonEmptyChildren n.children, ∀ k, k ∈ (toList c).map Prod.fst →
        ∃ r, encode k = (p ++ n.key) ++ r ∧ r ≠ [] ∧ nib r 0 = nib c.key 0 := by
      intro c hc k hk
      obtain ⟨v, hv⟩ : ∃ v, (k, v) ∈ toList c := by
        rw [List.mem_map] at hk
        obtain ⟨kv, hkv2, he⟩ := hk
        exact ⟨kv.2, by rw [← he]; exact hkv2⟩
      obtain ⟨r, hr1, hr2⟩ := toList_valueAt c false (p ++ n.key) (hch c hc) k v hv
      have hkne : c.key ≠ [] := by
        obtain ⟨j, hj⟩ := nonEmpty_mem_getSlot hc
        exact (slotsMatch_getSlot hsl hj).1
      obtain ⟨ha, hb⟩ := nib_zero_of_valueAt_some hr2 hkne
      exact ⟨r, hr1, ha, hb⟩
    rw [toList_eq, List.map_append]
    apply List.Nodup.append
    · cases n.key_value with
      | none => exact List.nodup_nil
      | some pr => simp
    · rw [List.map_flatten, List.map_map, List.nodup_flatten]
      constructor
      · intro l hl2
        rw [List.mem_map] at hl2
        obtain ⟨c, hcm, rfl⟩ := hl2
        exact ih ⟨c, hcm⟩ false (p ++ n.key) (hch c hcm)
      · rw [List.pairwise_map]
        apply List.Pairwise.imp_of_mem ?_ (pairwise_nonEmpty_head n.children 0 hsl)
        intro c d hcm hdm hlt k hk1 hk2
        simp only [Function.comp] at hk1 hk2
        obtain ⟨r1, he1, hr1ne, hh1⟩ := hfact c hcm k hk1
        obtain ⟨r2, he2, hr2ne, hh2⟩ := hfact d hdm k hk2
        have : r1 = r2 := by
          have := he1.symm.trans he2
          exact List.append_cancel_left this
        rw [← this, hh1] at hh2
        omega
    · intro k hk1 hk2
      cases hkv2 : n.key_value with
      | none =>
        rw [hkv2] at hk1
        cases hk1
      | some pr =>
        rw [hkv2] at hk1
        simp only [List.map_cons, List.map_nil, List.mem_singleton] at hk1
        subst hk1
        have henc0 : encode pr.1 = p ++ n.key := hkv pr.1 pr.2 (by rw [hkv2])
        rw [List.map_flatten, List.map_map, List.mem_flatten] at hk2
        obtain ⟨l, hl2, hkl⟩ := hk2
        rw [List.mem_map] at hl2
        obtain ⟨c, hcm, rfl⟩ := hl2
        simp only [Function.comp] at hkl
        obtain ⟨r, hr1, hrne, -⟩ := hfact c hcm pr.1 hkl
        rw [henc0] at hr1
        have hlen := congrArg List.length hr1
        simp only [List.length_append] at hlen
        cases hr : r with
        | nil => exact hrne hr
        | cons a t =>
          rw [hr] at hlen
          simp at hlen

end TrieNode


/-- C7 (amended): for a well-formed trie the entry iterator yields exactly
the stored `key_value` pairs (the pre-order listing), each exactly once;
`keys()` and `values()` are its projections; a pair is yielded iff `get`
finds it; and the yielded keys are pairwise distinct.  "Inserted and not
removed" fails in general: a colliding insert evicts a key that was never
removed. -/
theorem claim_C7 {K V : Type _} [TrieKey K] [DecidableEq K] (t : Trie K V)
    (hwf : TrieWF t) :
    iterAll (Iter.new t.node) = TrieNode.toList t.node
    ∧ t.keys = (TrieNode.toList t.node).map Prod.fst
    ∧ t.values = (TrieNode.toList t.node).map Prod.snd
    ∧ (∀ k v, (k, v) ∈ TrieNode.toList t.node ↔ t.get k = some v)
    ∧ t.keys.Nodup := by
  obtain ⟨hkey, hnwf, hcnt⟩ := hwf
  have hall := iterAll_new t.node
  refine ⟨hall, ?_, ?_, ?_, ?_⟩
  · show (iterAll (Iter.new t.node)).map Prod.fst = _
    rw [hall]
  · show (iterAll (Iter.new t.node)).map Prod.snd = _
    rw [hall]
  · intro k v
    constructor
    · intro hmem
      obtain ⟨r, hr1, hr2⟩ := TrieNode.toList_valueAt t.node true [] hnwf k v hmem
      simp only [List.nil_append] at hr1
      rw [Trie.get_eq, hr1, hr2]
      simp
    · intro hg
      rw [Trie.get_eq] at hg
      cases hv : TrieNode.valueAt t.node (encode k) with
      | none =>
        rw [hv] at hg
        cases hg
      | some p =>
        rw [hv] at hg
        cases p with
        | mk k0 w =>
          simp only [Option.some_bind] at hg
          by_cases hk : k0 = k
          · subst hk
            rw [if_pos rfl] at hg
            simp only [Option.some.injEq] at hg
            subst hg
            exact TrieNode.valueAt_toList t.node (encode k0) k0 w hv
          · rw [if_neg hk] at hg
            cases hg
  · show ((iterAll (Iter.new t.node)).map Prod.fst).Nodup
    rw [hall]
    exact TrieNode.toList_nodup t.node true [] hnwf

/-- C7 at a concrete input: the one-entry trie's iterator data, checked
through the claim. -/
theorem claim_C7_witness :
    iterAll (Iter.new ((Trie.new : Trie TKey Nat).insert ⟨0, [1]⟩ 10).1.node)
      = TrieNode.toList ((Trie.new : Trie TKey Nat).insert ⟨0, [1]⟩ 10).1.node
    ∧ ((Trie.new : Trie TKey Nat).insert ⟨0, [1]⟩ 10).1.keys
      = (TrieNode.toList ((Trie.new : Trie TKey Nat).insert ⟨0, [1]⟩ 10).1.node).map
          Prod.fst
    ∧ ((Trie.new : Trie TKey Nat).insert ⟨0, [1]⟩ 10).1.values
      = (TrieNode.toList ((Trie.new : Trie TKey Nat).insert ⟨0, [1]⟩ 10).1.node).map
          Prod.snd
    ∧ (∀ k v, (k, v) ∈ TrieNode.toList ((Trie.new : Trie TKey Nat).insert ⟨0, [1]⟩ 10).1.node
        ↔ ((Trie.new : Trie TKey Nat).insert ⟨0, [1]⟩ 10).1.get k = some v)
    ∧ ((Trie.new : Trie TKey Nat).insert ⟨0, [1]⟩ 10).1.keys.Nodup :=
  claim_C7 ((Trie.new : Trie TKey Nat).insert ⟨0, [1]⟩ 10).1
    (TrieWF_insert TrieWF_new ⟨0, [1]⟩ 10)

/-- C7, refuting the original wording: the key with tag 0 was inserted and
never removed, yet the keys iterator does not enumerate it — the colliding
insert of tag 1 evicted it; tag 1 is enumerated. -/
theorem claim_C7_cx :
    (⟨0, [1]⟩ : TKey) ∉ (((Trie.new : Trie TKey Nat).insert ⟨0, [1]⟩ 10).1.insert
      ⟨1, [1]⟩ 20).1.keys
    ∧ (⟨1, [1]⟩ : TKey) ∈ (((Trie.new : Trie TKey Nat).insert ⟨0, [1]⟩ 10).1.insert
      ⟨1, [1]⟩ 20).1.keys := by
  have hv2 : TrieNode.valueAt (((Trie.new : Trie TKey Nat).insert ⟨0, [1]⟩ 10).1.insert
      ⟨1, [1]⟩ 20).1.node [1] = some (⟨1, [1]⟩, 20) := by
    show TrieNode.valueAt (((Trie.new : Trie TKey Nat).insert ⟨0, [1]⟩ 10).1.node.insert
      ⟨1, [1]⟩ 20 [1]).1 [1] = _
    rw [TrieNode.insert_valueAt, if_pos rfl]
  obtain ⟨-, hnwf2, -⟩ :=
    TrieWF_insert (TrieWF_insert (TrieWF_new (K := TKey) (V := Nat)) ⟨0, [1]⟩ 10)
      ⟨1, [1]⟩ 20
  constructor
  · intro hmem
    rw [Trie.keys, iterAll_new, List.mem_map] at hmem
    obtain ⟨kv, hkvmem, hfst⟩ := hmem
    obtain ⟨r, hr1, hr2⟩ := TrieNode.toList_valueAt _ true [] hnwf2 kv.1 kv.2
      (show (kv.1, kv.2) ∈ _ from hkvmem)
    simp only [List.nil_append] at hr1
    rw [hfst] at hr1
    rw [show encode (⟨0, [1]⟩ : TKey) = [1] from rfl] at hr1
    rw [hfst, ← hr1, hv2] at hr2
    simp only [Option.some.injEq, Prod.mk.injEq] at hr2
    exact absurd hr2.1 (by decide)
  · rw [Trie.keys, iterAll_new]
    exact List.mem_map.2 ⟨(⟨1, [1]⟩, 20),
      TrieNode.valueAt_toList _ [1] ⟨1, [1]⟩ 20 hv2, rfl⟩


theorem matchCount_take (x : NibbleVec) :
    ∀ (q : NibbleVec) (j : Nat), matchCount x (q.take j) = min (matchCount x q) j := by
  induction x with
  | nil =>
    intro q j
    simp [matchCount]
  | cons a t ihx =>
    intro q j
    cases q with
    | nil =>
      simp [matchCount]
    | cons b u =>
      cases j with
      | zero =>
        simp [matchCount]
      | succ j =>
        rw [List.take_succ_cons]
        show (if a = b then matchCount t (u.take j) + 1 else 0)
          = min (if a = b then matchCount t u + 1 else 0) (j + 1)
        by_cases hab : a = b
        · rw [if_pos hab, if_pos hab, ihx u j]
          omega
        · rw [if_neg hab, if_neg hab]
          simp

theorem prefix_drop {r q : NibbleVec} (h : r <+: q) (m : Nat) (hm : m ≤ r.length) :
    r.drop m <+: q.drop m := by
  obtain ⟨s, hs⟩ := h
  exact ⟨s, by rw [← hs, List.drop_append_of_le_length hm]⟩

namespace TrieNode

variable {K V : Type _}

theorem nib_take_lt {q : NibbleVec} {j i : Nat} (h : i < j) :
    nib (q.take j) i = nib q i := by
  simp only [nib, List.getD_eq_getElem?_getD]
  rw [List.getElem?_take_of_lt h]

theorem get_ancestor_mismatch {n : TrieNode K V} {q : NibbleVec}
    (h : matchCount n.key q < n.key.length) : get_ancestor n q = none := by
  rw [get_ancestor]
  rw [if_pos h]

theorem get_ancestor_term {n : TrieNode K V} {q : NibbleVec}
    (h1 : ¬ matchCount n.key q < n.key.length) (h2 : matchCount n.key q = q.length) :
    get_ancestor n q = if n.key_value.isSome then some n else none := by
  rw [get_ancestor]
  simp only [if_neg h1, dif_pos h2]

theorem get_ancestor_slot_none {n : TrieNode K V} {q : NibbleVec}
    (h1 : ¬ matchCount n.key q < n.key.length) (h2 : matchCount n.key q ≠ q.length)
    (hc : getSlot n.children (nib q (matchCount n.key q)) = none) :
    get_ancestor n q = if n.key_value.isSome then some n else none := by
  rw [get_ancestor]
  simp only [if_neg h1, dif_neg h2]
  have hdeep : (match h : getSlot n.children (nib q (matchCount n.key q)) with
      | none => (none : Option (TrieNode K V))
      | some c => get_ancestor c (q.drop (matchCount n.key q))) = none := by
    split
    · rfl
    · rename_i c2 hc2
      rw [hc] at hc2
      cases hc2
  rw [hdeep]

theorem get_ancestor_descend {n c : TrieNode K V} {q : NibbleVec}
    (h1 : ¬ matchCount n.key q < n.key.length) (h2 : matchCount n.key q ≠ q.length)
    (hc : getSlot n.children (nib q (matchCount n.key q)) = some c) :
    get_ancestor n q
      = match get_ancestor c (q.drop (matchCount n.key q)) with
        | some d => some d
        | none => if n.key_value.isSome then some n else none := by
  rw [get_ancestor]
  simp only [if_neg h1, dif_neg h2]
  have hdeep : (match h : getSlot n.children (nib q (matchCount n.key q)) with
      | none => (none : Option (TrieNode K V))
      | some c => get_ancestor c (q.drop (matchCount n.key q)))
      = get_ancestor c (q.drop (matchCount n.key q)) := by
    split
    · rename_i hc2
      rw [hc] at hc2
      cases hc2
    · rename_i c2 hc2
      rw [hc] at hc2
      cases hc2
      rfl
  rw [hdeep]
  rfl

theorem valueAt_pre_short {n : TrieNode K V} {q r : NibbleVec}
    (h1 : matchCount n.key q = n.key.length) (hpre : r <+: q)
    (hlen : r.length < n.key.length) : valueAt n r = none := by
  have hr : r = q.take r.length := List.prefix_iff_eq_take.1 hpre
  apply valueAt_mismatch
  rw [hr, matchCount_take, h1]
  omega

theorem valueAt_pre_eq {n : TrieNode K V} {q r : NibbleVec}
    (h1 : matchCount n.key q = n.key.length) (hpre : r <+: q)
    (hlen : r.length = n.key.length) : r = n.key ∧ valueAt n r = n.key_value := by
  have hr : r = q.take r.length := List.prefix_iff_eq_take.1 hpre
  have hkq : n.key = q.take n.key.length := by
    have := matchCount_take_eq n.key q
    rw [h1, List.take_length] at this
    exact this
  have hrk : r = n.key := by
    rw [hr, hlen, ← hkq]
  refine ⟨hrk, ?_⟩
  rw [hrk]
  exact valueAt_term (by rw [matchCount_self]; omega) (matchCount_self n.key)

theorem valueAt_pre_long {n : TrieNode K V} {q r : NibbleVec}
    (h1 : matchCount n.key q = n.key.length) (hpre : r <+: q)
    (hlen : n.key.length < r.length) :
    valueAt n r
      = match getSlot n.children (nib q n.key.length) with
        | none => none
        | some c => valueAt c (r.drop n.key.length) := by
  have hr : r = q.take r.length := List.prefix_iff_eq_take.1 hpre
  have hmc : matchCount n.key r = n.key.length := by
    rw [hr, matchCount_take, h1]
    omega
  have hnib : nib r n.key.length = nib q n.key.length := by
    rw [hr]
    exact nib_take_lt hlen
  rw [valueAt_descend (by omega) (by omega), hmc, hnib]

end TrieNode


namespace TrieNode

variable {K V : Type _} [TrieKey K]

/-- Strong-induction workhorse for `get_ancestor`: on a well-formed subtree, a
returned node carries a value found by `valueAt` at a prefix of the query, and
that prefix is the longest value-bearing one; a `none` answer means no prefix
of the query holds an entry. -/
theorem get_ancestor_spec_aux :
    ∀ (N : Nat) (n : TrieNode K V), sizeOf n < N →
      ∀ (q : NibbleVec) (b : Bool) (p : NibbleVec), nodeWF n b p = true →
      (∀ d, get_ancestor n q = some d →
        d.key_value.isSome = true
        ∧ ∃ r, r <+: q ∧ valueAt n r = d.key_value
          ∧ ∀ r2, r2 <+: q → valueAt n r2 ≠ none → r2.length ≤ r.length)
      ∧ (get_ancestor n q = none → ∀ r, r <+: q → valueAt n r = none) := by
  intro N
  induction N with
  | zero =>
    intro n hn
    exact absurd hn (Nat.not_lt_zero _)
  | succ N ih =>
    intro n hn q b p hwf
    by_cases h1' : matchCount n.key q < n.key.length
    · constructor
      · intro d hd
        rw [get_ancestor_mismatch h1'] at hd
        cases hd
      · intro _ r hpre
        have hr : r = q.take r.length := List.prefix_iff_eq_take.1 hpre
        apply valueAt_mismatch
        rw [hr, matchCount_take]
        omega
    · have hkl : matchCount n.key q = n.key.length := by
        have := matchCount_le_left n.key q
        omega
      by_cases h2' : matchCount n.key q = q.length
      · have hres := get_ancestor_term h1' h2'
        cases hkv : n.key_value with
        | some pr =>
          have hres2 : get_ancestor n q = some n := by
            rw [hres, hkv]
            rfl
          constructor
          · intro d hd
            rw [hres2] at hd
            obtain rfl := Option.some.inj hd
            refine ⟨by rw [hkv]; rfl, q, List.prefix_refl q, ?_, ?_⟩
            · exact valueAt_term h1' h2'
            · intro r2 hpre2 _
              exact hpre2.length_le
          · intro hnone
            rw [hres2] at hnone
            cases hnone
        | none =>
          have hres2 : get_ancestor n q = none := by
            rw [hres, hkv]
            rfl
          refine ⟨?_, ?_⟩
          · intro d hd
            rw [hres2] at hd
            cases hd
          intro _ r hpre
          have hrlen : r.length ≤ q.length := hpre.length_le
          by_cases hcmp : r.length < n.key.length
          · exact valueAt_pre_short hkl hpre hcmp
          · have heq : r.length = n.key.length := by omega
            obtain ⟨-, hv⟩ := valueAt_pre_eq hkl hpre heq
            rw [hv, hkv]
      · cases hc' : getSlot n.children (nib q (matchCount n.key q)) with
        | none =>
          have hc2 : getSlot n.children (nib q n.key.length) = none := by
            rw [← hkl]
            exact hc'
          have hres := get_ancestor_slot_none h1' h2' hc'
          have hnone_gt : ∀ r, r <+: q → n.key.length < r.length →
              valueAt n r = none := by
            intro r hpre hlen
            rw [valueAt_pre_long hkl hpre hlen, hc2]
          cases hkv : n.key_value with
          | some pr =>
            have hres2 : get_ancestor n q = some n := by
              rw [hres, hkv]
              rfl
            constructor
            · intro d hd
              rw [hres2] at hd
              obtain rfl := Option.some.inj hd
              have hkpre : n.key <+: q := by
                rw [List.prefix_iff_eq_take]
                have := matchCount_take_eq n.key q
                rw [hkl, List.take_length] at this
                exact this
              refine ⟨by rw [hkv]; rfl, n.key, hkpre, ?_, ?_⟩
              · exact valueAt_term (by rw [matchCount_self]; omega) (matchCount_self n.key)
              · intro r2 hpre2 hne2
                by_cases hl2 : n.key.length < r2.length
                · exact absurd (hnone_gt r2 hpre2 hl2) hne2
                · omega
            · intro hnone
              rw [hres2] at hnone
              cases hnone
          | none =>
            have hres2 : get_ancestor n q = none := by
              rw [hres, hkv]
              rfl
            refine ⟨?_, ?_⟩
            · intro d hd
              rw [hres2] at hd
              cases hd
            intro _ r hpre
            by_cases hs : r.length < n.key.length
            · exact valueAt_pre_short hkl hpre hs
            · by_cases he : r.length = n.key.length
              · obtain ⟨-, hv⟩ := valueAt_pre_eq hkl hpre he
                rw [hv, hkv]
              · exact hnone_gt r hpre (by omega)
        | some c =>
          have hc2 : getSlot n.children (nib q n.key.length) = some c := by
            rw [← hkl]
            exact hc'
          obtain ⟨hl, hcc, hkey, hkvp, h3, hsl, hch⟩ := (nodeWF_iff n b p).1 hwf
          have hcwf : nodeWF c false (p ++ n.key) = true := nodeWF_child hwf hc'
          have hslc := slotsMatch_getSlot hsl hc'
          have hres := get_ancestor_descend h1' h2' hc'
          have hsz : sizeOf c < N := by
            have hs1 := sizeOf_lt_of_getSlot hc'
            have hs2 := sizeOf_children_lt n
            omega
          have ihc := ih c hsz (q.drop (matchCount n.key q)) false (p ++ n.key) hcwf
          have hgt : ∀ r, r <+: q → n.key.length < r.length →
              valueAt n r = valueAt c (r.drop n.key.length) := by
            intro r hpre hlen
            rw [valueAt_pre_long hkl hpre hlen, hc2]
          have hqlen : n.key.length < q.length := by
            have := matchCount_le_right n.key q
            omega
          have hlift : ∀ (rc : NibbleVec) (pr : K × V), valueAt c rc = some pr →
              valueAt n (n.key ++ rc) = valueAt c rc := by
            intro rc pr hval
            obtain ⟨hrne, hrhead⟩ := nib_zero_of_valueAt_some hval hslc.1
            have hx := valueAt_append_key n.key [] rc n.key_value n.children n.child_count
            rw [List.append_nil, mk_eta] at hx
            rw [hx]
            have hnj : nib rc (matchCount ([] : NibbleVec) rc) = nib q n.key.length := by
              rw [show matchCount ([] : NibbleVec) rc = 0 from rfl, hrhead, hslc.2, hkl]
              omega
            rw [valueAt_descend (n := mk ([] : NibbleVec) n.key_value n.children n.child_count)
              (by simp) (by
                show ¬ matchCount ([] : NibbleVec) rc = rc.length
                rw [show matchCount ([] : NibbleVec) rc = 0 from rfl]
                intro hx2
                exact hrne (List.length_eq_zero.1 hx2.symm))]
            simp only [key_mk, children_mk]
            rw [hnj, hc2]
            rw [show matchCount ([] : NibbleVec) rc = 0 from rfl, List.drop_zero]
          have hkq : n.key ++ q.drop n.key.length = q := key_append_drop hkl
          have hkqd : q.drop (matchCount n.key q) = q.drop n.key.length := by
            rw [hkl]
          cases hdeep : get_ancestor c (q.drop (matchCount n.key q)) with
          | some d =>
            have hres2 : get_ancestor n q = some d := by
              rw [hres, hdeep]
            obtain ⟨hdkv, rc, hrc_pre, hrc_val, hrc_max⟩ := ihc.1 d hdeep
            rw [hkqd] at hrc_pre hrc_max
            obtain ⟨pr, hpr⟩ := Option.isSome_iff_exists.1 hdkv
            have hval_c : valueAt c rc = some pr := by
              rw [hrc_val, hpr]
            constructor
            · intro d' hd'
              rw [hres2] at hd'
              obtain rfl := Option.some.inj hd'
              refine ⟨hdkv, n.key ++ rc, ?_, ?_, ?_⟩
              · obtain ⟨s, hs⟩ := hrc_pre
                exact ⟨s, by rw [List.append_assoc, hs, hkq]⟩
              · rw [hlift rc pr hval_c]
                exact hrc_val
              · intro r2 hpre2 hne2
                by_cases hl2 : n.key.length < r2.length
                · have hv2 := hgt r2 hpre2 hl2
                  rw [hv2] at hne2
                  have hdp := prefix_drop hpre2 n.key.length (by omega)
                  have hle := hrc_max (r2.drop n.key.length) hdp hne2
                  rw [List.length_drop] at hle
                  rw [List.length_append]
                  omega
                · rw [List.length_append]
                  omega
            · intro hnone
              rw [hres2] at hnone
              cases hnone
          | none =>
            have hresN : get_ancestor n q = if n.key_value.isSome then some n else none := by
              rw [hres, hdeep]
            have hnone_c := ihc.2 hdeep
            rw [hkqd] at hnone_c
            have hgt_none : ∀ r, r <+: q → n.key.length < r.length →
                valueAt n r = none := by
              intro r hpre hlen
              rw [hgt r hpre hlen]
              exact hnone_c (r.drop n.key.length) (prefix_drop hpre n.key.length (by omega))
            cases hkv : n.key_value with
            | some pr =>
              have hres2 : get_ancestor n q = some n := by
                rw [hresN, hkv]
                rfl
              constructor
              · intro d hd
                rw [hres2] at hd
                obtain rfl := Option.some.inj hd
                have hkpre : n.key <+: q := by
                  rw [List.prefix_iff_eq_take]
                  have := matchCount_take_eq n.key q
                  rw [hkl, List.take_length] at this
                  exact this
                refine ⟨by rw [hkv]; rfl, n.key, hkpre, ?_, ?_⟩
                · exact valueAt_term (by rw [matchCount_self]; omega) (matchCount_self n.key)
                · intro r2 hpre2 hne2
                  by_cases hl2 : n.key.length < r2.length
                  · exact absurd (hgt_none r2 hpre2 hl2) hne2
                  · omega
              · intro hnone
                rw [hres2] at hnone
                cases hnone
            | none =>
              have hres2 : get_ancestor n q = none := by
                rw [hresN, hkv]
                rfl
              refine ⟨?_, ?_⟩
              · intro d hd
                rw [hres2] at hd
                cases hd
              intro _ r hpre
              by_cases hs : r.length < n.key.length
              · exact valueAt_pre_short hkl hpre hs
              · by_cases he : r.length = n.key.length
                · obtain ⟨-, hv⟩ := valueAt_pre_eq hkl hpre he
                  rw [hv, hkv]
                · exact hgt_none r hpre (by omega)

/-- Specification of the ancestor walk on a well-formed subtree, stated without
the size fuel. -/
theorem get_ancestor_spec (n : TrieNode K V) (q : NibbleVec)
    (b : Bool) (p : NibbleVec) (hwf : nodeWF n b p = true) :
    (∀ d, get_ancestor n q = some d →
      d.key_value.isSome = true
      ∧ ∃ r, r <+: q ∧ valueAt n r = d.key_value
        ∧ ∀ r2, r2 <+: q → valueAt n r2 ≠ none → r2.length ≤ r.length)
    ∧ (get_ancestor n q = none → ∀ r, r <+: q → valueAt n r = none) :=
  get_ancestor_spec_aux (sizeOf n + 1) n (Nat.lt_succ_self _) q b p hwf

end TrieNode


/-- C1 (amended): whenever `get_ancestor` returns a view, that view carries a
value, the value sits at a prefix of `encode k`, and no strictly longer
prefix of `encode k` carries a value; however the view's `prefix` field is
always the full `encode k` as passed by `Trie::get_ancestor` to
`new_subtrie` — not the root-to-node path of the returned node.  When no
ancestor exists, no prefix of `encode k` carries a value. -/
theorem claim_C1 {K V : Type _} [TrieKey K] (t : Trie K V) (k : K) (h : TrieWF t) :
    (∀ st, t.get_ancestor k = some st →
      st.pfx = encode k
      ∧ st.nd.key_value.isSome = true
      ∧ ∃ r, r <+: encode k ∧ TrieNode.valueAt t.node r = st.nd.key_value
        ∧ ∀ r2, r2 <+: encode k → TrieNode.valueAt t.node r2 ≠ none →
            r2.length ≤ r.length)
    ∧ (t.get_ancestor k = none →
        ∀ r, r <+: encode k → TrieNode.valueAt t.node r = none) := by
  have hspec := TrieNode.get_ancestor_spec t.node (encode k) true [] h.2.1
  constructor
  · intro st hst
    have hst2 : (t.node.get_ancestor (encode k)).map
        (fun n => new_subtrie (encode k) n) = some st := hst
    obtain ⟨n, hn, hmap⟩ := Option.map_eq_some'.1 hst2
    cases hmap
    obtain ⟨hkv, r, hpre, hval, hmax⟩ := hspec.1 n hn
    exact ⟨rfl, hkv, r, hpre, hval, hmax⟩
  · intro hnone r hpre
    have hnone2 : (t.node.get_ancestor (encode k)).map
        (fun n => new_subtrie (encode k) n) = none := hnone
    rw [Option.map_eq_none'] at hnone2
    exact hspec.2 hnone2 r hpre

/-- C1, refuting the original wording: querying `[1, 2]` in a trie holding a
single entry at `[1]` returns a view of the node whose root-to-node path is
`[1]` (the root key is empty and the node's fragment is `[1]`), yet the
view's `prefix` field is `[1, 2]` — the full encoded query, not the path to
the returned node. -/
theorem claim_C1_cx :
    ((((Trie.new : Trie TKey Nat).insert ⟨0, [1]⟩ 10).1.get_ancestor
        ⟨3, [1, 2]⟩).map SubTrie.pfx = some [1, 2])
    ∧ ((((Trie.new : Trie TKey Nat).insert ⟨0, [1]⟩ 10).1.get_ancestor
        ⟨3, [1, 2]⟩).map (fun st => st.nd)
        = some (TrieNode.leaf [1] (⟨0, [1]⟩ : TKey) 10))
    ∧ ((Trie.new : Trie TKey Nat).insert ⟨0, [1]⟩ 10).1.node.key = []
    ∧ (((Trie.new : Trie TKey Nat).insert ⟨0, [1]⟩ 10).1.node.key
        ++ (TrieNode.leaf [1] (⟨0, [1]⟩ : TKey) 10).key : NibbleVec) ≠ [1, 2] := by
  have hnode : ((Trie.new : Trie TKey Nat).insert ⟨0, [1]⟩ 10).1.node
      = TrieNode.mk [] none
          (setSlot TrieNode.emptyChildren 1
            (some (TrieNode.leaf [1] (⟨0, [1]⟩ : TKey) 10))) 1 := by
    show ((Trie.new : Trie TKey Nat).node.insert (⟨0, [1]⟩ : TKey) 10 [1]).1 = _
    rw [TrieNode.insert_descend_none (by decide) (by decide) (by rfl)]
    rfl
  have hinner : TrieNode.get_ancestor (TrieNode.leaf [1] (⟨0, [1]⟩ : TKey) 10)
      (([1, 2] : NibbleVec).drop
        (matchCount (TrieNode.mk ([] : NibbleVec) none
          (setSlot TrieNode.emptyChildren 1
            (some (TrieNode.leaf [1] (⟨0, [1]⟩ : TKey) 10))) 1).key [1, 2]))
      = some (TrieNode.leaf [1] (⟨0, [1]⟩ : TKey) 10) := by
    rw [show (([1, 2] : NibbleVec).drop
        (matchCount (TrieNode.mk ([] : NibbleVec) none
          (setSlot TrieNode.emptyChildren 1
            (some (TrieNode.leaf [1] (⟨0, [1]⟩ : TKey) 10))) 1).key [1, 2]))
        = [1, 2] from rfl]
    rw [TrieNode.get_ancestor_slot_none (by decide) (by decide) (by rfl)]
    rfl
  have hga : TrieNode.get_ancestor
      (TrieNode.mk ([] : NibbleVec) none
        (setSlot TrieNode.emptyChildren 1
          (some (TrieNode.leaf [1] (⟨0, [1]⟩ : TKey) 10))) 1) [1, 2]
      = some (TrieNode.leaf [1] (⟨0, [1]⟩ : TKey) 10) := by
    rw [TrieNode.get_ancestor_descend (by decide) (by decide) (by rfl)]
    rw [hinner]
  have hview : (((Trie.new : Trie TKey Nat).insert ⟨0, [1]⟩ 10).1.get_ancestor
      ⟨3, [1, 2]⟩)
      = some (new_subtrie [1, 2] (TrieNode.leaf [1] (⟨0, [1]⟩ : TKey) 10)) := by
    show ((((Trie.new : Trie TKey Nat).insert ⟨0, [1]⟩ 10).1.node.get_ancestor
        [1, 2]).map (fun n => new_subtrie [1, 2] n)) = _
    rw [hnode, hga]
    rfl
  refine ⟨by rw [hview]; rfl, by rw [hview]; rfl, by rw [hnode]; rfl, ?_⟩
  rw [hnode]
  decide

/-- C1, witness: the amended theorem applied to the one-entry trie above and
the query key encoding `[1, 2]`. -/
theorem claim_C1_witness :
    TrieWF ((Trie.new : Trie TKey Nat).insert ⟨0, [1]⟩ 10).1
    ∧ ((∀ st, ((Trie.new : Trie TKey Nat).insert ⟨0, [1]⟩ 10).1.get_ancestor
          (⟨3, [1, 2]⟩ : TKey) = some st →
        st.pfx = encode (⟨3, [1, 2]⟩ : TKey)
        ∧ st.nd.key_value.isSome = true
        ∧ ∃ r, r <+: encode (⟨3, [1, 2]⟩ : TKey)
          ∧ TrieNode.valueAt ((Trie.new : Trie TKey Nat).insert ⟨0, [1]⟩ 10).1.node r
              = st.nd.key_value
          ∧ ∀ r2, r2 <+: encode (⟨3, [1, 2]⟩ : TKey) →
              TrieNode.valueAt ((Trie.new : Trie TKey Nat).insert ⟨0, [1]⟩ 10).1.node r2
                ≠ none → r2.length ≤ r.length)
      ∧ (((Trie.new : Trie TKey Nat).insert ⟨0, [1]⟩ 10).1.get_ancestor
            (⟨3, [1, 2]⟩ : TKey) = none →
          ∀ r, r <+: encode (⟨3, [1, 2]⟩ : TKey) →
            TrieNode.valueAt ((Trie.new : Trie TKey Nat).insert ⟨0, [1]⟩ 10).1.node r
              = none)) :=
  ⟨TrieWF_insert TrieWF_new ⟨0, [1]⟩ 10,
    claim_C1 ((Trie.new : Trie TKey Nat).insert ⟨0, [1]⟩ 10).1 ⟨3, [1, 2]⟩
      (TrieWF_insert TrieWF_new ⟨0, [1]⟩ 10)⟩

end RadixTrie
